import Mathlib

/-!
Verification of the `chromy` browser-state engine (`src/chromy/chromi.py`).

The development is a shallow embedding of `ChromInstance` and its operations.
Python dictionaries are modelled as insertion-ordered association lists
(`dlookup` / `dinsert` / `derase` mirror `d[k]`, `d[k] = v`, `d.pop(k)` on
dictionaries whose keys are unique, as produced by `json.loads`), Python sets
of strings as lists with membership-guarded append (`sadd`), parsed JSON
documents as the inductive `JValue`, and the on-disk state as a finite map
from path strings to parse results plus a set of directory paths.  Operations
that can raise in Python return their (partially mutated) state together with
an `Option PyErr`; `none` means the call returned normally.
-/

set_option maxHeartbeats 1600000

namespace Chromy

/-- Parsed JSON values, the result of `json.loads`.  Objects are
insertion-ordered association lists with unique keys. -/
inductive JValue where
  | null : JValue
  | bool (b : Bool) : JValue
  | num (n : Int) : JValue
  | str (s : String) : JValue
  | arr (elems : List JValue) : JValue
  | obj (fields : List (String × JValue)) : JValue

compile_inductive% JValue

/-- Dictionary read `d.get(k)` / `d[k]` on an association list: the value of
the first entry with key `k`. -/
def dlookup {β : Type} : List (String × β) → String → Option β
  | [], _ => none
  | (k', v) :: rest, k => if k' = k then some v else dlookup rest k

/-- Dictionary write `d[k] = v`: replaces the value in place if the key is
present (keeping its position, as Python dictionaries do), appends otherwise. -/
def dinsert {β : Type} : List (String × β) → String → β → List (String × β)
  | [], k, v => [(k, v)]
  | (k', v') :: rest, k, v =>
    if k' = k then (k, v) :: rest else (k', v') :: dinsert rest k v

/-- Dictionary removal `d.pop(k)`.  On the unique-key lists produced by the
operations this agrees with removing the single entry with key `k`. -/
def derase {β : Type} : List (String × β) → String → List (String × β)
  | [], _ => []
  | (k', v) :: rest, k => if k' = k then derase rest k else (k', v) :: derase rest k

/-- Membership test `k in d`. -/
def dcontains {β : Type} (l : List (String × β)) (k : String) : Bool :=
  (dlookup l k).isSome

/-- Set insertion `s.add(x)` for a Python set of strings, modelled as a
duplicate-free list in insertion order. -/
def sadd (l : List String) (x : String) : List String :=
  if x ∈ l then l else l ++ [x]

/-- Conditions the Python code can raise; the constructors name the Python
exception classes observed escaping the corresponding operations. -/
inductive PyErr where
  | keyError (k : String) : PyErr
  | typeError : PyErr
  | valueError : PyErr
  | fileNotFound (p : String) : PyErr
  | jsonDecodeError (p : String) : PyErr
deriving DecidableEq

/-- The observable on-disk state: a set of directory paths and a map from
file paths to the outcome of reading-and-JSON-parsing that file (`none`
standing for a file whose text is not valid JSON). -/
structure FS where
  dirs : List String
  files : List (String × Option JValue)

/-- Path is an existing directory (`Path.is_dir`). -/
def FS.isDir (fs : FS) (p : String) : Bool := p ∈ fs.dirs

/-- Path is an existing file (`Path.is_file`). -/
def FS.isFile (fs : FS) (p : String) : Bool := (dlookup fs.files p).isSome

/-- External helper `jnp3.path.path_exists`, modelled at its interface
boundary: the path exists as a file or directory (`os.path.exists`). -/
def path_exists (fs : FS) (p : String) : Bool := fs.isFile p || fs.isDir p

/-- Path joining `Path(a) / b` on a POSIX system; `Path(a, "")` is `Path(a)`. -/
def pjoin (a b : String) : String := if b = "" then a else a ++ "/" ++ b

/-- Field read `d.get(k, default)` on a JSON object's fields. -/
def jgetD (fields : List (String × JValue)) (k : String) (d : JValue) : JValue :=
  (dlookup fields k).getD d

/-- External helper `jnp3.dict.get_with_chained_keys`, modelled at its
interface boundary: follow the chain of keys through nested objects,
returning `none` (Python `None`) as soon as a step cannot be taken. -/
def get_with_chained_keys : JValue → List String → Option JValue
  | j, [] => some j
  | .obj fields, k :: ks =>
    match dlookup fields k with
    | some v => get_with_chained_keys v ks
    | none => none
  | _, _ :: _ => none

/-- Modelled from the spec: the `Profile` dataclass of `chromy/structs.py`
(the file is not under `src/`; §3 of the spec lists its fields and that the
bookmark-file path starts empty and the extension set and bookmark mapping
start empty).  The display-name fields hold whatever JSON value the state
file contained, with `""` as the default; they are never read back by the
engine. -/
structure Profile where
  id : String
  name : JValue := .str ""
  user_name : JValue := .str ""
  gaia_name : JValue := .str ""
  gaia_given_name : JValue := .str ""
  userdata_dir : String := ""
  profile_dir : String := ""
  bookmark_file : String := ""
  extensions : List String := []
  bookmarks : List (String × String) := []

/-- Modelled from the spec: the `Extension` dataclass of `chromy/structs.py`
(not under `src/`; fields per §3 of the spec). -/
structure Extension where
  id : String
  name : JValue
  description : JValue
  icon : String
  profiles : List String

/-- Modelled from the spec: the `Bookmark` dataclass of `chromy/structs.py`
(not under `src/`; fields per §3 of the spec). -/
structure Bookmark where
  name : JValue
  url : String
  profiles : List (String × String)

/-- The engine state: `ChromInstance.__init__`. -/
structure ChromInstance where
  userdata_dir : String
  profiles : List (String × Profile) := []
  extensions : List (String × Extension) := []
  bookmarks : List (String × Bookmark) := []

/-- The loop of `fetch_all_profiles` lines 43-54: one `Profile` per
`info_cache` entry, built into the (previously cleared) profile dictionary.
An entry whose value is not an object would make `profile_info.get` raise in
Python (`AttributeError`, modelled as `typeError`) with the partially rebuilt
dictionary left behind. -/
def buildProfiles (ud : String) : List (String × JValue) → List (String × Profile) →
    List (String × Profile) × Option PyErr
  | [], acc => (acc, none)
  | (profile_id, info) :: rest, acc =>
    match info with
    | .obj fields =>
      buildProfiles ud rest (dinsert acc profile_id
        { id := profile_id
          name := jgetD fields "name" (.str "")
          user_name := jgetD fields "user_name" (.str "")
          gaia_name := jgetD fields "gaia_name" (.str "")
          gaia_given_name := jgetD fields "gaia_given_name" (.str "")
          userdata_dir := ud
          profile_dir := pjoin ud profile_id })
    | _ => (acc, some .typeError)

/-- `ChromInstance.fetch_all_profiles` (lines 20-54).  Each guard failure
prints and returns normally, before `self.profiles.clear()`, so the profile
set is untouched on those paths.  A non-object `info_cache` value would be
iterated after the clear and raise (`TypeError`), with the profile set left
cleared. -/
def fetch_all_profiles (s : ChromInstance) (fs : FS) : ChromInstance × Option PyErr :=
  let userdata_dir := s.userdata_dir
  if !fs.isDir userdata_dir then (s, none)
  else
    let local_state_file := pjoin userdata_dir "Local State"
    match dlookup fs.files local_state_file with
    | none => (s, none)
    | some none => (s, none)
    | some (some local_state_data) =>
      match get_with_chained_keys local_state_data ["profile", "info_cache"] with
      | none => (s, none)
      | some (.obj profiles_info) =>
        let r := buildProfiles userdata_dir profiles_info []
        ({ s with profiles := r.1 }, r.2)
      | some _ => ({ s with profiles := [] }, some .typeError)

theorem dlookup_mem {β : Type} {l : List (String × β)} {k : String} {v : β}
    (h : dlookup l k = some v) : (k, v) ∈ l := by
  induction l with
  | nil => simp [dlookup] at h
  | cons e rest ih =>
    obtain ⟨k', v'⟩ := e
    by_cases hk : k' = k
    · subst hk
      simp [dlookup] at h
      subst h
      exact List.mem_cons_self _ _
    · simp [dlookup, hk] at h
      exact List.mem_cons_of_mem _ (ih h)

theorem sizeOf_lt_of_mem_arr {c : JValue} {cs : List JValue} (h : c ∈ cs) :
    sizeOf c < sizeOf (JValue.arr cs) := by
  have := List.sizeOf_lt_of_mem h
  simp only [JValue.arr.sizeOf_spec]
  omega

theorem sizeOf_lt_of_lookup_obj {fields : List (String × JValue)} {k : String} {v : JValue}
    (h : dlookup fields k = some v) : sizeOf v < sizeOf (JValue.obj fields) := by
  have hm := List.sizeOf_lt_of_mem (dlookup_mem h)
  have hp : sizeOf (k, v) = 1 + sizeOf k + sizeOf v := rfl
  simp only [JValue.obj.sizeOf_spec]
  omega

/-- Accumulating decimal-digit parser over a character list. -/
def digitsValAux : List Char → Nat → Option Nat
  | [], acc => some acc
  | c :: cs, acc => if c.isDigit then digitsValAux cs (acc * 10 + (c.toNat - 48)) else none

/-- Python's `int(s)` on a string, modelled for an optional sign followed by
decimal digits; `none` is the `ValueError` raised on anything else (the
whitespace and underscore tolerance of the real `int` is not modelled; the
claims only exercise plain numerals). -/
def pyInt? (s : String) : Option Int :=
  match s.data with
  | [] => none
  | c :: cs =>
    if c = '-' then
      match cs with
      | [] => none
      | _ :: _ => (digitsValAux cs 0).map (fun n => -(n : Int))
    else if c = '+' then
      match cs with
      | [] => none
      | _ :: _ => (digitsValAux cs 0).map (fun n => (n : Int))
    else (digitsValAux (c :: cs) 0).map (fun n => (n : Int))

/-- Evaluation of `map(int, keys)`: `none` models the `ValueError` that
`int` raises on a non-numeric size label. -/
def intKeys : List String → Option (List Int)
  | [] => some []
  | k :: ks =>
    match pyInt? k, intKeys ks with
    | some n, some ns => some (n :: ns)
    | _, _ => none

/-- Python `max` over a realised list, `None` when it is empty (the source
passes `default=""`, turning the empty case into the key string `""`). -/
def pymax : List Int → Option Int
  | [] => none
  | x :: xs => some (xs.foldl max x)

/-- Lines 87-97 of `_fetch_extensions_from_one_profile`, shared by the
offline-install and online-install branches: resolve name, description and
icon from a manifest, `icon_parent_path` being the icon base directory.  The
icon key is `str(max(map(int, icons.keys()), default=""))` and the composed
icon path is kept only if it is an existing file. -/
def resolveExtMeta (fs : FS) (ext_id profile_id : String) (manifest_data : JValue)
    (icon_parent_path : String) : Except PyErr Extension :=
  match manifest_data with
  | .obj mfields =>
    match jgetD mfields "icons" (.obj []) with
    | .obj icons_info =>
      match intKeys (icons_info.map Prod.fst) with
      | none => .error .valueError
      | some ks =>
        let key_str := match pymax ks with
          | none => ""
          | some n => toString n
        match (dlookup icons_info key_str).getD (.str "") with
        | .str icon_short_path =>
          let icon_path := pjoin icon_parent_path icon_short_path
          .ok { id := ext_id
                name := jgetD mfields "name" (.str "")
                description := jgetD mfields "description" (.str "")
                icon := if fs.isFile icon_path then icon_path else ""
                profiles := [profile_id] }
        | _ => .error .typeError
    | _ => .error .typeError
  | _ => .error .typeError

/-- `_fetch_extensions_from_one_profile` (lines 56-98): iterate the
`extensions.settings` entries in order, threading the profile's extension
set and the global extension index.  The unguarded reads of the offline
branch (a missing or unparsable `manifest.json`) abort the whole call, as
the uncaught exception does in Python, with the state mutated so far.  A
non-string `path` value is modelled as the `TypeError` its first path
operation raises. -/
def fetch_extensions_from_one_profile (fs : FS) :
    List (String × JValue) → Profile → List (String × Extension) →
    (Profile × List (String × Extension)) × Option PyErr
  | [], profile, exts => ((profile, exts), none)
  | (ext_id, ext_set) :: rest, profile, exts =>
    match dlookup exts ext_id with
    | some e =>
      fetch_extensions_from_one_profile fs rest
        { profile with extensions := sadd profile.extensions ext_id }
        (dinsert exts ext_id { e with profiles := sadd e.profiles profile.id })
    | none =>
      let ext_dir := pjoin profile.profile_dir "Extensions"
      if !fs.isDir ext_dir then
        fetch_extensions_from_one_profile fs rest profile exts
      else
        match ext_set with
        | .obj set_fields =>
          match jgetD set_fields "path" (.str "") with
          | .str ext_path =>
            if ext_path = "" then
              fetch_extensions_from_one_profile fs rest profile exts
            else if path_exists fs ext_path then
              match dlookup fs.files (pjoin ext_path "manifest.json") with
              | none =>
                ((profile, exts), some (.fileNotFound (pjoin ext_path "manifest.json")))
              | some none =>
                ((profile, exts), some (.jsonDecodeError (pjoin ext_path "manifest.json")))
              | some (some manifest_data) =>
                match resolveExtMeta fs ext_id profile.id manifest_data ext_path with
                | .error e => ((profile, exts), some e)
                | .ok ext =>
                  fetch_extensions_from_one_profile fs rest
                    { profile with extensions := sadd profile.extensions ext_id }
                    (dinsert exts ext_id ext)
            else if path_exists fs (pjoin ext_dir ext_path) then
              match resolveExtMeta fs ext_id profile.id (jgetD set_fields "manifest" (.obj []))
                  (pjoin ext_dir ext_path) with
              | .error e => ((profile, exts), some e)
              | .ok ext =>
                fetch_extensions_from_one_profile fs rest
                  { profile with extensions := sadd profile.extensions ext_id }
                  (dinsert exts ext_id ext)
            else
              fetch_extensions_from_one_profile fs rest profile exts
          | _ => ((profile, exts), some .typeError)
        | _ => ((profile, exts), some .typeError)

/-- The per-profile body of `fetch_extensions_from_all_profiles`
(lines 104-122): a missing or unparsable `Secure Preferences` file or an
absent `extensions.settings` chain skips that profile only. -/
def extProfileStep (fs : FS) (profile : Profile) (exts : List (String × Extension)) :
    (Profile × List (String × Extension)) × Option PyErr :=
  let secure_pref_file := pjoin profile.profile_dir "Secure Preferences"
  match dlookup fs.files secure_pref_file with
  | none => ((profile, exts), none)
  | some none => ((profile, exts), none)
  | some (some secure_pref_data) =>
    match get_with_chained_keys secure_pref_data ["extensions", "settings"] with
    | none => ((profile, exts), none)
    | some (.obj ext_settings) =>
      fetch_extensions_from_one_profile fs ext_settings profile exts
    | some _ => ((profile, exts), some .typeError)

/-- The per-profile loop of `fetch_extensions_from_all_profiles`
(lines 102-122), rebuilding the profile entries in place and stopping at
the first escaped exception. -/
def extProfilesLoop (fs : FS) :
    List (String × Profile) → List (String × Extension) →
    (List (String × Profile) × List (String × Extension)) × Option PyErr
  | [], exts => (([], exts), none)
  | (profile_id, profile) :: rest, exts =>
    match extProfileStep fs profile exts with
    | ((profile', exts'), none) =>
      let r := extProfilesLoop fs rest exts'
      (((profile_id, profile') :: r.1.1, r.1.2), r.2)
    | ((profile', exts'), some e) =>
      (((profile_id, profile') :: rest, exts'), some e)

/-- `ChromInstance.fetch_extensions_from_all_profiles` (lines 100-122): the
global extension index is cleared, then every profile is processed in
order. -/
def fetch_extensions_from_all_profiles (s : ChromInstance) (fs : FS) :
    ChromInstance × Option PyErr :=
  let r := extProfilesLoop fs s.profiles []
  ({ s with profiles := r.1.1, extensions := r.1.2 }, r.2)

/-- Evaluation of `'/'.join(path_ls)`.  The accumulated list holds the raw
JSON folder-name values, so a non-string ancestor makes the join raise
(`TypeError`, modelled as `none`) at a url descendant. -/
def pyJoin : List JValue → Option String
  | [] => some ""
  | x :: xs =>
    match x with
    | .str s =>
      match xs with
      | [] => some s
      | _ :: _ =>
        match pyJoin xs with
        | some rest => some (s ++ "/" ++ rest)
        | none => none
    | _ => none

mutual

/-- Fuel-indexed form of the bookmark-tree walk; the fuel only makes the
nested-tree recursion structural (hence computable by the kernel) and
strictly exceeds the size of the visited value on every reachable call, so
the out-of-fuel branch is dead code whenever `sizeOf node ≤ fuel`.  See
`fetch_bookmarks_from_one_type` for the behaviour being modelled. -/
def fetchBmkNodeF : Nat → String → JValue → List JValue →
    List (String × String) → List (String × Bookmark) →
    (List (String × String) × List (String × Bookmark)) × Option PyErr
  | 0, _, _, _, pB, gB => ((pB, gB), some .typeError)
  | fuel+1, profile_id, node, path_ls, pB, gB =>
    match node with
    | .obj fields =>
      match dlookup fields "type" with
      | none => ((pB, gB), some (.keyError "type"))
      | some t =>
        match t with
        | .str ty =>
          if ty = "url" then
            match dlookup fields "url" with
            | none => ((pB, gB), some (.keyError "url"))
            | some uv =>
              match uv with
              | .str url =>
                match pyJoin path_ls with
                | none => ((pB, gB), some .typeError)
                | some bmk_path =>
                  let pB' := dinsert pB url bmk_path
                  match dlookup gB url with
                  | some b =>
                    ((pB', dinsert gB url
                      { b with profiles := dinsert b.profiles profile_id bmk_path }), none)
                  | none =>
                    match dlookup fields "name" with
                    | none => ((pB', gB), some (.keyError "name"))
                    | some namev =>
                      ((pB', dinsert gB url
                        { name := namev, url := url,
                          profiles := [(profile_id, bmk_path)] }), none)
              | _ => ((pB, gB), some .typeError)
          else if ty = "folder" then
            match dlookup fields "name" with
            | none => ((pB, gB), some (.keyError "name"))
            | some namev =>
              match dlookup fields "children" with
              | none => ((pB, gB), some (.keyError "children"))
              | some cv =>
                match cv with
                | .arr children =>
                  fetchBmkListF fuel profile_id children (path_ls ++ [namev]) pB gB
                | _ => ((pB, gB), some .typeError)
          else ((pB, gB), none)
        | _ => ((pB, gB), none)
    | _ => ((pB, gB), some .typeError)

/-- Fuel-indexed walk over a list of children, in order, stopping at the
first raised error; dead out-of-fuel branch as in `fetchBmkNodeF`. -/
def fetchBmkListF : Nat → String → List JValue → List JValue →
    List (String × String) → List (String × Bookmark) →
    (List (String × String) × List (String × Bookmark)) × Option PyErr
  | 0, _, _, _, pB, gB => ((pB, gB), some .typeError)
  | fuel+1, profile_id, children, path_ls, pB, gB =>
    match children with
    | [] => ((pB, gB), none)
    | c :: cs =>
      match fetchBmkNodeF fuel profile_id c path_ls pB gB with
      | (st, none) => fetchBmkListF fuel profile_id cs path_ls st.1 st.2
      | (st, some e) => (st, some e)

end

/-- `_fetch_bookmarks_from_one_type` (lines 124-149): a `"url"` node records
the joined ancestor path in the profile mapping and upserts the global
bookmark entry (creating it, with the node's name, only when the url is not
yet indexed); a `"folder"` node appends its name to the ancestor list and
walks its children in order; any other `type` value does nothing.  Reads of
missing keys raise `KeyError` as in Python.  A non-string url is stored
under a non-string dictionary key by Python; the model keys its maps by
strings and flags that case as `typeError` (no claim exercises it). -/
def fetch_bookmarks_from_one_type (profile_id : String) (node : JValue)
    (path_ls : List JValue) (pB : List (String × String))
    (gB : List (String × Bookmark)) :
    (List (String × String) × List (String × Bookmark)) × Option PyErr :=
  fetchBmkNodeF (sizeOf node) profile_id node path_ls pB gB

/-- The `for child in bookmark_info["children"]` recursion of the walk. -/
def fetch_bookmarks_list (profile_id : String) (children : List JValue)
    (path_ls : List JValue) (pB : List (String × String))
    (gB : List (String × Bookmark)) :
    (List (String × String) × List (String × Bookmark)) × Option PyErr :=
  fetchBmkListF (sizeOf children) profile_id children path_ls pB gB

/-- The per-profile body of `fetch_bookmarks_from_all_profiles`
(lines 153-177): a missing `Bookmarks` file skips the profile silently (and
leaves `bookmark_file` as it was); once the file exists its path is recorded
before parsing, so it stays recorded even when parsing fails; each value of
`roots` is walked with the initial ancestor list `[""]`. -/
def bmkProfileStep (fs : FS) (profile : Profile) (gB : List (String × Bookmark)) :
    (Profile × List (String × Bookmark)) × Option PyErr :=
  let bookmark_file := pjoin profile.profile_dir "Bookmarks"
  match dlookup fs.files bookmark_file with
  | none => ((profile, gB), none)
  | some parsed =>
    let profile := { profile with bookmark_file := bookmark_file }
    match parsed with
    | none => ((profile, gB), none)
    | some bookmark_data =>
      match get_with_chained_keys bookmark_data ["roots"] with
      | none => ((profile, gB), none)
      | some (.obj roots) =>
        match fetch_bookmarks_list profile.id (roots.map Prod.snd) [.str ""]
            profile.bookmarks gB with
        | ((pB', gB'), err) => (({ profile with bookmarks := pB' }, gB'), err)
      | some _ => ((profile, gB), some .typeError)

/-- The per-profile loop of `fetch_bookmarks_from_all_profiles`
(lines 151-177), rebuilding the profile entries in place and stopping at
the first escaped exception. -/
def bmkProfilesLoop (fs : FS) :
    List (String × Profile) → List (String × Bookmark) →
    (List (String × Profile) × List (String × Bookmark)) × Option PyErr
  | [], gB => (([], gB), none)
  | (profile_id, profile) :: rest, gB =>
    match bmkProfileStep fs profile gB with
    | ((profile', gB'), none) =>
      let r := bmkProfilesLoop fs rest gB'
      (((profile_id, profile') :: r.1.1, r.1.2), r.2)
    | ((profile', gB'), some e) =>
      (((profile_id, profile') :: rest, gB'), some e)

/-- `ChromInstance.fetch_bookmarks_from_all_profiles` (lines 151-177): the
global bookmark index is cleared, then every profile is processed in order. -/
def fetch_bookmarks_from_all_profiles (s : ChromInstance) (fs : FS) :
    ChromInstance × Option PyErr :=
  let r := bmkProfilesLoop fs s.profiles []
  ({ s with profiles := r.1.1, bookmarks := r.1.2 }, r.2)

/-- Lines 192-199 of `_delete_bookmarks_in_one_folder`: index maintenance
for one deleted url.  The url is dropped from the profile mapping if
present, and the profile's entry is dropped from the global bookmark, the
whole bookmark disappearing when its profile-path mapping becomes empty. -/
def gbPop (gB : List (String × Bookmark)) (profile_id url : String) :
    List (String × Bookmark) :=
  match dlookup gB url with
  | some b =>
    if dcontains b.profiles profile_id then
      let profiles' := derase b.profiles profile_id
      if profiles' = [] then derase gB url
      else dinsert gB url { b with profiles := profiles' }
    else gB
  | none => gB

mutual

/-- Fuel-indexed form of the deletion walk; as with `fetchBmkNodeF` the
fuel only makes the recursion structural and the out-of-fuel branch is dead
code whenever `sizeOf node ≤ fuel`.  See `delete_bookmarks_in_one_folder`
for the behaviour being modelled. -/
def delNodeF : Nat → String → List String → JValue →
    List (String × String) → List (String × Bookmark) →
    (JValue × List (String × String) × List (String × Bookmark)) × Option PyErr
  | 0, _, _, node, pB, gB => ((node, pB, gB), some .typeError)
  | fuel+1, profile_id, urls_to_delete, node, pB, gB =>
    match node with
    | .obj fields =>
      match dlookup fields "type" with
      | none => ((node, pB, gB), some (.keyError "type"))
      | some t =>
        match t with
        | .str ty =>
          if ty = "folder" then
            match dlookup fields "children" with
            | none => ((node, pB, gB), some (.keyError "children"))
            | some cv =>
              match cv with
              | .arr children =>
                match delChildrenF fuel profile_id urls_to_delete children pB gB with
                | ((children', pB', gB'), none) =>
                  ((.obj (dinsert fields "children" (.arr children')), pB', gB'), none)
                | ((_, pB', gB'), some e) => ((node, pB', gB'), some e)
              | _ => ((node, pB, gB), some .typeError)
          else ((node, pB, gB), none)
        | _ => ((node, pB, gB), none)
    | _ => ((node, pB, gB), some .typeError)

/-- Fuel-indexed reverse-order loop over a folder's children: the recursion
processes the tail (the higher indices) before the head, matching
`range(len(children) - 1, -1, -1)`; dead out-of-fuel branch as above. -/
def delChildrenF : Nat → String → List String → List JValue →
    List (String × String) → List (String × Bookmark) →
    (List JValue × List (String × String) × List (String × Bookmark)) × Option PyErr
  | 0, _, _, children, pB, gB => ((children, pB, gB), some .typeError)
  | fuel+1, profile_id, urls_to_delete, children, pB, gB =>
    match children with
    | [] => (([], pB, gB), none)
    | c :: rest =>
      match delChildrenF fuel profile_id urls_to_delete rest pB gB with
      | ((rest', pB', gB'), some e) => ((c :: rest', pB', gB'), some e)
      | ((rest', pB', gB'), none) =>
        match c with
        | .obj cfields =>
          match dlookup cfields "type" with
          | none => ((c :: rest', pB', gB'), some (.keyError "type"))
          | some t =>
            match t with
            | .str ty =>
              if ty = "url" then
                match dlookup cfields "url" with
                | none => ((c :: rest', pB', gB'), some (.keyError "url"))
                | some uv =>
                  match uv with
                  | .str url =>
                    if url ∈ urls_to_delete then
                      ((rest', derase pB' url, gbPop gB' profile_id url), none)
                    else ((c :: rest', pB', gB'), none)
                  | _ => ((c :: rest', pB', gB'), some .typeError)
              else
                match delNodeF fuel profile_id urls_to_delete c pB' gB' with
                | ((c', pB'', gB''), err) => ((c' :: rest', pB'', gB''), err)
            | _ =>
              match delNodeF fuel profile_id urls_to_delete c pB' gB' with
              | ((c', pB'', gB''), err) => ((c' :: rest', pB'', gB''), err)
        | _ => ((c :: rest', pB', gB'), some .typeError)

end

/-- `_delete_bookmarks_in_one_folder` (lines 179-203): nodes whose `type` is
not `"folder"` are returned untouched; a folder's children are visited in
reverse index order; a url-type child whose url is in the delete set is
popped from the children list and from both indices, and every other child
is recursed into.  On an error path the returned `JValue` is the unmutated
input: the exception escapes before the file is written, so the partially
mutated in-memory tree is discarded by the source. -/
def delete_bookmarks_in_one_folder (profile_id : String) (urls_to_delete : List String)
    (node : JValue) (pB : List (String × String)) (gB : List (String × Bookmark)) :
    (JValue × List (String × String) × List (String × Bookmark)) × Option PyErr :=
  delNodeF (sizeOf node) profile_id urls_to_delete node pB gB

/-- The `for i in range(len(children) - 1, -1, -1)` loop (lines 185-203)
over one folder's children list. -/
def deleteChildren (profile_id : String) (urls_to_delete : List String)
    (children : List JValue) (pB : List (String × String))
    (gB : List (String × Bookmark)) :
    (List JValue × List (String × String) × List (String × Bookmark)) × Option PyErr :=
  delChildrenF (sizeOf children) profile_id urls_to_delete children pB gB

/-- The `for bmk_root in bookmark_data["roots"]` loop (lines 233-235),
walking each root value and rebuilding the roots object in place. -/
def deleteRootsLoop (profile_id : String) (urls_to_delete : List String) :
    List (String × JValue) → List (String × String) → List (String × Bookmark) →
    (List (String × JValue) × List (String × String) × List (String × Bookmark)) × Option PyErr
  | [], pB, gB => (([], pB, gB), none)
  | (rname, rnode) :: rest, pB, gB =>
    match delete_bookmarks_in_one_folder profile_id urls_to_delete rnode pB gB with
    | ((rnode', pB', gB'), none) =>
      match deleteRootsLoop profile_id urls_to_delete rest pB' gB' with
      | ((rest', pB'', gB''), err) => (((rname, rnode') :: rest', pB'', gB''), err)
    | ((rnode', pB', gB'), some e) => (((rname, rnode') :: rest, pB', gB'), some e)

/-- The per-identifier body of `delete_bookmarks_from_profiles`
(lines 213-237).  Look the profile up (an unknown identifier raises
`KeyError` there and then); best-effort delete the `Bookmarks.bak` backup;
skip if no bookmark file is recorded; re-read and re-parse the bookmark
file (a decode failure skips this profile; a missing file raises
`FileNotFoundError`); drop a top-level `checksum`; walk every root; write
the mutated document back. -/
def deleteProfileStep (urls_to_delete : List String) (profile_id : String)
    (s : ChromInstance) (fs : FS) : (ChromInstance × FS) × Option PyErr :=
  match dlookup s.profiles profile_id with
  | none => ((s, fs), some (.keyError profile_id))
  | some profile =>
    let fs := { fs with
      files := derase fs.files (pjoin profile.profile_dir "Bookmarks.bak") }
    if profile.bookmark_file = "" then ((s, fs), none)
    else
      match dlookup fs.files profile.bookmark_file with
      | none => ((s, fs), some (.fileNotFound profile.bookmark_file))
      | some none => ((s, fs), none)
      | some (some bookmark_data) =>
        match bookmark_data with
        | .obj bfields0 =>
          let bfields := derase bfields0 "checksum"
          match dlookup bfields "roots" with
          | some (.obj roots) =>
            match deleteRootsLoop profile_id urls_to_delete roots
                profile.bookmarks s.bookmarks with
            | ((roots', pB', gB'), none) =>
              let s' := { s with
                profiles := dinsert s.profiles profile_id { profile with bookmarks := pB' },
                bookmarks := gB' }
              let data' : Option JValue := some (.obj (dinsert bfields "roots" (.obj roots')))
              let fs' := { fs with files := dinsert fs.files profile.bookmark_file data' }
              ((s', fs'), none)
            | ((_, pB', gB'), some e) =>
              (({ s with
                  profiles := dinsert s.profiles profile_id { profile with bookmarks := pB' },
                  bookmarks := gB' }, fs), some e)
          | some _ => ((s, fs), some .typeError)
          | none =>
            let fs' := { fs with
              files := dinsert fs.files profile.bookmark_file (some (.obj bfields)) }
            ((s, fs'), none)
        | _ => ((s, fs), some .typeError)

/-- The per-identifier loop of `delete_bookmarks_from_profiles`
(lines 213-237), stopping at the first escaped exception with the earlier
identifiers' mutations in place. -/
def deleteProfilesLoop (urls_to_delete : List String) :
    List String → ChromInstance → FS → (ChromInstance × FS) × Option PyErr
  | [], s, fs => ((s, fs), none)
  | profile_id :: rest, s, fs =>
    match deleteProfileStep urls_to_delete profile_id s fs with
    | (r, none) => deleteProfilesLoop urls_to_delete rest r.1 r.2
    | (r, some e) => (r, some e)

/-- `ChromInstance.delete_bookmarks_from_profiles` (lines 205-237): when no
profile list is given, all known profile identifiers are selected. -/
def delete_bookmarks_from_profiles (s : ChromInstance) (fs : FS)
    (urls_to_delete : List String) (profile_ids : Option (List String)) :
    (ChromInstance × FS) × Option PyErr :=
  let ids := match profile_ids with
    | none => s.profiles.map Prod.fst
    | some l => l
  deleteProfilesLoop urls_to_delete ids s fs

/-- Spec-side replay of the walk's per-profile bookkeeping: insert each
visited (url, joined path) pair in visit order. -/
def applyAll (pB : List (String × String))
    (trs : List (JValue × String × String)) : List (String × String) :=
  trs.foldl (fun acc tr => dinsert acc tr.2.1 tr.2.2) pB

/-- The global-index update for one visited url node (lines 136-145):
overwrite this profile's path entry if the url is already indexed, create a
fresh `Bookmark` carrying the node's name otherwise. -/
def gUpsert (profile_id : String) (gB : List (String × Bookmark)) (nm : JValue)
    (url path : String) : List (String × Bookmark) :=
  match dlookup gB url with
  | some b => dinsert gB url { b with profiles := dinsert b.profiles profile_id path }
  | none => dinsert gB url { name := nm, url := url, profiles := [(profile_id, path)] }

/-- Spec-side replay of the walk's global-index bookkeeping over a visit
list. -/
def gApply (profile_id : String) (gB : List (String × Bookmark))
    (trs : List (JValue × String × String)) : List (String × Bookmark) :=
  trs.foldl (fun acc tr => gUpsert profile_id acc tr.1 tr.2.1 tr.2.2) gB

mutual

/-- Spec-side list of the (name value, url, joined folder path) triples of
the url nodes the aggregation walk visits under a node, in visit order: a
url node contributes the `'/'`-join of the accumulated ancestor list, and a
folder node extends that list with its own name, one segment per enclosing
folder. -/
def reachNodeF : Nat → JValue → List JValue → List (JValue × String × String)
  | 0, _, _ => []
  | fuel+1, node, path_ls =>
    match node with
    | .obj fields =>
      match dlookup fields "type" with
      | some (.str ty) =>
        if ty = "url" then
          match dlookup fields "url", pyJoin path_ls with
          | some (.str url), some p => [(jgetD fields "name" .null, url, p)]
          | _, _ => []
        else if ty = "folder" then
          match dlookup fields "name", dlookup fields "children" with
          | some namev, some (.arr children) => reachListF fuel children (path_ls ++ [namev])
          | _, _ => []
        else []
      | _ => []
    | _ => []

/-- List version of `reachNodeF`, children in order. -/
def reachListF : Nat → List JValue → List JValue → List (JValue × String × String)
  | 0, _, _ => []
  | fuel+1, children, path_ls =>
    match children with
    | [] => []
    | c :: cs => reachNodeF fuel c path_ls ++ reachListF fuel cs path_ls

end

/-- The visit list of the aggregation walk from a node (fuel instantiated
as in `fetch_bookmarks_from_one_type`). -/
def reach_triples (node : JValue) (path_ls : List JValue) :
    List (JValue × String × String) :=
  reachNodeF (sizeOf node) node path_ls

mutual

/-- Spec-side statement of §4.4's removal contract on the tree alone: a
folder's children lose exactly the url-type children whose url is in the
delete set, the remaining children keep their relative order, and every
non-url child is recursed into.  Written as a forward filter, to be
compared with the reverse-indexed in-place loop of the source. -/
def specDelNodeF : Nat → List String → JValue → JValue
  | 0, _, node => node
  | fuel+1, urls_to_delete, node =>
    match node with
    | .obj fields =>
      match dlookup fields "type" with
      | some (.str ty) =>
        if ty = "folder" then
          match dlookup fields "children" with
          | some (.arr children) =>
            .obj (dinsert fields "children"
              (.arr (specDelChildrenF fuel urls_to_delete children)))
          | _ => node
        else node
      | _ => node
    | _ => node

/-- Forward filter over a folder's children; see `specDelNodeF`. -/
def specDelChildrenF : Nat → List String → List JValue → List JValue
  | 0, _, children => children
  | fuel+1, urls_to_delete, children =>
    match children with
    | [] => []
    | c :: rest =>
      let rest' := specDelChildrenF fuel urls_to_delete rest
      match c with
      | .obj cfields =>
        match dlookup cfields "type" with
        | some (.str ty) =>
          if ty = "url" then
            match dlookup cfields "url" with
            | some (.str url) => if url ∈ urls_to_delete then rest' else c :: rest'
            | _ => c :: rest'
          else specDelNodeF fuel urls_to_delete c :: rest'
        | some _ => specDelNodeF fuel urls_to_delete c :: rest'
        | none => c :: rest'
      | _ => c :: rest'

end

/-- Spec-side deleted tree (fuel instantiated as in
`delete_bookmarks_in_one_folder`). -/
def specDeleteNode (urls_to_delete : List String) (node : JValue) : JValue :=
  specDelNodeF (sizeOf node) urls_to_delete node

/-- Spec-side filtered children list (fuel instantiated as in
`deleteChildren`). -/
def specDeleteChildren (urls_to_delete : List String) (children : List JValue) :
    List JValue :=
  specDelChildrenF (sizeOf children) urls_to_delete children

mutual

/-- The urls the deletion walk pops under a node, in the order it pops them
(the reverse-indexed loop pops later siblings first). -/
def removedNodeF : Nat → List String → JValue → List String
  | 0, _, _ => []
  | fuel+1, urls_to_delete, node =>
    match node with
    | .obj fields =>
      match dlookup fields "type" with
      | some (.str ty) =>
        if ty = "folder" then
          match dlookup fields "children" with
          | some (.arr children) => removedChildrenF fuel urls_to_delete children
          | _ => []
        else []
      | _ => []
    | _ => []

/-- List version of `removedNodeF`, later siblings first. -/
def removedChildrenF : Nat → List String → List JValue → List String
  | 0, _, _ => []
  | fuel+1, urls_to_delete, children =>
    match children with
    | [] => []
    | c :: rest =>
      removedChildrenF fuel urls_to_delete rest ++
        (match c with
         | .obj cfields =>
           match dlookup cfields "type" with
           | some (.str ty) =>
             if ty = "url" then
               match dlookup cfields "url" with
               | some (.str url) => if url ∈ urls_to_delete then [url] else []
               | _ => []
             else removedNodeF fuel urls_to_delete c
           | some _ => removedNodeF fuel urls_to_delete c
           | none => []
         | _ => [])

end

/-- One deleted url's combined effect on the two indices (lines 190-199). -/
def popOne (profile_id : String)
    (st : List (String × String) × List (String × Bookmark)) (url : String) :
    List (String × String) × List (String × Bookmark) :=
  (derase st.1 url, gbPop st.2 profile_id url)

/-- Spec-side replay of the deletion walk's index bookkeeping. -/
def popAll (profile_id : String)
    (st : List (String × String) × List (String × Bookmark)) (urls : List String) :
    List (String × String) × List (String × Bookmark) :=
  urls.foldl (popOne profile_id) st

mutual

/-- Well-formed bookmark nodes: `type` is present and a string; url nodes
carry a string `url` and some `name`; folder nodes carry a string `name`
and an array of well-formed children.  Sufficient for both tree walks to
return without error. -/
def wfNodeF : Nat → JValue → Bool
  | 0, _ => false
  | fuel+1, node =>
    match node with
    | .obj fields =>
      match dlookup fields "type" with
      | some (.str ty) =>
        if ty = "url" then
          (match dlookup fields "url" with
           | some (.str _) => true
           | _ => false) && (dlookup fields "name").isSome
        else if ty = "folder" then
          (match dlookup fields "name" with
           | some (.str _) => true
           | _ => false) &&
          (match dlookup fields "children" with
           | some (.arr children) => wfListF fuel children
           | _ => false)
        else true
      | _ => false
    | _ => false

/-- All nodes of a children list are well-formed. -/
def wfListF : Nat → List JValue → Bool
  | 0, _ => false
  | fuel+1, children =>
    match children with
    | [] => true
    | c :: cs => wfNodeF fuel c && wfListF fuel cs

end

/-- Well-formedness of a bookmark tree (fuel instantiated as in the walks). -/
def wf_node (node : JValue) : Bool := wfNodeF (sizeOf node) node

/-- Referential integrity between the per-profile url-to-path mappings and
the global bookmark index (§3 and §8 of the spec): a profile's mapping and
the corresponding entries of the global index agree path for path, every
indexed `Bookmark` has a non-empty profile-path mapping, and every profile
appearing in one is a known profile. -/
def InvB (profs : List (String × Profile)) (gB : List (String × Bookmark)) : Prop :=
  (∀ pid pr, dlookup profs pid = some pr →
    ∀ u p, dlookup pr.bookmarks u = some p ↔
      ∃ b, dlookup gB u = some b ∧ dlookup b.profiles pid = some p) ∧
  (∀ u b, dlookup gB u = some b → b.profiles ≠ [] ∧
    ∀ pid p, dlookup b.profiles pid = some p → (dlookup profs pid).isSome = true)

/-- Bidirectional consistency between the per-profile extension-id sets and
the global extension index (§3 and §8 of the spec). -/
def InvE (profs : List (String × Profile)) (ge : List (String × Extension)) : Prop :=
  (∀ pid pr, dlookup profs pid = some pr →
    ∀ eid, eid ∈ pr.extensions ↔ ∃ e, dlookup ge eid = some e ∧ pid ∈ e.profiles) ∧
  (∀ eid e, dlookup ge eid = some e → e.profiles ≠ [] ∧
    ∀ pid, pid ∈ e.profiles → (dlookup profs pid).isSome = true)

theorem dlookup_dinsert_self {β : Type} (l : List (String × β)) (k : String) (v : β) :
    dlookup (dinsert l k v) k = some v := by
  induction l with
  | nil => simp [dinsert, dlookup]
  | cons e rest ih =>
    obtain ⟨k', v'⟩ := e
    by_cases h : k' = k
    · subst h; simp [dinsert, dlookup]
    · simp [dinsert, dlookup, h, ih]

theorem dlookup_dinsert_ne {β : Type} (l : List (String × β)) {k k' : String} (v : β)
    (h : k ≠ k') : dlookup (dinsert l k v) k' = dlookup l k' := by
  induction l with
  | nil => simp [dinsert, dlookup, h]
  | cons e rest ih =>
    obtain ⟨k'', v''⟩ := e
    by_cases h2 : k'' = k
    · subst h2; simp [dinsert, dlookup, h]
    · simp [dinsert, dlookup, h2, ih]

theorem dlookup_derase_self {β : Type} (l : List (String × β)) (k : String) :
    dlookup (derase l k) k = none := by
  induction l with
  | nil => simp [derase, dlookup]
  | cons e rest ih =>
    obtain ⟨k', v'⟩ := e
    by_cases h : k' = k
    · simp [derase, h, ih]
    · simp [derase, h, dlookup, ih]

theorem dlookup_derase_ne {β : Type} (l : List (String × β)) {k k' : String}
    (h : k ≠ k') : dlookup (derase l k) k' = dlookup l k' := by
  induction l with
  | nil => simp [derase, dlookup]
  | cons e rest ih =>
    obtain ⟨k'', v''⟩ := e
    by_cases h2 : k'' = k
    · subst h2
      simp [derase, dlookup, h, ih]
    · by_cases h3 : k'' = k'
      · subst h3; simp [derase, h2, dlookup]
      · simp [derase, h2, h3, dlookup, ih]

theorem dinsert_self {β : Type} {l : List (String × β)} {k : String} {v : β}
    (h : dlookup l k = some v) : dinsert l k v = l := by
  induction l with
  | nil => simp [dlookup] at h
  | cons e rest ih =>
    obtain ⟨k', v'⟩ := e
    by_cases h2 : k' = k
    · subst h2
      simp [dlookup] at h
      simp [dinsert, h]
    · simp [dlookup, h2] at h
      simp [dinsert, h2, ih h]

theorem dinsert_dinsert_same {β : Type} (l : List (String × β)) (k : String) (v w : β) :
    dinsert (dinsert l k v) k w = dinsert l k w := by
  induction l with
  | nil => simp [dinsert]
  | cons e rest ih =>
    obtain ⟨k', v'⟩ := e
    by_cases h : k' = k
    · subst h; simp [dinsert]
    · simp [dinsert, h, ih]

/-- Two association lists that agree entry for entry except possibly at the
value of the first entry with key `k`, which both lists carry at the same
position. -/
inductive SameExcept {β : Type} (k : String) :
    List (String × β) → List (String × β) → Prop
  | here (v v' : β) (rest : List (String × β)) :
      SameExcept k ((k, v) :: rest) ((k, v') :: rest)
  | there (e : String × β) (l₁ l₂ : List (String × β)) (hne : e.1 ≠ k)
      (h : SameExcept k l₁ l₂) : SameExcept k (e :: l₁) (e :: l₂)

theorem sameExcept_dinsert {β : Type} (l : List (String × β)) (k : String) (v v' : β) :
    SameExcept k (dinsert l k v) (dinsert l k v') := by
  induction l with
  | nil => exact .here v v' []
  | cons e rest ih =>
    obtain ⟨k', w⟩ := e
    by_cases h : k' = k
    · subst h
      simpa [dinsert] using SameExcept.here v v' rest
    · simpa [dinsert, h] using SameExcept.there (k', w) _ _ h ih

theorem sameExcept_of_lookup {β : Type} {l : List (String × β)} {k : String} {u : β}
    (v : β) (h : dlookup l k = some u) : SameExcept k (dinsert l k v) l := by
  induction l with
  | nil => simp [dlookup] at h
  | cons e rest ih =>
    obtain ⟨k', w⟩ := e
    by_cases h2 : k' = k
    · subst h2
      simpa [dinsert] using SameExcept.here v w rest
    · simp [dlookup, h2] at h
      simpa [dinsert, h2] using SameExcept.there (k', w) _ _ h2 (ih h)

theorem sameExcept_dinsert_ne {β : Type} {k : String} {l₁ l₂ : List (String × β)}
    (k₁ : String) (w : β) (hk : k₁ ≠ k) (h : SameExcept k l₁ l₂) :
    SameExcept k (dinsert l₁ k₁ w) (dinsert l₂ k₁ w) := by
  induction h with
  | here v v' rest =>
    simpa [dinsert, Ne.symm hk] using SameExcept.here v v' (dinsert rest k₁ w)
  | there e l₁ l₂ hne hse ih =>
    obtain ⟨ke, ve⟩ := e
    by_cases he : ke = k₁
    · subst he
      simpa [dinsert] using SameExcept.there (ke, w) _ _ hk hse
    · simpa [dinsert, he] using SameExcept.there (ke, ve) _ _ hne ih

theorem sameExcept_dinsert_collapse {β : Type} {k : String} {l₁ l₂ : List (String × β)}
    (w : β) (h : SameExcept k l₁ l₂) : dinsert l₁ k w = dinsert l₂ k w := by
  induction h with
  | here v v' rest => simp [dinsert]
  | there e l₁ l₂ hne hse ih =>
    obtain ⟨ke, ve⟩ := e
    simp only [ne_eq] at hne
    simp [dinsert, hne, ih]

theorem applyAll_nil (pB : List (String × String)) : applyAll pB [] = pB := rfl

theorem applyAll_cons (pB : List (String × String)) (tr : JValue × String × String)
    (trs : List (JValue × String × String)) :
    applyAll pB (tr :: trs) = applyAll (dinsert pB tr.2.1 tr.2.2) trs := rfl

theorem applyAll_append (pB : List (String × String))
    (a b : List (JValue × String × String)) :
    applyAll pB (a ++ b) = applyAll (applyAll pB a) b := by
  simp [applyAll, List.foldl_append]

theorem dlookup_applyAll_isSome {pB : List (String × String)} {k : String}
    (trs : List (JValue × String × String)) (h : (dlookup pB k).isSome = true) :
    (dlookup (applyAll pB trs) k).isSome = true := by
  induction trs generalizing pB with
  | nil => exact h
  | cons tr rest ih =>
    rw [applyAll_cons]
    apply ih
    by_cases hk : tr.2.1 = k
    · rw [hk, dlookup_dinsert_self]; rfl
    · rwa [dlookup_dinsert_ne _ _ hk]

theorem dlookup_applyAll_not_mem {pB : List (String × String)} {k : String}
    {trs : List (JValue × String × String)} (h : ∀ tr ∈ trs, tr.2.1 ≠ k) :
    dlookup (applyAll pB trs) k = dlookup pB k := by
  induction trs generalizing pB with
  | nil => rfl
  | cons tr rest ih =>
    rw [applyAll_cons, ih (fun t ht => h t (List.mem_cons_of_mem _ ht)),
      dlookup_dinsert_ne _ _ (h tr (List.mem_cons_self _ _))]

theorem applyAll_eq_of_sameExcept {k : String} {l₁ l₂ : List (String × String)}
    (trs : List (JValue × String × String)) (hk : k ∈ trs.map (fun tr => tr.2.1))
    (h : SameExcept k l₁ l₂) : applyAll l₁ trs = applyAll l₂ trs := by
  induction trs generalizing l₁ l₂ with
  | nil => simp at hk
  | cons tr rest ih =>
    rw [applyAll_cons, applyAll_cons]
    by_cases htr : tr.2.1 = k
    · rw [htr, sameExcept_dinsert_collapse _ h]
    · have hk' : k ∈ rest.map (fun tr => tr.2.1) := by
        simpa [htr, Ne.symm htr] using hk
      exact ih hk' (sameExcept_dinsert_ne _ _ htr h)

theorem applyAll_idem (pB : List (String × String))
    (trs : List (JValue × String × String)) :
    applyAll (applyAll pB trs) trs = applyAll pB trs := by
  induction trs generalizing pB with
  | nil => rfl
  | cons tr rest ih =>
    rw [applyAll_cons, applyAll_cons]
    by_cases hk : tr.2.1 ∈ rest.map (fun t => t.2.1)
    · have hsome : (dlookup (applyAll (dinsert pB tr.2.1 tr.2.2) rest) tr.2.1).isSome = true := by
        apply dlookup_applyAll_isSome
        rw [dlookup_dinsert_self]; rfl
      obtain ⟨u, hu⟩ := Option.isSome_iff_exists.mp hsome
      calc applyAll (dinsert (applyAll (dinsert pB tr.2.1 tr.2.2) rest) tr.2.1 tr.2.2) rest
          = applyAll (applyAll (dinsert pB tr.2.1 tr.2.2) rest) rest :=
            applyAll_eq_of_sameExcept rest hk (sameExcept_of_lookup _ hu)
        _ = applyAll (dinsert pB tr.2.1 tr.2.2) rest := ih _
    · have hnm : ∀ t ∈ rest, t.2.1 ≠ tr.2.1 := by
        intro t ht heq
        exact hk (heq ▸ List.mem_map_of_mem (fun t => t.2.1) ht)
      have hlk : dlookup (applyAll (dinsert pB tr.2.1 tr.2.2) rest) tr.2.1 = some tr.2.2 := by
        rw [dlookup_applyAll_not_mem hnm, dlookup_dinsert_self]
      rw [dinsert_self hlk]
      exact ih _

theorem mem_sadd {l : List String} {x y : String} :
    x ∈ sadd l y ↔ x = y ∨ x ∈ l := by
  by_cases h : y ∈ l
  · simp only [sadd, if_pos h]
    constructor
    · exact fun hx => Or.inr hx
    · rintro (rfl | hx)
      · exact h
      · exact hx
  · simp only [sadd, if_neg h, List.mem_append, List.mem_singleton]
    tauto

theorem sadd_of_mem {l : List String} {x : String} (h : x ∈ l) : sadd l x = l := by
  simp [sadd, h]

/-- C6: if profile discovery hits any of its failure conditions — the root
is not a directory, the `Local State` file is missing, the file is not
valid JSON, or the `profile`/`info_cache` keys are absent — the call
returns normally (no exception escapes) and the engine state, in particular
its existing profile set, is unchanged. -/
theorem c6_profile_discovery_failures_nonfatal (s : ChromInstance) (fs : FS)
    (h : fs.isDir s.userdata_dir = false
       ∨ dlookup fs.files (pjoin s.userdata_dir "Local State") = none
       ∨ dlookup fs.files (pjoin s.userdata_dir "Local State") = some none
       ∨ ∃ d, dlookup fs.files (pjoin s.userdata_dir "Local State") = some (some d) ∧
           get_with_chained_keys d ["profile", "info_cache"] = none) :
    fetch_all_profiles s fs = (s, none) := by
  by_cases hdir : fs.isDir s.userdata_dir = true
  · rcases h with h | h | h | ⟨d, hd, hk⟩
    · rw [h] at hdir; cases hdir
    · simp [fetch_all_profiles, hdir, h]
    · simp [fetch_all_profiles, hdir, h]
    · simp [fetch_all_profiles, hdir, hd, hk]
  · simp [fetch_all_profiles, hdir]

/-- Witness for C6 at a concrete input: an empty filesystem, where the
user-data root is not a directory. -/
theorem c6_profile_discovery_failures_nonfatal_witness :
    fetch_all_profiles ⟨"ud", [], [], []⟩ ⟨[], []⟩ = (⟨"ud", [], [], []⟩, none) :=
  c6_profile_discovery_failures_nonfatal _ _ (Or.inl rfl)

theorem deleteProfilesLoop_append_ok {urls : List String} {a : List String}
    {s : ChromInstance} {fs : FS} {s₁ : ChromInstance} {fs₁ : FS} (b : List String)
    (h : deleteProfilesLoop urls a s fs = ((s₁, fs₁), none)) :
    deleteProfilesLoop urls (a ++ b) s fs = deleteProfilesLoop urls b s₁ fs₁ := by
  induction a generalizing s fs with
  | nil =>
    simp only [deleteProfilesLoop, Prod.mk.injEq] at h
    obtain ⟨⟨rfl, rfl⟩, -⟩ := h
    rfl
  | cons pid rest ih =>
    rw [List.cons_append]
    simp only [deleteProfilesLoop] at h ⊢
    rcases hstep : deleteProfileStep urls pid s fs with ⟨r, e⟩
    rw [hstep] at h
    cases e with
    | none => exact ih h
    | some e => simp at h

/-- C10: if bookmark deletion is given an explicit identifier list in which
some identifier is unknown to the engine, the profile lookup for that
identifier raises a `KeyError` that propagates to the caller; identifiers
later in the list are not processed, and the state (engine and filesystem)
is exactly the state left by processing the earlier identifiers — their
mutations and backup-file deletions are already in place. -/
theorem c10_delete_unknown_profile_keyerror (s : ChromInstance) (fs : FS)
    (urls pre post : List String) (bad : String) (s₁ : ChromInstance) (fs₁ : FS)
    (hpre : deleteProfilesLoop urls pre s fs = ((s₁, fs₁), none))
    (hbad : dlookup s₁.profiles bad = none) :
    delete_bookmarks_from_profiles s fs urls (some (pre ++ bad :: post)) =
      ((s₁, fs₁), some (.keyError bad)) := by
  unfold delete_bookmarks_from_profiles
  rw [deleteProfilesLoop_append_ok _ hpre]
  simp [deleteProfilesLoop, deleteProfileStep, hbad]

/-- Witness for C10 at a concrete input: a one-profile engine, the list
`["p1", "nope"]`; `p1` is processed (its backup unlink is a no-op and it
has no recorded bookmark file) and the call then stops at `nope` with a
`KeyError`. -/
theorem c10_delete_unknown_profile_keyerror_witness :
    delete_bookmarks_from_profiles
      ⟨"ud", [("p1", { id := "p1", profile_dir := "ud/p1" })], [], []⟩ ⟨[], []⟩
      ["u"] (some (["p1"] ++ "nope" :: [])) =
      ((⟨"ud", [("p1", { id := "p1", profile_dir := "ud/p1" })], [], []⟩, ⟨[], []⟩),
        some (.keyError "nope")) :=
  c10_delete_unknown_profile_keyerror _ _ _ _ _ _ _ _ rfl rfl

/-- C4 counterexample: a bookmark tree node lacking the expected `type` key
does not merely skip the profile — the `KeyError` escapes the public
discovery operation `fetch_bookmarks_from_all_profiles`, whose only guard
is for JSON-decode failures.  The claim's error taxonomy therefore does
leak out of a public discovery operation for on-disk content of this
shape. -/
theorem c4_counterexample_missing_key_escapes :
    (fetch_bookmarks_from_all_profiles
      ⟨"ud", [("p1", { id := "p1", profile_dir := "ud/p1" })], [], []⟩
      ⟨[], [("ud/p1/Bookmarks", some (.obj [("roots", .obj [("bar", .obj [])])]))]⟩).2 =
      some (.keyError "type") := rfl

/-- C5 counterexample: an identifier whose settings `path` is itself an
existing filesystem path (with a readable `manifest.json` inside it) is
nevertheless skipped entirely — added to no index, resolved from no
manifest — when the profile's `Extensions` directory does not exist,
because the `ext_dir.is_dir()` guard (line 64) runs before the offline
check.  The claim allows a skip only for an empty `path` or when neither
resolution applies. -/
theorem c5_counterexample_extensions_dir_guard :
    path_exists ⟨["/off"], [("/off/manifest.json", some (.obj [("name", .str "A")]))]⟩
        "/off" = true ∧
    (dlookup (FS.files ⟨["/off"], [("/off/manifest.json", some (.obj [("name", .str "A")]))]⟩)
        (pjoin "/off" "manifest.json")).isSome = true ∧
    fetch_extensions_from_one_profile
      ⟨["/off"], [("/off/manifest.json", some (.obj [("name", .str "A")]))]⟩
      [("aaa", .obj [("path", .str "/off")])]
      { id := "p1", profile_dir := "ud/p1" } [] =
      (({ id := "p1", profile_dir := "ud/p1" }, []), none) :=
  ⟨rfl, rfl, rfl⟩

theorem foldl_max_mem (x : Int) (xs : List Int) : xs.foldl max x ∈ x :: xs := by
  induction xs generalizing x with
  | nil => simp
  | cons c cs ih =>
    have h := ih (max x c)
    simp only [List.foldl_cons]
    rcases List.mem_cons.mp h with h | h
    · rcases max_choice x c with hm | hm
      · exact List.mem_cons.mpr (Or.inl (h.trans hm))
      · exact List.mem_cons.mpr (Or.inr (List.mem_cons.mpr (Or.inl (h.trans hm))))
    · exact List.mem_cons.mpr (Or.inr (List.mem_cons.mpr (Or.inr h)))

theorem foldl_max_ge (x : Int) (xs : List Int) : ∀ y ∈ x :: xs, y ≤ xs.foldl max x := by
  induction xs generalizing x with
  | nil =>
    intro y hy
    simp at hy
    simp [hy]
  | cons c cs ih =>
    intro y hy
    simp only [List.foldl_cons]
    rcases List.mem_cons.mp hy with rfl | hy
    · exact le_trans (le_max_left y c) (ih (max y c) _ (List.mem_cons_self _ _))
    · rcases List.mem_cons.mp hy with rfl | hy
      · exact le_trans (le_max_right x y) (ih (max x y) _ (List.mem_cons_self _ _))
      · exact ih (max x c) y (List.mem_cons_of_mem _ hy)

theorem pymax_mem {l : List Int} {m : Int} (h : pymax l = some m) : m ∈ l := by
  cases l with
  | nil => simp [pymax] at h
  | cons x xs =>
    simp only [pymax, Option.some.injEq] at h
    exact h ▸ foldl_max_mem x xs

theorem pymax_ge {l : List Int} {m : Int} (h : pymax l = some m) : ∀ y ∈ l, y ≤ m := by
  cases l with
  | nil => simp
  | cons x xs =>
    simp only [pymax, Option.some.injEq] at h
    exact h ▸ foldl_max_ge x xs

theorem pymax_eq_none {l : List Int} (h : pymax l = none) : l = [] := by
  cases l with
  | nil => rfl
  | cons x xs => simp [pymax] at h

theorem intKeys_isSome {ks : List String}
    (h : ∀ k ∈ ks, (pyInt? k).isSome = true) : (intKeys ks).isSome = true := by
  induction ks with
  | nil => rfl
  | cons k rest ih =>
    have h1 := h k (List.mem_cons_self _ _)
    obtain ⟨n, hn⟩ := Option.isSome_iff_exists.mp h1
    have h2 := ih (fun k' hk' => h k' (List.mem_cons_of_mem _ hk'))
    obtain ⟨ns, hns⟩ := Option.isSome_iff_exists.mp h2
    simp [intKeys, hn, hns]

theorem intKeys_corr {ks : List String} {ns : List Int} (h : intKeys ks = some ns) :
    (∀ n ∈ ns, ∃ k ∈ ks, pyInt? k = some n) ∧
    (∀ k ∈ ks, ∃ n ∈ ns, pyInt? k = some n) := by
  induction ks generalizing ns with
  | nil =>
    simp only [intKeys, Option.some.injEq] at h
    subst h
    simp
  | cons k rest ih =>
    simp only [intKeys] at h
    rcases hk : pyInt? k with _ | n <;> rw [hk] at h
    · cases h
    · rcases hrest : intKeys rest with _ | ns' <;> rw [hrest] at h
      · cases h
      · simp only [Option.some.injEq] at h
        subst h
        obtain ⟨ih1, ih2⟩ := ih hrest
        constructor
        · intro n' hn'
          rcases List.mem_cons.mp hn' with rfl | hn'
          · exact ⟨k, List.mem_cons_self _ _, hk⟩
          · obtain ⟨k', hk', hpk'⟩ := ih1 n' hn'
            exact ⟨k', List.mem_cons_of_mem _ hk', hpk'⟩
        · intro k' hk'
          rcases List.mem_cons.mp hk' with rfl | hk'
          · exact ⟨n, List.mem_cons_self _ _, hk⟩
          · obtain ⟨n', hn', hpn'⟩ := ih2 k' hk'
            exact ⟨n', List.mem_cons_of_mem _ hn', hpn'⟩

theorem dlookup_of_mem_nodup {β : Type} {l : List (String × β)} {k : String} {v : β}
    (hm : (k, v) ∈ l) (hnd : (l.map Prod.fst).Nodup) : dlookup l k = some v := by
  induction l with
  | nil => cases hm
  | cons e rest ih =>
    obtain ⟨k', v'⟩ := e
    simp only [List.map, List.nodup_cons] at hnd
    rcases List.mem_cons.mp hm with he | hm'
    · cases he
      simp [dlookup]
    · have hk : k' ≠ k := by
        rintro rfl
        exact hnd.1 (List.mem_map_of_mem Prod.fst hm')
      simp [dlookup, hk, ih hm' hnd.2]

/-- C8 (amended): for a resolved extension manifest whose `icons` map is
non-empty with canonical numeric size keys, the selected icon relative path
is the value at the numerically largest key (`128` beats `16`), composed
with the icon base directory and recorded only if the composed path is an
existing file, the empty string otherwise; when the `icons` map is empty
the relative path is empty, so the composed path degenerates to the icon
base path itself and the same existing-file rule applies. -/
theorem c8_icon_numerically_largest_key (fs : FS) (ext_id pid parent : String)
    (mfields icons : List (String × JValue))
    (hic : dlookup mfields "icons" = some (.obj icons)) :
    (∀ k v (n : Int) sv,
      (∀ e ∈ icons, ∃ m : Int, pyInt? e.1 = some m ∧ toString m = e.1) →
      (icons.map Prod.fst).Nodup →
      (k, v) ∈ icons → pyInt? k = some n →
      (∀ e ∈ icons, ∀ n' : Int, pyInt? e.1 = some n' → n' ≤ n) →
      v = .str sv →
      resolveExtMeta fs ext_id pid (.obj mfields) parent =
        .ok { id := ext_id
              name := jgetD mfields "name" (.str "")
              description := jgetD mfields "description" (.str "")
              icon := if fs.isFile (pjoin parent sv) = true then pjoin parent sv else ""
              profiles := [pid] }) ∧
    (icons = [] →
      resolveExtMeta fs ext_id pid (.obj mfields) parent =
        .ok { id := ext_id
              name := jgetD mfields "name" (.str "")
              description := jgetD mfields "description" (.str "")
              icon := if fs.isFile parent = true then parent else ""
              profiles := [pid] }) := by
  constructor
  · intro k v n sv hnum hnd hm hpk hmax hv
    have hks : ∀ k' ∈ icons.map Prod.fst, (pyInt? k').isSome = true := by
      intro k' hk'
      obtain ⟨e, he, rfl⟩ := List.mem_map.mp hk'
      obtain ⟨m, hm1, -⟩ := hnum e he
      simp [hm1]
    obtain ⟨ns, hns⟩ := Option.isSome_iff_exists.mp (intKeys_isSome hks)
    obtain ⟨hcorr1, hcorr2⟩ := intKeys_corr hns
    have hnmem : n ∈ ns := by
      obtain ⟨n', hn', hpn'⟩ := hcorr2 k (List.mem_map_of_mem Prod.fst hm)
      rw [hpk] at hpn'
      cases hpn'
      exact hn'
    rcases hpm : pymax ns with _ | m
    · rw [pymax_eq_none hpm] at hnmem
      cases hnmem
    · have hmn : m = n := by
        apply le_antisymm
        · obtain ⟨k', hk', hpk'⟩ := hcorr1 m (pymax_mem hpm)
          obtain ⟨e, he, rfl⟩ := List.mem_map.mp hk'
          exact hmax e he m hpk'
        · exact pymax_ge hpm n hnmem
      have hcanon : toString n = k := by
        obtain ⟨m', hm1, hm2⟩ := hnum (k, v) hm
        rw [hpk] at hm1
        cases hm1
        exact hm2
      have hlk : dlookup icons k = some v := dlookup_of_mem_nodup hm hnd
      subst hv
      simp [resolveExtMeta, jgetD, hic, hns, hpm, hmn, hcanon, hlk]
  · rintro rfl
    simp [resolveExtMeta, jgetD, hic, intKeys, pymax, dlookup, pjoin]

/-- Witness for C8 at the spec's example: icons `{"16": "a.png", "128":
"b.png"}` with `base/b.png` an existing file resolve to the composed path
of `b.png` — the numerically largest key wins. -/
theorem c8_icon_numerically_largest_key_witness :
    resolveExtMeta ⟨[], [("base/b.png", some .null)]⟩ "e1" "p1"
      (.obj [("icons", .obj [("16", .str "a.png"), ("128", .str "b.png")])]) "base" =
      .ok { id := "e1", name := .str "", description := .str "",
            icon := "base/b.png", profiles := ["p1"] } := by
  have h := (c8_icon_numerically_largest_key ⟨[], [("base/b.png", some .null)]⟩
    "e1" "p1" "base" [("icons", .obj [("16", .str "a.png"), ("128", .str "b.png")])]
    [("16", .str "a.png"), ("128", .str "b.png")] rfl).1
    "128" (.str "b.png") 128 "b.png"
    (by
      intro e he
      rcases List.mem_cons.mp he with rfl | he
      · exact ⟨16, rfl, rfl⟩
      · rcases List.mem_cons.mp he with rfl | he
        · exact ⟨128, rfl, rfl⟩
        · cases he)
    (by decide)
    (List.mem_cons_of_mem _ (List.mem_cons_self _ _))
    rfl
    (by
      intro e he n' hn'
      rcases List.mem_cons.mp he with rfl | he
      · have h2 : (16 : Int) = n' := Option.some.inj (show some (16 : Int) = some n' from hn')
        omega
      · rcases List.mem_cons.mp he with rfl | he
        · have h2 : (128 : Int) = n' :=
            Option.some.inj (show some (128 : Int) = some n' from hn')
          omega
        · cases he)
    rfl
  simpa using h

/-- C8 counterexample for the claim's empty-icons clause as stated: through
the online-install branch, an extension whose settings `path` names a file
inside the `Extensions` directory and whose embedded manifest has no icons
records that file itself as the icon — not the empty string — because the
empty relative path composes to the icon base path and that path is an
existing file. -/
theorem c8_counterexample_empty_icons_nonempty_icon :
    (fetch_extensions_from_one_profile
      ⟨["ud/p1/Extensions"], [("ud/p1/Extensions/x", some .null)]⟩
      [("aaa", .obj [("path", .str "x"), ("manifest", .obj [])])]
      { id := "p1", profile_dir := "ud/p1" } []).1.2 =
      [("aaa", { id := "aaa", name := .str "", description := .str "",
                 icon := "ud/p1/Extensions/x", profiles := ["p1"] })] := rfl

/-- C5 (amended): during extension discovery, a not-yet-indexed identifier
whose settings `path` is itself an existing filesystem path is resolved as
an offline install — metadata comes from the `manifest.json` read from
inside that path, with that path as the icon base directory — provided the
profile's `Extensions` directory exists; and an identifier with a string
`path` is skipped entirely, added to no index, when the `Extensions`
directory is missing, when `path` is empty, or when neither the offline nor
the online resolution applies. -/
theorem c5_offline_resolution_and_skip (fs : FS) (ext_id : String)
    (set_fields rest : List (String × JValue))
    (profile : Profile) (exts : List (String × Extension)) (sp : String)
    (hidx : dlookup exts ext_id = none)
    (hpath : jgetD set_fields "path" (.str "") = .str sp) :
    (∀ m ext,
      fs.isDir (pjoin profile.profile_dir "Extensions") = true →
      sp ≠ "" →
      path_exists fs sp = true →
      dlookup fs.files (pjoin sp "manifest.json") = some (some m) →
      resolveExtMeta fs ext_id profile.id m sp = .ok ext →
      fetch_extensions_from_one_profile fs ((ext_id, .obj set_fields) :: rest)
          profile exts =
        fetch_extensions_from_one_profile fs rest
          { profile with extensions := sadd profile.extensions ext_id }
          (dinsert exts ext_id ext)) ∧
    ((fs.isDir (pjoin profile.profile_dir "Extensions") = false ∨ sp = "" ∨
       (path_exists fs sp = false ∧
        path_exists fs (pjoin (pjoin profile.profile_dir "Extensions") sp) = false)) →
      fetch_extensions_from_one_profile fs ((ext_id, .obj set_fields) :: rest)
          profile exts =
        fetch_extensions_from_one_profile fs rest profile exts) := by
  constructor
  · intro m ext hdir hne hex hman hres
    simp [fetch_extensions_from_one_profile, hidx, hpath, hdir, hne, hex, hman, hres]
  · intro hskip
    rcases hskip with hdir | hsp | ⟨hnoff, hnon⟩
    · simp [fetch_extensions_from_one_profile, hidx, hdir]
    · subst hsp
      by_cases hdir : fs.isDir (pjoin profile.profile_dir "Extensions") = true
      · simp [fetch_extensions_from_one_profile, hidx, hpath, hdir]
      · simp only [Bool.not_eq_true] at hdir
        simp [fetch_extensions_from_one_profile, hidx, hdir]
    · by_cases hdir : fs.isDir (pjoin profile.profile_dir "Extensions") = true
      · by_cases hsp : sp = ""
        · subst hsp
          simp [fetch_extensions_from_one_profile, hidx, hpath, hdir]
        · simp [fetch_extensions_from_one_profile, hidx, hpath, hdir, hsp, hnoff, hnon]
      · simp only [Bool.not_eq_true] at hdir
        simp [fetch_extensions_from_one_profile, hidx, hdir]

/-- Witness for C5: an offline install at `/off` (its `manifest.json` names
the extension `A`) with the `Extensions` directory present is resolved from
that manifest; the same identifier with an empty `path` is skipped. -/
theorem c5_offline_resolution_and_skip_witness :
    fetch_extensions_from_one_profile
        ⟨["ud/p1/Extensions", "/off"], [("/off/manifest.json", some (.obj [("name", .str "A")]))]⟩
        [("aaa", .obj [("path", .str "/off")])]
        { id := "p1", profile_dir := "ud/p1" } [] =
      (({ id := "p1", profile_dir := "ud/p1", extensions := ["aaa"] },
        [("aaa", { id := "aaa", name := .str "A", description := .str "",
                   icon := "", profiles := ["p1"] })]), none) ∧
    fetch_extensions_from_one_profile
        ⟨["ud/p1/Extensions"], []⟩
        [("bbb", .obj [("path", .str "")])]
        { id := "p1", profile_dir := "ud/p1" } [] =
      (({ id := "p1", profile_dir := "ud/p1" }, []), none) := by
  constructor
  · have h := (c5_offline_resolution_and_skip
      ⟨["ud/p1/Extensions", "/off"], [("/off/manifest.json", some (.obj [("name", .str "A")]))]⟩
      "aaa" [("path", .str "/off")] [] { id := "p1", profile_dir := "ud/p1" } [] "/off"
      rfl rfl).1 (.obj [("name", .str "A")])
      { id := "aaa", name := .str "A", description := .str "",
        icon := "", profiles := ["p1"] } rfl (by decide) rfl rfl rfl
    exact h.trans rfl
  · have h := (c5_offline_resolution_and_skip
      ⟨["ud/p1/Extensions"], []⟩
      "bbb" [("path", .str "")] [] { id := "p1", profile_dir := "ud/p1" } [] ""
      rfl rfl).2 (Or.inr (Or.inl rfl))
    exact h.trans rfl

theorem jvalue_one_le_sizeOf (v : JValue) : 1 ≤ sizeOf v := by
  cases v <;> simp_arith

theorem jlist_one_le_sizeOf (l : List JValue) : 1 ≤ sizeOf l := by
  cases l <;> simp_arith

theorem popAll_append (pid : String)
    (st : List (String × String) × List (String × Bookmark)) (a b : List String) :
    popAll pid st (a ++ b) = popAll pid (popAll pid st a) b := by
  simp [popAll, List.foldl_append]

theorem delF_spec : ∀ fuel : Nat,
    (∀ pid urls node pB gB out, sizeOf node ≤ fuel →
      delNodeF fuel pid urls node pB gB = (out, none) →
      out.1 = specDelNodeF fuel urls node ∧
      out.2 = popAll pid (pB, gB) (removedNodeF fuel urls node)) ∧
    (∀ pid urls cs pB gB out, sizeOf cs ≤ fuel →
      delChildrenF fuel pid urls cs pB gB = (out, none) →
      out.1 = specDelChildrenF fuel urls cs ∧
      out.2 = popAll pid (pB, gB) (removedChildrenF fuel urls cs)) := by
  intro fuel
  induction fuel using Nat.strong_induction_on with
  | _ fuel ih =>
  cases fuel with
  | zero =>
    constructor
    · intro pid urls node pB gB out hsz h
      exact absurd hsz (by have := jvalue_one_le_sizeOf node; omega)
    · intro pid urls cs pB gB out hsz h
      exact absurd hsz (by have := jlist_one_le_sizeOf cs; omega)
  | succ f =>
    constructor
    · intro pid urls node pB gB out hsz h
      rcases out with ⟨node', st'⟩
      simp only [delNodeF] at h
      split at h
      case _ fields =>
        split at h
        case _ htype => simp at h
        case _ t htype =>
          split at h
          case _ ty =>
            split at h
            case isTrue hty =>
              split at h
              case _ hch => simp at h
              case _ cv hch =>
                split at h
                case _ children =>
                  split at h
                  case _ children' pB' gB' hrec =>
                    have hszc : sizeOf children ≤ f := by
                      have h1 := sizeOf_lt_of_lookup_obj hch
                      simp only [JValue.arr.sizeOf_spec, JValue.obj.sizeOf_spec] at h1 hsz
                      omega
                    obtain ⟨hc1, hc2⟩ :=
                      (ih f (Nat.lt_succ_self f)).2 pid urls children pB gB _ hszc hrec
                    have hc1' : children' = specDelChildrenF f urls children := hc1
                    have hc2' : (pB', gB') = popAll pid (pB, gB) (removedChildrenF f urls children) := hc2
                    simp only [Prod.mk.injEq] at h
                    obtain ⟨⟨h1, h2⟩, -⟩ := h
                    subst h1
                    subst h2
                    constructor
                    · simp only [specDelNodeF, htype, hty, if_true, hch, hc1']
                    · simp only [removedNodeF, htype, hty, if_true, hch]
                      exact hc2'
                  case _ pB' gB' e hrec => simp at h
                case _ hne => simp at h
            case isFalse hty =>
              simp only [Prod.mk.injEq] at h
              obtain ⟨⟨h1, h2⟩, -⟩ := h
              subst h1
              subst h2
              constructor
              · simp [specDelNodeF, htype, hty]
              · simp [removedNodeF, htype, hty, popAll]
          case _ hns =>
            simp only [Prod.mk.injEq] at h
            obtain ⟨⟨h1, h2⟩, -⟩ := h
            subst h1
            subst h2
            constructor
            · cases t with
              | str ty => exact absurd rfl (hns ty)
              | _ => simp [specDelNodeF, htype]
            · cases t with
              | str ty => exact absurd rfl (hns ty)
              | _ => simp [removedNodeF, htype, popAll]
      case _ hno => simp at h
    · intro pid urls cs pB gB out hsz h
      rcases out with ⟨cs', st'⟩
      cases cs with
      | nil =>
        simp only [delChildrenF, Prod.mk.injEq] at h
        obtain ⟨⟨h1, h2⟩, -⟩ := h
        subst h1
        subst h2
        exact ⟨rfl, rfl⟩
      | cons c rest =>
        have hszr : sizeOf rest ≤ f := by
          simp only [List.cons.sizeOf_spec] at hsz
          have := jvalue_one_le_sizeOf c
          omega
        have hszc : sizeOf c ≤ f := by
          simp only [List.cons.sizeOf_spec] at hsz
          have := jlist_one_le_sizeOf rest
          omega
        simp only [delChildrenF] at h
        split at h
        case _ rest' pB' gB' e hrec => simp at h
        case _ rest' pB' gB' hrec =>
          obtain ⟨hr1, hr2⟩ := (ih f (Nat.lt_succ_self f)).2 pid urls rest pB gB _ hszr hrec
          have hr1' : rest' = specDelChildrenF f urls rest := hr1
          have hr2' : (pB', gB') = popAll pid (pB, gB) (removedChildrenF f urls rest) := hr2
          split at h
          case _ cfields =>
            split at h
            case _ htype => simp at h
            case _ t htype =>
              split at h
              case _ ty =>
                split at h
                case isTrue hty =>
                  split at h
                  case _ hurl => simp at h
                  case _ uv hurl =>
                    split at h
                    case _ url =>
                      split at h
                      case isTrue hmem =>
                        simp only [Prod.mk.injEq] at h
                        obtain ⟨⟨h1, h2⟩, -⟩ := h
                        subst h1
                        subst h2
                        constructor
                        · simp only [specDelChildrenF, htype, hty, if_true, hurl, hmem,
                            if_pos, hr1']
                        · simp only [removedChildrenF, htype, hty, if_true, hurl, hmem,
                            if_pos, popAll_append, ← hr2']
                          rfl
                      case isFalse hmem =>
                        simp only [Prod.mk.injEq] at h
                        obtain ⟨⟨h1, h2⟩, -⟩ := h
                        subst h1
                        subst h2
                        constructor
                        · simp only [specDelChildrenF, htype, hty, if_true, hurl, hmem,
                            if_false, hr1']
                        · simp only [removedChildrenF, htype, hty, if_true, hurl, hmem,
                            if_false, popAll_append, ← hr2']
                          rfl
                    case _ hnstr => simp at h
                case isFalse hty =>
                  rcases hrec2 : delNodeF f pid urls (JValue.obj cfields) pB' gB'
                    with ⟨⟨c', pB2, gB2⟩, err⟩
                  rw [hrec2] at h
                  simp only [Prod.mk.injEq] at h
                  obtain ⟨⟨h1, h2⟩, herr⟩ := h
                  subst h1
                  subst h2
                  rw [show err = none from by
                    cases err with
                    | none => rfl
                    | some e => cases herr] at hrec2
                  obtain ⟨hc1, hc2⟩ :=
                    (ih f (Nat.lt_succ_self f)).1 pid urls (JValue.obj cfields) pB' gB'
                      _ hszc hrec2
                  have hc1' : c' = specDelNodeF f urls (JValue.obj cfields) := hc1
                  have hc2' : (pB2, gB2) = popAll pid (pB', gB')
                      (removedNodeF f urls (JValue.obj cfields)) := hc2
                  constructor
                  · simp only [specDelChildrenF, htype, hty, if_false, hr1', hc1']
                  · simp only [removedChildrenF, htype, hty, if_false, popAll_append,
                      ← hr2', ← hc2']
              case _ hns =>
                rcases hrec2 : delNodeF f pid urls (JValue.obj cfields) pB' gB'
                  with ⟨⟨c', pB2, gB2⟩, err⟩
                rw [hrec2] at h
                simp only [Prod.mk.injEq] at h
                obtain ⟨⟨h1, h2⟩, herr⟩ := h
                subst h1
                subst h2
                rw [show err = none from by
                  cases err with
                  | none => rfl
                  | some e => cases herr] at hrec2
                obtain ⟨hc1, hc2⟩ :=
                  (ih f (Nat.lt_succ_self f)).1 pid urls (JValue.obj cfields) pB' gB'
                    _ hszc hrec2
                have hc1' : c' = specDelNodeF f urls (JValue.obj cfields) := hc1
                have hc2' : (pB2, gB2) = popAll pid (pB', gB')
                    (removedNodeF f urls (JValue.obj cfields)) := hc2
                constructor
                · cases t with
                  | str ty => exact absurd rfl (hns ty)
                  | _ => simp only [specDelChildrenF, htype, hr1', hc1']
                · cases t with
                  | str ty => exact absurd rfl (hns ty)
                  | _ => simp only [removedChildrenF, htype, popAll_append, ← hr2', ← hc2']
          case _ hnobj => simp at h

/-- C2: when the deletion walk returns normally, its effect on the tree is
exactly the spec-side forward filter `specDeleteNode` / `specDeleteChildren`:
a folder's children lose exactly the url-type children whose url is in the
delete set, the remaining children keep their relative order, and every
non-url child is recursed into — the reverse-index iteration (which keeps
the earlier indices valid while popping) has no other effect on the tree. -/
theorem c2_deletion_walk_is_forward_filter :
    (∀ pid urls node pB gB out,
      delete_bookmarks_in_one_folder pid urls node pB gB = (out, none) →
      out.1 = specDeleteNode urls node) ∧
    (∀ pid urls children pB gB out,
      deleteChildren pid urls children pB gB = (out, none) →
      out.1 = specDeleteChildren urls children) :=
  ⟨fun pid urls node pB gB out h =>
    ((delF_spec (sizeOf node)).1 pid urls node pB gB out le_rfl h).1,
   fun pid urls children pB gB out h =>
    ((delF_spec (sizeOf children)).2 pid urls children pB gB out le_rfl h).1⟩

/-- Witness for C2 at the spec's example: deleting the urls of the adjacent
children at indices 2 and 3 of a five-child folder removes exactly those
two children and keeps the other three in their original relative order. -/
theorem c2_deletion_walk_is_forward_filter_witness :
    deleteChildren "p1" ["u2", "u3"]
      [.obj [("type", .str "url"), ("name", .str "n0"), ("url", .str "u0")],
       .obj [("type", .str "url"), ("name", .str "n1"), ("url", .str "u1")],
       .obj [("type", .str "url"), ("name", .str "n2"), ("url", .str "u2")],
       .obj [("type", .str "url"), ("name", .str "n3"), ("url", .str "u3")],
       .obj [("type", .str "url"), ("name", .str "n4"), ("url", .str "u4")]] [] [] =
      (([.obj [("type", .str "url"), ("name", .str "n0"), ("url", .str "u0")],
         .obj [("type", .str "url"), ("name", .str "n1"), ("url", .str "u1")],
         .obj [("type", .str "url"), ("name", .str "n4"), ("url", .str "u4")]],
        [], []), none) ∧
    specDeleteChildren ["u2", "u3"]
      [.obj [("type", .str "url"), ("name", .str "n0"), ("url", .str "u0")],
       .obj [("type", .str "url"), ("name", .str "n1"), ("url", .str "u1")],
       .obj [("type", .str "url"), ("name", .str "n2"), ("url", .str "u2")],
       .obj [("type", .str "url"), ("name", .str "n3"), ("url", .str "u3")],
       .obj [("type", .str "url"), ("name", .str "n4"), ("url", .str "u4")]] =
      [.obj [("type", .str "url"), ("name", .str "n0"), ("url", .str "u0")],
       .obj [("type", .str "url"), ("name", .str "n1"), ("url", .str "u1")],
       .obj [("type", .str "url"), ("name", .str "n4"), ("url", .str "u4")]] := by
  have hrun : deleteChildren "p1" ["u2", "u3"]
      [.obj [("type", .str "url"), ("name", .str "n0"), ("url", .str "u0")],
       .obj [("type", .str "url"), ("name", .str "n1"), ("url", .str "u1")],
       .obj [("type", .str "url"), ("name", .str "n2"), ("url", .str "u2")],
       .obj [("type", .str "url"), ("name", .str "n3"), ("url", .str "u3")],
       .obj [("type", .str "url"), ("name", .str "n4"), ("url", .str "u4")]] [] [] =
      (([.obj [("type", .str "url"), ("name", .str "n0"), ("url", .str "u0")],
         .obj [("type", .str "url"), ("name", .str "n1"), ("url", .str "u1")],
         .obj [("type", .str "url"), ("name", .str "n4"), ("url", .str "u4")]],
        [], []), none) := rfl
  exact ⟨hrun, (c2_deletion_walk_is_forward_filter.2 _ _ _ _ _ _ hrun).symm⟩

theorem gApply_nil (pid : String) (gB : List (String × Bookmark)) :
    gApply pid gB [] = gB := rfl

theorem gApply_append (pid : String) (gB : List (String × Bookmark))
    (a b : List (JValue × String × String)) :
    gApply pid gB (a ++ b) = gApply pid (gApply pid gB a) b := by
  simp [gApply, List.foldl_append]

theorem fetchF_spec : ∀ fuel : Nat,
    (∀ pid node pls pB gB out, sizeOf node ≤ fuel →
      fetchBmkNodeF fuel pid node pls pB gB = (out, none) →
      ∀ qB, fetchBmkNodeF fuel pid node pls qB gB =
        ((applyAll qB (reachNodeF fuel node pls),
          gApply pid gB (reachNodeF fuel node pls)), none)) ∧
    (∀ pid cs pls pB gB out, sizeOf cs ≤ fuel →
      fetchBmkListF fuel pid cs pls pB gB = (out, none) →
      ∀ qB, fetchBmkListF fuel pid cs pls qB gB =
        ((applyAll qB (reachListF fuel cs pls),
          gApply pid gB (reachListF fuel cs pls)), none)) := by
  intro fuel
  induction fuel using Nat.strong_induction_on with
  | _ fuel ih =>
  cases fuel with
  | zero =>
    constructor
    · intro pid node pls pB gB out hsz h
      exact absurd hsz (by have := jvalue_one_le_sizeOf node; omega)
    · intro pid cs pls pB gB out hsz h
      exact absurd hsz (by have := jlist_one_le_sizeOf cs; omega)
  | succ f =>
    constructor
    · intro pid node pls pB gB out hsz h qB
      simp only [fetchBmkNodeF] at h ⊢
      split at h
      case _ fields =>
        split at h
        case _ htype => simp at h
        case _ t htype =>
          split at h
          case _ ty =>
            split at h
            case isTrue hty =>
              split at h
              case _ hurl => simp at h
              case _ uv hurl =>
                split at h
                case _ url =>
                  split at h
                  case _ hj => simp at h
                  case _ p hj =>
                    split at h
                    case _ b hb =>
                      simp only [htype, hty, if_true, hurl, hj, hb, reachNodeF,
                        applyAll, gApply, List.foldl_cons, List.foldl_nil, gUpsert, hb]
                    case _ hb =>
                      split at h
                      case _ hname => simp at h
                      case _ namev hname =>
                        simp only [htype, hty, if_true, hurl, hj, hb, hname, reachNodeF,
                          applyAll, gApply, List.foldl_cons, List.foldl_nil, gUpsert,
                          jgetD, Option.getD]
                case _ hnstr => simp at h
            case isFalse hty =>
              split at h
              case isTrue htyf =>
                split at h
                case _ hname => simp at h
                case _ namev hname =>
                  split at h
                  case _ hch => simp at h
                  case _ cv hch =>
                    split at h
                    case _ children =>
                      have hszc : sizeOf children ≤ f := by
                        have h1 := sizeOf_lt_of_lookup_obj hch
                        simp only [JValue.arr.sizeOf_spec, JValue.obj.sizeOf_spec]
                          at h1 hsz
                        omega
                      have hrec := (ih f (Nat.lt_succ_self f)).2 pid children
                        (pls ++ [namev]) pB gB out hszc h qB
                      rw [if_neg hty, if_pos htyf, hrec]
                      simp only [reachNodeF, htype]
                      rw [if_neg hty, if_pos htyf]
                      simp only [hname, hch]
                    case _ hne => simp at h
              case isFalse htyf =>
                simp only [Prod.mk.injEq] at h
                simp only [htype, hty, if_false, htyf, reachNodeF, applyAll, gApply,
                  List.foldl_nil]
          case _ hns =>
            cases t with
            | str ty => exact absurd rfl (hns ty)
            | null =>
              simp only [htype, reachNodeF, applyAll, gApply, List.foldl_nil]
            | bool b =>
              simp only [htype, reachNodeF, applyAll, gApply, List.foldl_nil]
            | num n =>
              simp only [htype, reachNodeF, applyAll, gApply, List.foldl_nil]
            | arr a =>
              simp only [htype, reachNodeF, applyAll, gApply, List.foldl_nil]
            | obj o =>
              simp only [htype, reachNodeF, applyAll, gApply, List.foldl_nil]
      case _ hno => simp at h
    · intro pid cs pls pB gB out hsz h qB
      cases cs with
      | nil =>
        simp only [fetchBmkListF, reachListF, applyAll, gApply, List.foldl_nil]
      | cons c rest =>
        have hszr : sizeOf rest ≤ f := by
          simp only [List.cons.sizeOf_spec] at hsz
          have := jvalue_one_le_sizeOf c
          omega
        have hszc : sizeOf c ≤ f := by
          simp only [List.cons.sizeOf_spec] at hsz
          have := jlist_one_le_sizeOf rest
          omega
        simp only [fetchBmkListF] at h ⊢
        rcases hrec : fetchBmkNodeF f pid c pls pB gB with ⟨st, err⟩
        rw [hrec] at h
        cases err with
        | some e => simp at h
        | none =>
          have hnode := (ih f (Nat.lt_succ_self f)).1 pid c pls pB gB st hszc hrec
          have hst : st = (applyAll pB (reachNodeF f c pls),
              gApply pid gB (reachNodeF f c pls)) := by
            have := hnode pB
            rw [hrec] at this
            exact (Prod.mk.injEq _ _ _ _ ▸ this).1
          have hlist := (ih f (Nat.lt_succ_self f)).2 pid rest pls st.1 st.2 out hszr h
          rw [hnode qB]
          have hlist2 := hlist (applyAll qB (reachNodeF f c pls))
          rw [hst] at hlist2
          simp only at hlist2
          simp only [reachListF, applyAll_append, gApply_append]
          exact hlist2

theorem intercalate_go_pre (s pre : String) (l : List String) :
    ∀ acc, String.intercalate.go (pre ++ acc) s l = pre ++ String.intercalate.go acc s l := by
  induction l with
  | nil =>
    intro acc
    simp [String.intercalate.go]
  | cons a as ih =>
    intro acc
    simp only [String.intercalate.go]
    rw [show pre ++ acc ++ s ++ a = pre ++ (acc ++ s ++ a) by simp [String.append_assoc]]
    exact ih (acc ++ s ++ a)

theorem intercalate_cons_cons (s a b : String) (l : List String) :
    String.intercalate s (a :: b :: l) = a ++ s ++ String.intercalate s (b :: l) := by
  simp only [String.intercalate, String.intercalate.go]
  exact intercalate_go_pre s (a ++ s) l b

theorem pyJoin_map_str (names : List String) :
    pyJoin (names.map .str) = some (String.intercalate "/" names) := by
  induction names with
  | nil => rfl
  | cons a rest ih =>
    cases rest with
    | nil => rfl
    | cons b rest' =>
      simp only [List.map_cons] at ih ⊢
      rw [pyJoin]
      simp only [ih, intercalate_cons_cons]

theorem reachF_congr : ∀ f1 : Nat,
    (∀ f2 node pls, sizeOf node ≤ f1 → sizeOf node ≤ f2 →
      reachNodeF f1 node pls = reachNodeF f2 node pls) ∧
    (∀ f2 cs pls, sizeOf cs ≤ f1 → sizeOf cs ≤ f2 →
      reachListF f1 cs pls = reachListF f2 cs pls) := by
  intro f1
  induction f1 using Nat.strong_induction_on with
  | _ f1 ih =>
  cases f1 with
  | zero =>
    constructor
    · intro f2 node pls hsz
      exact absurd hsz (by have := jvalue_one_le_sizeOf node; omega)
    · intro f2 cs pls hsz
      exact absurd hsz (by have := jlist_one_le_sizeOf cs; omega)
  | succ g =>
    constructor
    · intro f2 node pls hsz hsz2
      obtain ⟨h2, rfl⟩ : ∃ h2, f2 = h2 + 1 := by
        have := jvalue_one_le_sizeOf node
        exact ⟨f2 - 1, by omega⟩
      cases node with
      | obj fields =>
        rcases htype : dlookup fields "type" with _ | t
        · simp [reachNodeF, htype]
        · cases t with
          | str ty =>
            by_cases hty : ty = "url"
            · simp [reachNodeF, htype, hty]
            · by_cases htyf : ty = "folder"
              · simp only [reachNodeF, htype]
                rw [if_neg hty, if_pos htyf, if_neg hty, if_pos htyf]
                rcases hn : dlookup fields "name" with _ | namev
                · simp [hn]
                · rcases hc : dlookup fields "children" with _ | cv
                  · simp [hn, hc]
                  · cases cv with
                    | arr children =>
                      simp only [hn, hc]
                      have hszc : sizeOf children ≤ g := by
                        have h1 := sizeOf_lt_of_lookup_obj hc
                        simp only [JValue.arr.sizeOf_spec, JValue.obj.sizeOf_spec]
                          at h1 hsz
                        omega
                      have hszc2 : sizeOf children ≤ h2 := by
                        have h1 := sizeOf_lt_of_lookup_obj hc
                        simp only [JValue.arr.sizeOf_spec, JValue.obj.sizeOf_spec]
                          at h1 hsz2
                        omega
                      exact (ih g (Nat.lt_succ_self g)).2 h2 children (pls ++ [namev])
                        hszc hszc2
                    | null => simp [hn, hc]
                    | bool b => simp [hn, hc]
                    | num n => simp [hn, hc]
                    | str s => simp [hn, hc]
                    | obj o => simp [hn, hc]
              · simp only [reachNodeF, htype]
                rw [if_neg hty, if_neg htyf, if_neg hty, if_neg htyf]
          | null => simp [reachNodeF, htype]
          | bool b => simp [reachNodeF, htype]
          | num n => simp [reachNodeF, htype]
          | arr a => simp [reachNodeF, htype]
          | obj o => simp [reachNodeF, htype]
      | null => simp [reachNodeF]
      | bool b => simp [reachNodeF]
      | num n => simp [reachNodeF]
      | str s => simp [reachNodeF]
      | arr a => simp [reachNodeF]
    · intro f2 cs pls hsz hsz2
      obtain ⟨h2, rfl⟩ : ∃ h2, f2 = h2 + 1 := by
        have := jlist_one_le_sizeOf cs
        exact ⟨f2 - 1, by omega⟩
      cases cs with
      | nil => simp [reachListF]
      | cons c rest =>
        have hb := jvalue_one_le_sizeOf c
        have hb2 := jlist_one_le_sizeOf rest
        simp only [List.cons.sizeOf_spec] at hsz hsz2
        simp only [reachListF]
        rw [(ih g (Nat.lt_succ_self g)).1 h2 c pls (by omega) (by omega),
          (ih g (Nat.lt_succ_self g)).2 h2 rest pls (by omega) (by omega)]

/-- The visit list of the aggregation walk from a children list (fuel
instantiated as in `fetch_bookmarks_list`). -/
def reach_triples_list (cs : List JValue) (pls : List JValue) :
    List (JValue × String × String) :=
  reachListF (sizeOf cs) cs pls

/-- C9: the per-profile url-to-path mapping produced by the walk inserts,
for every visited url node, exactly the `'/'`-join of the accumulated
ancestor list (`reach_triples`): a url node's recorded path is the join of
the ancestor list in force, the join of string ancestors is
`String.intercalate "/"`, and a folder node extends the ancestor list with
its own name — one segment per enclosing folder — before its children are
visited. -/
theorem c9_recorded_path_is_joined_ancestors :
    (∀ pid node pls pB gB out,
      fetch_bookmarks_from_one_type pid node pls pB gB = (out, none) →
      out.1 = applyAll pB (reach_triples node pls)) ∧
    (∀ fields pls url p,
      dlookup fields "type" = some (.str "url") →
      dlookup fields "url" = some (.str url) →
      pyJoin pls = some p →
      reach_triples (.obj fields) pls = [(jgetD fields "name" .null, url, p)]) ∧
    (∀ names : List String, pyJoin (names.map .str) = some (String.intercalate "/" names)) ∧
    (∀ fields pls namev children,
      dlookup fields "type" = some (.str "folder") →
      dlookup fields "name" = some namev →
      dlookup fields "children" = some (.arr children) →
      reach_triples (.obj fields) pls = reach_triples_list children (pls ++ [namev])) := by
  refine ⟨?_, ?_, pyJoin_map_str, ?_⟩
  · intro pid node pls pB gB out h
    have h' : fetchBmkNodeF (sizeOf node) pid node pls pB gB = (out, none) := h
    have hch := (fetchF_spec (sizeOf node)).1 pid node pls pB gB out le_rfl h' pB
    rw [h'] at hch
    rw [Prod.mk.injEq] at hch
    rw [hch.1]
    rfl
  · intro fields pls url p htype hurl hj
    obtain ⟨f, hf⟩ : ∃ f, sizeOf (JValue.obj fields) = f + 1 := by
      have := jvalue_one_le_sizeOf (JValue.obj fields)
      exact ⟨sizeOf (JValue.obj fields) - 1, by omega⟩
    unfold reach_triples
    rw [hf]
    simp only [reachNodeF, htype, if_true]
    simp only [hurl, hj]
  · intro fields pls namev children htype hname hch
    obtain ⟨f, hf⟩ : ∃ f, sizeOf (JValue.obj fields) = f + 1 := by
      have := jvalue_one_le_sizeOf (JValue.obj fields)
      exact ⟨sizeOf (JValue.obj fields) - 1, by omega⟩
    unfold reach_triples
    rw [hf]
    simp only [reachNodeF, htype, if_true]
    simp only [hname, hch]
    have hszc : sizeOf children ≤ f := by
      have h1 := sizeOf_lt_of_lookup_obj hch
      simp only [JValue.arr.sizeOf_spec, JValue.obj.sizeOf_spec] at h1
      simp only [JValue.obj.sizeOf_spec] at hf
      omega
    exact (reachF_congr f).2 (sizeOf children) children (pls ++ [namev]) hszc le_rfl

/-- Witness for C9 at the spec's example: a url nested under root folder
`Bar` then folder `Work`, walked with the initial ancestor list `[""]`,
is recorded with folder path `"/Bar/Work"`. -/
theorem c9_recorded_path_is_joined_ancestors_witness :
    (fetch_bookmarks_from_one_type "p1"
      (.obj [("type", .str "folder"), ("name", .str "Bar"),
             ("children", .arr [.obj [("type", .str "folder"), ("name", .str "Work"),
               ("children", .arr [.obj [("type", .str "url"), ("name", .str "ex"),
                 ("url", .str "https://e.com")]])]])])
      [.str ""] [] []).1.1 =
      applyAll [] (reach_triples
        (.obj [("type", .str "folder"), ("name", .str "Bar"),
               ("children", .arr [.obj [("type", .str "folder"), ("name", .str "Work"),
                 ("children", .arr [.obj [("type", .str "url"), ("name", .str "ex"),
                   ("url", .str "https://e.com")]])]])])
        [.str ""]) ∧
    (fetch_bookmarks_from_one_type "p1"
      (.obj [("type", .str "folder"), ("name", .str "Bar"),
             ("children", .arr [.obj [("type", .str "folder"), ("name", .str "Work"),
               ("children", .arr [.obj [("type", .str "url"), ("name", .str "ex"),
                 ("url", .str "https://e.com")]])]])])
      [.str ""] [] []).1.1 = [("https://e.com", "/Bar/Work")] ∧
    String.intercalate "/" ["", "Bar", "Work"] = "/Bar/Work" :=
  ⟨c9_recorded_path_is_joined_ancestors.1 "p1" _ [.str ""] [] [] _ rfl, rfl, rfl⟩


/-- Manifest data on which `resolveExtMeta` cannot raise: an object whose
`icons` field (when present) is an object with numeric size keys and string
relative-path values. -/
def manifestSafe (m : JValue) : Bool :=
  match m with
  | .obj mfields =>
    match jgetD mfields "icons" (.obj []) with
    | .obj icons_info =>
      (intKeys (icons_info.map Prod.fst)).isSome &&
      icons_info.all (fun kv => match kv.2 with | .str _ => true | _ => false)
    | _ => false
  | _ => false

/-- One `extensions.settings` entry on which the per-identifier body of the
extension scan cannot raise: the settings value is an object whose `path`
is a string, and whichever manifest the branch taken would read is present,
parsable and `manifestSafe`.  (An entry whose id is already indexed, or a
profile whose `Extensions` directory is missing, is safe regardless; the
predicate is a sufficient condition, not a necessary one.) -/
def extSetSafe (fs : FS) (ext_dir : String) (kv : String × JValue) : Bool :=
  match kv.2 with
  | .obj set_fields =>
    match jgetD set_fields "path" (.str "") with
    | .str ext_path =>
      if ext_path = "" then true
      else if path_exists fs ext_path then
        match dlookup fs.files (pjoin ext_path "manifest.json") with
        | some (some m) => manifestSafe m
        | _ => false
      else if path_exists fs (pjoin ext_dir ext_path) then
        manifestSafe (jgetD set_fields "manifest" (.obj []))
      else true
    | _ => false
  | _ => false

/-- A profile on which `extProfileStep` cannot raise: a missing or
unparsable `Secure Preferences` or an absent `extensions.settings` chain
skips the profile, and otherwise the settings must be an object all of
whose entries are `extSetSafe`. -/
def extStepSafe (fs : FS) (profile : Profile) : Bool :=
  match dlookup fs.files (pjoin profile.profile_dir "Secure Preferences") with
  | none => true
  | some none => true
  | some (some secure_pref_data) =>
    match get_with_chained_keys secure_pref_data ["extensions", "settings"] with
    | none => true
    | some (.obj ext_settings) =>
      ext_settings.all (extSetSafe fs (pjoin profile.profile_dir "Extensions"))
    | some _ => false

theorem resolveExtMeta_isOk (fs : FS) (eid pid base : String) (m : JValue)
    (hs : manifestSafe m = true) :
    (resolveExtMeta fs eid pid m base).isOk = true := by
  unfold manifestSafe at hs
  unfold resolveExtMeta
  split at hs
  next mfields =>
    split at hs
    next icons_info heq =>
      rw [Bool.and_eq_true] at hs
      obtain ⟨h1, h2⟩ := hs
      rcases hik : intKeys (icons_info.map Prod.fst) with _ | ks
      · rw [hik] at h1; simp at h1
      · simp only [hik]
        rcases hlu : dlookup icons_info
            (match pymax ks with | none => "" | some n => toString n) with _ | v
        · simp only [hlu, Option.getD_none]
          rfl
        · have hmem := dlookup_mem hlu
          have hv := List.all_eq_true.mp h2 _ hmem
          rcases v with _ | b | n | sv | a | o
          all_goals simp at hv
          simp only [hlu, Option.getD_some]
          rfl
    next heq => simp at hs
  next => simp at hs


theorem extOne_ok (fs : FS) :
    ∀ (settings : List (String × JValue)) (profile : Profile)
      (exts : List (String × Extension)),
      settings.all (extSetSafe fs (pjoin profile.profile_dir "Extensions")) = true →
      (fetch_extensions_from_one_profile fs settings profile exts).2 = none := by
  intro settings
  induction settings with
  | nil =>
    intro profile exts _
    simp [fetch_extensions_from_one_profile]
  | cons kv rest ih =>
    intro profile exts h
    obtain ⟨ext_id, ext_set⟩ := kv
    rw [List.all_cons, Bool.and_eq_true] at h
    obtain ⟨h1, h2⟩ := h
    simp only [fetch_extensions_from_one_profile]
    rcases hl : dlookup exts ext_id with _ | e
    case some =>
      exact ih _ _ h2
    case none =>
      cases hdir : fs.isDir (pjoin profile.profile_dir "Extensions") with
      | false =>
        simp only [hdir, Bool.not_false, if_true]
        exact ih _ _ h2
      | true =>
        simp only [hdir, Bool.not_true, Bool.false_eq_true, if_false]
        simp only [extSetSafe] at h1
        split at h1
        next set_fields =>
          split at h1
          next ext_path hpath =>
            by_cases hemp : ext_path = ""
            · rw [if_pos hemp] at h1 ⊢
              exact ih _ _ h2
            · rw [if_neg hemp] at h1 ⊢
              by_cases hoff : path_exists fs ext_path = true
              · rw [if_pos hoff] at h1 ⊢
                rcases hmf : dlookup fs.files (pjoin ext_path "manifest.json") with _ | om
                · rw [hmf] at h1; simp at h1
                · rcases om with _ | m
                  · rw [hmf] at h1; simp at h1
                  · rw [hmf] at h1
                    replace h1 : manifestSafe m = true := h1
                    show (match resolveExtMeta fs ext_id profile.id m ext_path with
                      | .error e => ((profile, exts), some e)
                      | .ok ext => fetch_extensions_from_one_profile fs rest
                          { profile with extensions := sadd profile.extensions ext_id }
                          (dinsert exts ext_id ext)).2 = none
                    rcases hr : resolveExtMeta fs ext_id profile.id m ext_path with e' | ext
                    · have hok := resolveExtMeta_isOk fs ext_id profile.id ext_path m h1
                      rw [hr] at hok
                      simp [Except.isOk, Except.toBool] at hok
                    · exact ih _ _ h2
              · rw [if_neg hoff] at h1 ⊢
                by_cases hon :
                    path_exists fs (pjoin (pjoin profile.profile_dir "Extensions") ext_path) = true
                · rw [if_pos hon] at h1 ⊢
                  rcases hr : resolveExtMeta fs ext_id profile.id
                      (jgetD set_fields "manifest" (.obj []))
                      (pjoin (pjoin profile.profile_dir "Extensions") ext_path) with e' | ext
                  · have hok := resolveExtMeta_isOk fs ext_id profile.id
                        (pjoin (pjoin profile.profile_dir "Extensions") ext_path)
                        (jgetD set_fields "manifest" (.obj [])) h1
                    rw [hr] at hok
                    simp [Except.isOk, Except.toBool] at hok
                  · exact ih _ _ h2
                · rw [if_neg hon] at h1 ⊢
                  exact ih _ _ h2
          next hpath => simp at h1
        next => simp at h1


theorem extStep_ok (fs : FS) (profile : Profile) (exts : List (String × Extension))
    (h : extStepSafe fs profile = true) : (extProfileStep fs profile exts).2 = none := by
  unfold extStepSafe at h
  simp only [extProfileStep]
  split
  · rfl
  · rfl
  next data heq =>
    rw [heq] at h
    replace h : (match get_with_chained_keys data ["extensions", "settings"] with
      | none => true
      | some (.obj ext_settings) =>
        ext_settings.all (extSetSafe fs (pjoin profile.profile_dir "Extensions"))
      | some _ => false) = true := h
    split
    · rfl
    next ext_settings heq2 =>
      rw [heq2] at h
      replace h : ext_settings.all (extSetSafe fs (pjoin profile.profile_dir "Extensions")) =
          true := h
      exact extOne_ok fs ext_settings profile exts h
    next v heq2 =>
      rw [heq2] at h
      replace h : False := by simpa using h
      exact h.elim

theorem extLoop_ok (fs : FS) :
    ∀ (profs : List (String × Profile)) (exts : List (String × Extension)),
      profs.all (fun p => extStepSafe fs p.2) = true →
      (extProfilesLoop fs profs exts).2 = none := by
  intro profs
  induction profs with
  | nil => intro exts _; simp [extProfilesLoop]
  | cons pp rest ih =>
    intro exts h
    obtain ⟨profile_id, profile⟩ := pp
    rw [List.all_cons, Bool.and_eq_true] at h
    obtain ⟨h1, h2⟩ := h
    simp only [extProfilesLoop]
    rcases hstep : extProfileStep fs profile exts with ⟨⟨profile', exts'⟩, err⟩
    have herr : err = none := by
      have := extStep_ok fs profile exts h1
      rw [hstep] at this
      exact this
    subst herr
    exact ih exts' h2

/-- A state on which `fetch_extensions_from_all_profiles` cannot raise. -/
def extFetchSafe (s : ChromInstance) (fs : FS) : Bool :=
  s.profiles.all (fun p => extStepSafe fs p.2)

theorem extFetch_ok (s : ChromInstance) (fs : FS) (h : extFetchSafe s fs = true) :
    (fetch_extensions_from_all_profiles s fs).2 = none :=
  extLoop_ok fs s.profiles [] h

/-- Well-formedness of a children list (fuel instantiated as in the walks). -/
def wf_list (cs : List JValue) : Bool := wfListF (sizeOf cs) cs

/-- A profile on which `bmkProfileStep` cannot raise: a missing or
unparsable `Bookmarks` file or an absent `roots` key skips the profile, and
otherwise `roots` must be an object all of whose values are well-formed
bookmark trees. -/
def bmkStepSafe (fs : FS) (profile : Profile) : Bool :=
  match dlookup fs.files (pjoin profile.profile_dir "Bookmarks") with
  | none => true
  | some none => true
  | some (some bookmark_data) =>
    match get_with_chained_keys bookmark_data ["roots"] with
    | none => true
    | some (.obj roots) =>
      wfListF (sizeOf (roots.map Prod.snd)) (roots.map Prod.snd)
    | some _ => false

theorem wfF_fetch_ok : ∀ fuel : Nat,
    (∀ (node : JValue) (names : List String) (pid : String)
      (pB : List (String × String)) (gB : List (String × Bookmark)),
      wfNodeF fuel node = true →
      (fetchBmkNodeF fuel pid node (names.map .str) pB gB).2 = none) ∧
    (∀ (cs : List JValue) (names : List String) (pid : String)
      (pB : List (String × String)) (gB : List (String × Bookmark)),
      wfListF fuel cs = true →
      (fetchBmkListF fuel pid cs (names.map .str) pB gB).2 = none) := by
  intro fuel
  induction fuel with
  | zero =>
    constructor
    · intro node names pid pB gB hw; simp [wfNodeF] at hw
    · intro cs names pid pB gB hw; simp [wfListF] at hw
  | succ fuel ih =>
    constructor
    · intro node names pid pB gB hw
      simp only [wfNodeF] at hw
      simp only [fetchBmkNodeF]
      split at hw
      next fields =>
        split at hw
        next ty hty =>
          simp only [hty]
          by_cases hurl : ty = "url"
          · rw [if_pos hurl] at hw
            rw [if_pos hurl]
            rw [Bool.and_eq_true] at hw
            obtain ⟨hw1, hw2⟩ := hw
            split at hw1
            next url hu =>
              simp only [hu, pyJoin_map_str]
              rcases hgb : dlookup gB url with _ | b
              · rcases hnm : dlookup fields "name" with _ | namev
                · rw [hnm] at hw2; simp at hw2
                · simp only [hnm]
              · rfl
            next => simp at hw1
          · rw [if_neg hurl] at hw
            rw [if_neg hurl]
            by_cases hfold : ty = "folder"
            · rw [if_pos hfold] at hw
              rw [if_pos hfold]
              rw [Bool.and_eq_true] at hw
              obtain ⟨hw1, hw2⟩ := hw
              split at hw1
              next nm hnm =>
                simp only [hnm]
                split at hw2
                next children hch =>
                  simp only [hch]
                  have hmap : List.map JValue.str names ++ [JValue.str nm] =
                      List.map JValue.str (names ++ [nm]) := by
                    simp
                  rw [hmap]
                  exact ih.2 children (names ++ [nm]) pid pB gB hw2
                next => simp at hw2
              next => simp at hw1
            · rw [if_neg hfold] at hw
              rw [if_neg hfold]
        next => simp at hw
      next => simp at hw
    · intro cs names pid pB gB hw
      simp only [wfListF] at hw
      simp only [fetchBmkListF]
      split at hw
      · rfl
      next c cs' =>
        rw [Bool.and_eq_true] at hw
        obtain ⟨hw1, hw2⟩ := hw
        rcases hr : fetchBmkNodeF fuel pid c (names.map .str) pB gB with ⟨st, err⟩
        have herr : err = none := by
          have hm := ih.1 c names pid pB gB hw1
          rw [hr] at hm
          exact hm
        subst herr
        exact ih.2 cs' names pid st.1 st.2 hw2

theorem bmkStep_ok (fs : FS) (profile : Profile) (gB : List (String × Bookmark))
    (h : bmkStepSafe fs profile = true) : (bmkProfileStep fs profile gB).2 = none := by
  unfold bmkStepSafe at h
  simp only [bmkProfileStep]
  split
  · rfl
  next parsed heq =>
    rw [heq] at h
    split
    · rfl
    next bookmark_data =>
      replace h : (match get_with_chained_keys bookmark_data ["roots"] with
        | none => true
        | some (.obj roots) =>
          wfListF (sizeOf (roots.map Prod.snd)) (roots.map Prod.snd)
        | some _ => false) = true := h
      split
      · rfl
      next roots heq3 =>
        rw [heq3] at h
        replace h : wfListF (sizeOf (roots.map Prod.snd)) (roots.map Prod.snd) = true := h
        show (fetch_bookmarks_list profile.id (roots.map Prod.snd) [.str ""]
          profile.bookmarks gB).2 = none
        exact (wfF_fetch_ok (sizeOf (roots.map Prod.snd))).2 (roots.map Prod.snd)
          [""] profile.id profile.bookmarks gB h
      next v heq3 =>
        rw [heq3] at h
        replace h : False := by simpa using h
        exact h.elim


theorem bmkLoop_ok (fs : FS) :
    ∀ (profs : List (String × Profile)) (gB : List (String × Bookmark)),
      profs.all (fun p => bmkStepSafe fs p.2) = true →
      (bmkProfilesLoop fs profs gB).2 = none := by
  intro profs
  induction profs with
  | nil => intro gB _; simp [bmkProfilesLoop]
  | cons pp rest ih =>
    intro gB h
    obtain ⟨profile_id, profile⟩ := pp
    rw [List.all_cons, Bool.and_eq_true] at h
    obtain ⟨h1, h2⟩ := h
    simp only [bmkProfilesLoop]
    rcases hstep : bmkProfileStep fs profile gB with ⟨⟨profile', gB'⟩, err⟩
    have herr : err = none := by
      have hm := bmkStep_ok fs profile gB h1
      rw [hstep] at hm
      exact hm
    subst herr
    exact ih gB' h2

/-- A state on which `fetch_bookmarks_from_all_profiles` cannot raise. -/
def bmkFetchSafe (s : ChromInstance) (fs : FS) : Bool :=
  s.profiles.all (fun p => bmkStepSafe fs p.2)

theorem bmkFetch_ok (s : ChromInstance) (fs : FS) (h : bmkFetchSafe s fs = true) :
    (fetch_bookmarks_from_all_profiles s fs).2 = none :=
  bmkLoop_ok fs s.profiles [] h

theorem wfF_del_ok : ∀ fuel : Nat,
    (∀ (node : JValue) (pid : String) (urls : List String)
      (pB : List (String × String)) (gB : List (String × Bookmark)),
      wfNodeF fuel node = true →
      (delNodeF fuel pid urls node pB gB).2 = none) ∧
    (∀ (cs : List JValue) (pid : String) (urls : List String)
      (pB : List (String × String)) (gB : List (String × Bookmark)),
      wfListF fuel cs = true →
      (delChildrenF fuel pid urls cs pB gB).2 = none) := by
  intro fuel
  induction fuel with
  | zero =>
    constructor
    · intro node pid urls pB gB hw; simp [wfNodeF] at hw
    · intro cs pid urls pB gB hw; simp [wfListF] at hw
  | succ fuel ih =>
    constructor
    · intro node pid urls pB gB hw
      simp only [wfNodeF] at hw
      simp only [delNodeF]
      split at hw
      next fields =>
        split at hw
        next ty hty =>
          simp only [hty]
          by_cases hfold : ty = "folder"
          · rw [if_pos hfold]
            rw [if_neg (by rw [hfold]; decide), if_pos hfold] at hw
            rw [Bool.and_eq_true] at hw
            obtain ⟨hw1, hw2⟩ := hw
            split at hw2
            next children hch =>
              simp only [hch]
              rcases hr : delChildrenF fuel pid urls children pB gB with ⟨⟨cs', pB', gB'⟩, err⟩
              have herr : err = none := by
                have hm := ih.2 children pid urls pB gB hw2
                rw [hr] at hm
                exact hm
              subst herr
              rfl
            next => simp at hw2
          · rw [if_neg hfold]
        next => simp at hw
      next => simp at hw
    · intro cs pid urls pB gB hw
      simp only [wfListF] at hw
      simp only [delChildrenF]
      split at hw
      · rfl
      next c cs' =>
        rw [Bool.and_eq_true] at hw
        obtain ⟨hw1, hw2⟩ := hw
        rcases hr : delChildrenF fuel pid urls cs' pB gB with ⟨⟨rest', pB', gB'⟩, err⟩
        have herr : err = none := by
          have hm := ih.2 cs' pid urls pB gB hw2
          rw [hr] at hm
          exact hm
        subst herr
        dsimp only
        cases fuel with
        | zero => simp [wfNodeF] at hw1
        | succ g =>
          cases c with
          | null => simp [wfNodeF] at hw1
          | bool b => simp [wfNodeF] at hw1
          | num n => simp [wfNodeF] at hw1
          | str s2 => simp [wfNodeF] at hw1
          | arr a => simp [wfNodeF] at hw1
          | obj cfields =>
            dsimp only
            have hw0 := hw1
            replace hw1 : (match dlookup cfields "type" with
              | some (JValue.str ty) =>
                if ty = "url" then
                  (match dlookup cfields "url" with
                   | some (JValue.str _) => true
                   | _ => false) && (dlookup cfields "name").isSome
                else if ty = "folder" then
                  (match dlookup cfields "name" with
                   | some (JValue.str _) => true
                   | _ => false) &&
                  (match dlookup cfields "children" with
                   | some (JValue.arr children) => wfListF g children
                   | _ => false)
                else true
              | _ => false) = true := hw1
            split at hw1
            next ty hty =>
              simp only [hty]
              by_cases hurl : ty = "url"
              · rw [if_pos hurl] at hw1
                rw [if_pos hurl]
                rw [Bool.and_eq_true] at hw1
                obtain ⟨hu1, hu2⟩ := hw1
                split at hu1
                next url hu =>
                  simp only [hu]
                  by_cases hmem : url ∈ urls
                  · rw [if_pos hmem]
                  · rw [if_neg hmem]
                next => simp at hu1
              · rw [if_neg hurl]
                exact ih.1 (.obj cfields) pid urls pB' gB' hw0
            next => simp at hw1


theorem deleteRoots_ok (pid : String) (urls : List String) :
    ∀ (roots : List (String × JValue)) (pB : List (String × String))
      (gB : List (String × Bookmark)),
      roots.all (fun r => wf_node r.2) = true →
      (deleteRootsLoop pid urls roots pB gB).2 = none := by
  intro roots
  induction roots with
  | nil => intro pB gB _; simp [deleteRootsLoop]
  | cons rp rest ih =>
    intro pB gB h
    obtain ⟨rname, rnode⟩ := rp
    rw [List.all_cons, Bool.and_eq_true] at h
    obtain ⟨h1, h2⟩ := h
    simp only [deleteRootsLoop]
    rcases hr : delete_bookmarks_in_one_folder pid urls rnode pB gB with
      ⟨⟨rnode', pB', gB'⟩, err⟩
    have herr : err = none := by
      have hm := (wfF_del_ok (sizeOf rnode)).1 rnode pid urls pB gB h1
      rw [show delNodeF (sizeOf rnode) pid urls rnode pB gB =
        delete_bookmarks_in_one_folder pid urls rnode pB gB from rfl] at hm
      rw [hr] at hm
      exact hm
    subst herr
    show (deleteRootsLoop pid urls rest pB' gB').2 = none
    exact ih pB' gB' h2

/-- A profile identifier on which `deleteProfileStep` cannot raise: the id
is known, and either no bookmark file is recorded or the recorded file (in
the filesystem after the backup delete) is present and either unparsable
(skip) or an object whose `roots`, if an object, holds only well-formed
trees. -/
def deleteStepSafe (pid : String) (s : ChromInstance) (fs : FS) : Bool :=
  match dlookup s.profiles pid with
  | none => false
  | some profile =>
    let fs := { fs with
      files := derase fs.files (pjoin profile.profile_dir "Bookmarks.bak") }
    if profile.bookmark_file = "" then true
    else
      match dlookup fs.files profile.bookmark_file with
      | none => false
      | some none => true
      | some (some bookmark_data) =>
        match bookmark_data with
        | .obj bfields0 =>
          let bfields := derase bfields0 "checksum"
          match dlookup bfields "roots" with
          | some (.obj roots) => roots.all (fun r => wf_node r.2)
          | some _ => false
          | none => true
        | _ => false

theorem deleteStep_ok (urls : List String) (pid : String) (s : ChromInstance) (fs : FS)
    (h : deleteStepSafe pid s fs = true) :
    (deleteProfileStep urls pid s fs).2 = none := by
  simp only [deleteStepSafe] at h
  simp only [deleteProfileStep]
  split
  next heq => rw [heq] at h; simp at h
  next profile heq =>
    rw [heq] at h
    replace h : (if profile.bookmark_file = "" then true
      else
        match dlookup (derase fs.files (pjoin profile.profile_dir "Bookmarks.bak"))
            profile.bookmark_file with
        | none => false
        | some none => true
        | some (some bookmark_data) =>
          match bookmark_data with
          | JValue.obj bfields0 =>
            match dlookup (derase bfields0 "checksum") "roots" with
            | some (.obj roots) => roots.all (fun r => wf_node r.2)
            | some _ => false
            | none => true
          | _ => false) = true := h
    by_cases hbf : profile.bookmark_file = ""
    · rw [if_pos hbf]
    · rw [if_neg hbf] at h ⊢
      split
      next heq2 => rw [heq2] at h; simp at h
      next heq2 => rfl
      next bookmark_data heq2 =>
        rw [heq2] at h
        split
        next bfields0 =>
          replace h : (match dlookup (derase bfields0 "checksum") "roots" with
            | some (.obj roots) => roots.all (fun r => wf_node r.2)
            | some _ => false
            | none => true) = true := h
          split
          next roots heq3 =>
            rw [heq3] at h
            replace h : roots.all (fun r => wf_node r.2) = true := h
            rcases hloop : deleteRootsLoop pid urls roots profile.bookmarks s.bookmarks with
              ⟨⟨roots2, pB2, gB2⟩, err⟩
            have herr : err = none := by
              have hm := deleteRoots_ok pid urls roots profile.bookmarks s.bookmarks h
              rw [hloop] at hm
              exact hm
            subst herr
            rfl
          next v heq3 => rw [heq3] at h; simp at h
          next heq3 => rfl
        next => simp at h

/-- The loop of `delete_bookmarks_from_profiles` cannot raise: every
identifier in turn is `deleteStepSafe` in the state the loop has reached by
then. -/
def deleteLoopSafe (urls : List String) : List String → ChromInstance → FS → Bool
  | [], _, _ => true
  | pid :: rest, s, fs =>
    deleteStepSafe pid s fs &&
    deleteLoopSafe urls rest (deleteProfileStep urls pid s fs).1.1
      (deleteProfileStep urls pid s fs).1.2

theorem deleteLoop_ok (urls : List String) :
    ∀ (ids : List String) (s : ChromInstance) (fs : FS),
      deleteLoopSafe urls ids s fs = true →
      (deleteProfilesLoop urls ids s fs).2 = none := by
  intro ids
  induction ids with
  | nil => intro s fs _; simp [deleteProfilesLoop]
  | cons pid rest ih =>
    intro s fs h
    simp only [deleteLoopSafe, Bool.and_eq_true] at h
    obtain ⟨h1, h2⟩ := h
    simp only [deleteProfilesLoop]
    rcases hstep : deleteProfileStep urls pid s fs with ⟨⟨s', fs'⟩, err⟩
    have herr : err = none := by
      have hm := deleteStep_ok urls pid s fs h1
      rw [hstep] at hm
      exact hm
    subst herr
    rw [hstep] at h2
    exact ih s' fs' h2


/-- C4 (amended): the claim is false in general — a tree-level missing key
escapes bookmark discovery (`c4_counterexample_missing_key_escapes`), and a
missing bookmark file at deletion time or a missing / malformed offline
`manifest.json` likewise escapes — but the file-level part of the taxonomy
holds: a missing or unparsable state file or an absent expected chain only
skips the profile, and whenever the remaining data is well-shaped (settings
objects with string paths and safe manifests for whichever branch is taken;
well-formed bookmark trees) the three public operations modelled raise
nothing: extension discovery, bookmark discovery, and bookmark deletion
each return with no escaped exception. -/
theorem c4_file_level_conditions_nonfatal :
    (∀ (s : ChromInstance) (fs : FS), extFetchSafe s fs = true →
      (fetch_extensions_from_all_profiles s fs).2 = none) ∧
    (∀ (s : ChromInstance) (fs : FS), bmkFetchSafe s fs = true →
      (fetch_bookmarks_from_all_profiles s fs).2 = none) ∧
    (∀ (s : ChromInstance) (fs : FS) (urls : List String) (pids : Option (List String)),
      deleteLoopSafe urls (pids.getD (s.profiles.map Prod.fst)) s fs = true →
      (delete_bookmarks_from_profiles s fs urls pids).2 = none) := by
  refine ⟨extFetch_ok, bmkFetch_ok, ?_⟩
  intro s fs urls pids h
  cases pids with
  | none => exact deleteLoop_ok urls (s.profiles.map Prod.fst) s fs h
  | some l => exact deleteLoop_ok urls l s fs h

/-- A well-formed one-url bookmark tree used to witness C4. -/
def c4Tree : JValue :=
  .obj [("type", .str "folder"), ("name", .str "Bar"),
    ("children", .arr [.obj [("type", .str "url"), ("url", .str "https://e.com"),
      ("name", .str "ex")]])]

/-- A filesystem with well-shaped state files used to witness C4. -/
def c4Fs : FS :=
  { dirs := ["u", "u/p1", "u/p1/Extensions", "off"],
    files := [
      ("u/p1/Bookmarks", some (.obj [("roots", .obj [("bookmark_bar", c4Tree)])])),
      ("u/p1/Secure Preferences", some (.obj [("extensions", .obj [("settings",
        .obj [("e1", .obj [("path", .str "off")])])])])),
      ("off/manifest.json", some (.obj [("name", .str "Ext"),
        ("icons", .obj [("16", .str "a.png")])])),
      ("off/a.png", some .null)] }

/-- An engine state with one profile used to witness C4. -/
def c4S : ChromInstance :=
  { userdata_dir := "u",
    profiles := [("p1",
      { id := "p1"
        profile_dir := "u/p1"
        bookmark_file := "u/p1/Bookmarks" })] }

/-- Witness for C4 at a concrete well-shaped state: extension discovery,
bookmark discovery and bookmark deletion all return with no exception. -/
theorem c4_file_level_conditions_nonfatal_witness :
    (fetch_extensions_from_all_profiles c4S c4Fs).2 = none ∧
    (fetch_bookmarks_from_all_profiles c4S c4Fs).2 = none ∧
    (delete_bookmarks_from_profiles c4S c4Fs ["https://e.com"] none).2 = none :=
  ⟨c4_file_level_conditions_nonfatal.1 c4S c4Fs rfl,
   c4_file_level_conditions_nonfatal.2.1 c4S c4Fs rfl,
   c4_file_level_conditions_nonfatal.2.2 c4S c4Fs ["https://e.com"] none rfl⟩


theorem sadd_ne_nil (l : List String) (x : String) : sadd l x ≠ [] := by
  unfold sadd
  split
  next h => exact List.ne_nil_of_mem h
  next => simp

theorem resolveExtMeta_profiles {fs : FS} {eid pid base : String} {m : JValue}
    {ext : Extension} (h : resolveExtMeta fs eid pid m base = .ok ext) :
    ext.profiles = [pid] := by
  unfold resolveExtMeta at h
  split at h
  next mfields =>
    split at h
    next icons_info =>
      split at h
      · exact absurd h (by simp)
      next ks =>
        split at h
        · dsimp only at h
          split at h
          next icon_short_path =>
            rw [Except.ok.injEq] at h
            rw [← h]
          next => exact absurd h (by simp)
        · dsimp only at h
          split at h
          next icon_short_path =>
            rw [Except.ok.injEq] at h
            rw [← h]
          next => exact absurd h (by simp)
    next => exact absurd h (by simp)
  next => exact absurd h (by simp)

/-- Index update for one extension identifier: inserting an entry whose
profile set is the old entry's set extended with the current profile (or
just the current profile when the identifier was unindexed) preserves the
scan invariants, and other profiles' views of the index are unchanged. -/
theorem eupdate_inv (P : Profile) (exts : List (String × Extension))
    (doneIds : List String) (ext_id : String) (e' : Extension)
    (h1 : ∀ eid, eid ∈ P.extensions ↔
      ∃ e, dlookup exts eid = some e ∧ P.id ∈ e.profiles)
    (h2 : ∀ eid e, dlookup exts eid = some e → e.profiles ≠ [] ∧
      ∀ qid ∈ e.profiles, qid = P.id ∨ qid ∈ doneIds)
    (hprof : ∀ qid, qid ∈ e'.profiles ↔
      (qid = P.id ∨ ∃ e, dlookup exts ext_id = some e ∧ qid ∈ e.profiles)) :
    (∀ eid, eid ∈ sadd P.extensions ext_id ↔
      ∃ e, dlookup (dinsert exts ext_id e') eid = some e ∧ P.id ∈ e.profiles) ∧
    (∀ eid e, dlookup (dinsert exts ext_id e') eid = some e → e.profiles ≠ [] ∧
      ∀ qid ∈ e.profiles, qid = P.id ∨ qid ∈ doneIds) ∧
    (∀ qid, qid ≠ P.id → ∀ eid,
      ((∃ e, dlookup (dinsert exts ext_id e') eid = some e ∧ qid ∈ e.profiles) ↔
       (∃ e, dlookup exts eid = some e ∧ qid ∈ e.profiles))) := by
  refine ⟨?_, ?_, ?_⟩
  · intro eid
    by_cases heid : eid = ext_id
    · subst heid
      simp only [dlookup_dinsert_self]
      constructor
      · intro _
        exact ⟨e', rfl, (hprof P.id).mpr (Or.inl rfl)⟩
      · intro _
        exact mem_sadd.mpr (Or.inl rfl)
    · have hne : ext_id ≠ eid := fun hh => heid hh.symm
      simp only [dlookup_dinsert_ne exts e' hne]
      rw [mem_sadd]
      constructor
      · rintro (h | h)
        · exact absurd h heid
        · exact (h1 eid).mp h
      · intro h
        exact Or.inr ((h1 eid).mpr h)
  · intro eid e he
    by_cases heid : eid = ext_id
    · subst heid
      rw [dlookup_dinsert_self, Option.some.injEq] at he
      subst he
      constructor
      · exact List.ne_nil_of_mem ((hprof P.id).mpr (Or.inl rfl))
      · intro qid hq
        rcases (hprof qid).mp hq with h | ⟨e0, he0, hq0⟩
        · exact Or.inl h
        · exact (h2 _ e0 he0).2 qid hq0
    · have hne : ext_id ≠ eid := fun hh => heid hh.symm
      rw [dlookup_dinsert_ne exts e' hne] at he
      exact h2 eid e he
  · intro qid hq eid
    by_cases heid : eid = ext_id
    · subst heid
      simp only [dlookup_dinsert_self]
      constructor
      · rintro ⟨e, he, hqe⟩
        rw [Option.some.injEq] at he
        subst he
        rcases (hprof qid).mp hqe with h | hex
        · exact absurd h hq
        · exact hex
      · rintro ⟨e, he, hqe⟩
        exact ⟨e', rfl, (hprof qid).mpr (Or.inr ⟨e, he, hqe⟩)⟩
    · have hne : ext_id ≠ eid := fun hh => heid hh.symm
      simp only [dlookup_dinsert_ne exts e' hne]


/-- The settings scan of `_fetch_extensions_from_one_profile` keeps the
per-profile extension set and the global index in lockstep for the current
profile, keeps the global entries' profile sets confined to the current and
previously processed profiles, and leaves every other profile's view of the
global index unchanged — on every exit, normal or exceptional. -/
theorem escan_inv (fs : FS) (doneIds : List String) :
    ∀ (settings : List (String × JValue)) (P : Profile)
      (exts : List (String × Extension)),
      (∀ eid, eid ∈ P.extensions ↔
        ∃ e, dlookup exts eid = some e ∧ P.id ∈ e.profiles) →
      (∀ eid e, dlookup exts eid = some e → e.profiles ≠ [] ∧
        ∀ qid ∈ e.profiles, qid = P.id ∨ qid ∈ doneIds) →
      (fetch_extensions_from_one_profile fs settings P exts).1.1.id = P.id ∧
      (∀ eid, eid ∈ (fetch_extensions_from_one_profile fs settings P exts).1.1.extensions ↔
        ∃ e, dlookup (fetch_extensions_from_one_profile fs settings P exts).1.2 eid =
          some e ∧ P.id ∈ e.profiles) ∧
      (∀ eid e,
        dlookup (fetch_extensions_from_one_profile fs settings P exts).1.2 eid = some e →
        e.profiles ≠ [] ∧ ∀ qid ∈ e.profiles, qid = P.id ∨ qid ∈ doneIds) ∧
      (∀ qid, qid ≠ P.id → ∀ eid,
        ((∃ e, dlookup (fetch_extensions_from_one_profile fs settings P exts).1.2 eid =
            some e ∧ qid ∈ e.profiles) ↔
         (∃ e, dlookup exts eid = some e ∧ qid ∈ e.profiles))) := by
  intro settings
  induction settings with
  | nil =>
    intro P exts h1 h2
    exact ⟨rfl, h1, h2, fun qid _ eid => Iff.rfl⟩
  | cons kv rest ih =>
    intro P exts h1 h2
    obtain ⟨ext_id, ext_set⟩ := kv
    rcases hl : dlookup exts ext_id with _ | e
    case some =>
      have hprof : ∀ qid, qid ∈ (sadd e.profiles P.id) ↔
          (qid = P.id ∨ ∃ e0, dlookup exts ext_id = some e0 ∧ qid ∈ e0.profiles) := by
        intro qid
        rw [mem_sadd]
        constructor
        · rintro (h | h)
          · exact Or.inl h
          · exact Or.inr ⟨e, hl, h⟩
        · rintro (h | ⟨e0, he0, h⟩)
          · exact Or.inl h
          · rw [hl, Option.some.injEq] at he0
            subst he0
            exact Or.inr h
      obtain ⟨h1', h2', hfr⟩ := eupdate_inv P exts doneIds ext_id
        { e with profiles := sadd e.profiles P.id } h1 h2 hprof
      simp only [fetch_extensions_from_one_profile, hl]
      obtain ⟨hid, ha, hb, hc⟩ := ih { P with extensions := sadd P.extensions ext_id }
        (dinsert exts ext_id { e with profiles := sadd e.profiles P.id }) h1' h2'
      exact ⟨hid, ha, hb, fun qid hq eid => (hc qid hq eid).trans (hfr qid hq eid)⟩
    case none =>
      cases hdir : fs.isDir (pjoin P.profile_dir "Extensions") with
      | false =>
        simp only [fetch_extensions_from_one_profile, hl, hdir, Bool.not_false, if_true]
        exact ih P exts h1 h2
      | true =>
        cases ext_set with
        | obj set_fields =>
          rcases hpath : jgetD set_fields "path" (.str "") with _ | b' | n' | ext_path | a' | o'
          case str =>
            by_cases hemp : ext_path = ""
            · simp only [fetch_extensions_from_one_profile, hl, hdir, Bool.not_true,
                Bool.false_eq_true, if_false, hpath, if_pos hemp]
              exact ih P exts h1 h2
            · by_cases hoff : path_exists fs ext_path = true
              · rcases hmf : dlookup fs.files (pjoin ext_path "manifest.json") with _ | om
                · simp only [fetch_extensions_from_one_profile, hl, hdir, Bool.not_true,
                    Bool.false_eq_true, if_false, hpath, if_neg hemp, if_pos hoff, hmf]
                  refine ⟨?_, h1, h2, ?_⟩ <;> (intros; trivial)
                · rcases om with _ | m
                  · simp only [fetch_extensions_from_one_profile, hl, hdir, Bool.not_true,
                      Bool.false_eq_true, if_false, hpath, if_neg hemp, if_pos hoff, hmf]
                    refine ⟨?_, h1, h2, ?_⟩ <;> (intros; trivial)
                  · rcases hr : resolveExtMeta fs ext_id P.id m ext_path with e' | ext
                    · simp only [fetch_extensions_from_one_profile, hl, hdir, Bool.not_true,
                        Bool.false_eq_true, if_false, hpath, if_neg hemp, if_pos hoff, hmf, hr]
                      refine ⟨?_, h1, h2, ?_⟩ <;> (intros; trivial)
                    · have hpr := resolveExtMeta_profiles hr
                      have hprof : ∀ qid, qid ∈ ext.profiles ↔
                          (qid = P.id ∨ ∃ e0, dlookup exts ext_id = some e0 ∧
                            qid ∈ e0.profiles) := by
                        intro qid
                        rw [hpr, hl]
                        simp [eq_comm]
                      obtain ⟨h1', h2', hfr⟩ := eupdate_inv P exts doneIds ext_id ext h1 h2 hprof
                      simp only [fetch_extensions_from_one_profile, hl, hdir, Bool.not_true,
                        Bool.false_eq_true, if_false, hpath, if_neg hemp, if_pos hoff, hmf, hr]
                      obtain ⟨hid, ha, hb, hc⟩ := ih
                        { P with extensions := sadd P.extensions ext_id }
                        (dinsert exts ext_id ext) h1' h2'
                      exact ⟨hid, ha, hb, fun qid hq eid => (hc qid hq eid).trans (hfr qid hq eid)⟩
              · by_cases hon :
                    path_exists fs (pjoin (pjoin P.profile_dir "Extensions") ext_path) = true
                · rcases hr : resolveExtMeta fs ext_id P.id
                      (jgetD set_fields "manifest" (.obj []))
                      (pjoin (pjoin P.profile_dir "Extensions") ext_path) with e' | ext
                  · simp only [fetch_extensions_from_one_profile, hl, hdir, Bool.not_true,
                      Bool.false_eq_true, if_false, hpath, if_neg hemp, if_neg hoff,
                      if_pos hon, hr]
                    refine ⟨?_, h1, h2, ?_⟩ <;> (intros; trivial)
                  · have hpr := resolveExtMeta_profiles hr
                    have hprof : ∀ qid, qid ∈ ext.profiles ↔
                        (qid = P.id ∨ ∃ e0, dlookup exts ext_id = some e0 ∧
                          qid ∈ e0.profiles) := by
                      intro qid
                      rw [hpr, hl]
                      simp [eq_comm]
                    obtain ⟨h1', h2', hfr⟩ := eupdate_inv P exts doneIds ext_id ext h1 h2 hprof
                    simp only [fetch_extensions_from_one_profile, hl, hdir, Bool.not_true,
                      Bool.false_eq_true, if_false, hpath, if_neg hemp, if_neg hoff,
                      if_pos hon, hr]
                    obtain ⟨hid, ha, hb, hc⟩ := ih
                      { P with extensions := sadd P.extensions ext_id }
                      (dinsert exts ext_id ext) h1' h2'
                    exact ⟨hid, ha, hb, fun qid hq eid => (hc qid hq eid).trans (hfr qid hq eid)⟩
                · simp only [fetch_extensions_from_one_profile, hl, hdir, Bool.not_true,
                    Bool.false_eq_true, if_false, hpath, if_neg hemp, if_neg hoff, if_neg hon]
                  exact ih P exts h1 h2
          case null =>
            simp only [fetch_extensions_from_one_profile, hl, hdir, Bool.not_true,
              Bool.false_eq_true, if_false, hpath]
            refine ⟨?_, h1, h2, ?_⟩ <;> (intros; trivial)
          case bool =>
            simp only [fetch_extensions_from_one_profile, hl, hdir, Bool.not_true,
              Bool.false_eq_true, if_false, hpath]
            refine ⟨?_, h1, h2, ?_⟩ <;> (intros; trivial)
          case num =>
            simp only [fetch_extensions_from_one_profile, hl, hdir, Bool.not_true,
              Bool.false_eq_true, if_false, hpath]
            refine ⟨?_, h1, h2, ?_⟩ <;> (intros; trivial)
          case arr =>
            simp only [fetch_extensions_from_one_profile, hl, hdir, Bool.not_true,
              Bool.false_eq_true, if_false, hpath]
            refine ⟨?_, h1, h2, ?_⟩ <;> (intros; trivial)
          case obj =>
            simp only [fetch_extensions_from_one_profile, hl, hdir, Bool.not_true,
              Bool.false_eq_true, if_false, hpath]
            refine ⟨?_, h1, h2, ?_⟩ <;> (intros; trivial)
        | null =>
          simp only [fetch_extensions_from_one_profile, hl, hdir, Bool.not_true,
            Bool.false_eq_true, if_false]
          refine ⟨?_, h1, h2, ?_⟩ <;> (intros; trivial)
        | bool b =>
          simp only [fetch_extensions_from_one_profile, hl, hdir, Bool.not_true,
            Bool.false_eq_true, if_false]
          refine ⟨?_, h1, h2, ?_⟩ <;> (intros; trivial)
        | num n =>
          simp only [fetch_extensions_from_one_profile, hl, hdir, Bool.not_true,
            Bool.false_eq_true, if_false]
          refine ⟨?_, h1, h2, ?_⟩ <;> (intros; trivial)
        | str sv =>
          simp only [fetch_extensions_from_one_profile, hl, hdir, Bool.not_true,
            Bool.false_eq_true, if_false]
          refine ⟨?_, h1, h2, ?_⟩ <;> (intros; trivial)
        | arr a =>
          simp only [fetch_extensions_from_one_profile, hl, hdir, Bool.not_true,
            Bool.false_eq_true, if_false]
          refine ⟨?_, h1, h2, ?_⟩ <;> (intros; trivial)


theorem dlookup_isSome_of_mem_keys {β : Type} {l : List (String × β)} {k : String}
    (h : k ∈ l.map Prod.fst) : (dlookup l k).isSome = true := by
  induction l with
  | nil => simp at h
  | cons e rest ih =>
    obtain ⟨k', v'⟩ := e
    by_cases hk : k' = k
    · subst hk; simp [dlookup]
    · simp only [List.map_cons, List.mem_cons] at h
      rcases h with h | h
    -- h : k = k' contradicts hk
      · exact absurd h.symm hk
      · simp only [dlookup, if_neg hk]
        exact ih h

theorem estep_inv (fs : FS) (doneIds : List String) (P : Profile)
    (exts : List (String × Extension))
    (h1 : ∀ eid, eid ∈ P.extensions ↔
      ∃ e, dlookup exts eid = some e ∧ P.id ∈ e.profiles)
    (h2 : ∀ eid e, dlookup exts eid = some e → e.profiles ≠ [] ∧
      ∀ qid ∈ e.profiles, qid = P.id ∨ qid ∈ doneIds) :
    (extProfileStep fs P exts).1.1.id = P.id ∧
    (∀ eid, eid ∈ (extProfileStep fs P exts).1.1.extensions ↔
      ∃ e, dlookup (extProfileStep fs P exts).1.2 eid = some e ∧ P.id ∈ e.profiles) ∧
    (∀ eid e, dlookup (extProfileStep fs P exts).1.2 eid = some e →
      e.profiles ≠ [] ∧ ∀ qid ∈ e.profiles, qid = P.id ∨ qid ∈ doneIds) ∧
    (∀ qid, qid ≠ P.id → ∀ eid,
      ((∃ e, dlookup (extProfileStep fs P exts).1.2 eid = some e ∧ qid ∈ e.profiles) ↔
       (∃ e, dlookup exts eid = some e ∧ qid ∈ e.profiles))) := by
  rcases hsp : dlookup fs.files (pjoin P.profile_dir "Secure Preferences") with _ | od
  · simp only [extProfileStep, hsp]
    refine ⟨?_, h1, h2, ?_⟩ <;> (intros; trivial)
  · rcases od with _ | data
    · simp only [extProfileStep, hsp]
      refine ⟨?_, h1, h2, ?_⟩ <;> (intros; trivial)
    · simp only [extProfileStep, hsp]
      rcases hgc : get_with_chained_keys data ["extensions", "settings"] with _ | v
      · simp only [hgc]
        refine ⟨?_, h1, h2, ?_⟩ <;> (intros; trivial)
      · rcases v with _ | b | n | sv | a | ext_settings
        case obj =>
          simp only [hgc]
          exact escan_inv fs doneIds ext_settings P exts h1 h2
        all_goals
          simp only [hgc]
          refine ⟨?_, h1, h2, ?_⟩ <;> (intros; trivial)

theorem eloop_keys (fs : FS) :
    ∀ (profs : List (String × Profile)) (exts : List (String × Extension)),
      (extProfilesLoop fs profs exts).1.1.map Prod.fst = profs.map Prod.fst := by
  intro profs
  induction profs with
  | nil => intro exts; simp [extProfilesLoop]
  | cons pp rest ih =>
    intro exts
    obtain ⟨pid, P⟩ := pp
    simp only [extProfilesLoop]
    rcases hstep : extProfileStep fs P exts with ⟨⟨P', exts'⟩, err⟩
    cases err with
    | none => simp [ih exts']
    | some e => simp

theorem eloop_inv (fs : FS) :
    ∀ (profs : List (String × Profile)) (exts : List (String × Extension))
      (doneIds : List String),
      (∀ p ∈ profs, p.2.extensions = [] ∧ p.2.id = p.1) →
      (profs.map Prod.fst).Nodup →
      (∀ p ∈ profs, p.1 ∉ doneIds) →
      (∀ eid e, dlookup exts eid = some e → e.profiles ≠ [] ∧
        ∀ qid ∈ e.profiles, qid ∈ doneIds) →
      (∀ qp ∈ (extProfilesLoop fs profs exts).1.1, ∀ eid,
        eid ∈ qp.2.extensions ↔
          ∃ e, dlookup (extProfilesLoop fs profs exts).1.2 eid = some e ∧
            qp.1 ∈ e.profiles) ∧
      (∀ eid e, dlookup (extProfilesLoop fs profs exts).1.2 eid = some e →
        e.profiles ≠ [] ∧
        ∀ qid ∈ e.profiles, qid ∈ doneIds ∨ qid ∈ profs.map Prod.fst) ∧
      (∀ qid, qid ∉ profs.map Prod.fst → ∀ eid,
        ((∃ e, dlookup (extProfilesLoop fs profs exts).1.2 eid = some e ∧
            qid ∈ e.profiles) ↔
         (∃ e, dlookup exts eid = some e ∧ qid ∈ e.profiles))) := by
  intro profs
  induction profs with
  | nil =>
    intro exts doneIds hP hnd hdone hE
    refine ⟨?_, ?_, ?_⟩
    · intro qp hqp; simp [extProfilesLoop] at hqp
    · intro eid e he
      obtain ⟨hne, hq⟩ := hE eid e he
      exact ⟨hne, fun qid hqid => Or.inl (hq qid hqid)⟩
    · intro qid _ eid; exact Iff.rfl
  | cons pp rest ih =>
    intro exts doneIds hP hnd hdone hE
    obtain ⟨pid, P⟩ := pp
    obtain ⟨hPe, hPid⟩ := hP (pid, P) (List.mem_cons_self _ _)
    dsimp only at hPe hPid
    simp only [List.map_cons, List.nodup_cons] at hnd
    obtain ⟨hpidrest, hndrest⟩ := hnd
    have h1 : ∀ eid, eid ∈ P.extensions ↔
        ∃ e, dlookup exts eid = some e ∧ P.id ∈ e.profiles := by
      intro eid
      rw [hPe]
      constructor
      · intro h; simp at h
      · rintro ⟨e, he, hmem⟩
        have := (hE eid e he).2 P.id hmem
        rw [hPid] at this
        exact absurd this (hdone (pid, P) (List.mem_cons_self _ _))
    have h2 : ∀ eid e, dlookup exts eid = some e → e.profiles ≠ [] ∧
        ∀ qid ∈ e.profiles, qid = P.id ∨ qid ∈ doneIds := by
      intro eid e he
      obtain ⟨hne, hq⟩ := hE eid e he
      exact ⟨hne, fun qid hqid => Or.inr (hq qid hqid)⟩
    obtain ⟨hid, ha, hb, hfr⟩ := estep_inv fs doneIds P exts h1 h2
    simp only [extProfilesLoop]
    rcases hstep : extProfileStep fs P exts with ⟨⟨P', exts'⟩, err⟩
    rw [hstep] at hid ha hb hfr
    cases err with
    | some e =>
      refine ⟨?_, ?_, ?_⟩
      · intro qp hqp eid
        rcases List.mem_cons.mp hqp with hq | hq
        · subst hq
          rw [← hPid]
          exact ha eid
        · obtain ⟨hqe, _⟩ := hP qp (List.mem_cons_of_mem _ hq)
          rw [hqe]
          constructor
          · intro h; simp at h
          · rintro ⟨e0, he0, hmem⟩
            rcases (hb eid e0 he0).2 qp.1 hmem with h | h
            · rw [hPid] at h
              exact absurd h (by
                intro hc
                exact hpidrest (hc ▸ List.mem_map_of_mem Prod.fst hq))
            · exact absurd h (hdone qp (List.mem_cons_of_mem _ hq))
      · intro eid e0 he0
        obtain ⟨hne, hq⟩ := hb eid e0 he0
        refine ⟨hne, fun qid hqid => ?_⟩
        rcases hq qid hqid with h | h
        · rw [hPid] at h
          exact Or.inr (by simp [h])
        · exact Or.inl h
      · intro qid hqid eid
        have hqp : qid ≠ P.id := by
          rw [hPid]
          intro hc
          exact hqid (by simp [hc])
        exact hfr qid hqp eid
    | none =>
      have hih := ih exts' (doneIds ++ [pid])
        (fun p hp => hP p (List.mem_cons_of_mem _ hp)) hndrest
        (fun p hp => by
          rw [List.mem_append, List.mem_singleton]
          rintro (h | h)
          · exact hdone p (List.mem_cons_of_mem _ hp) h
          · exact hpidrest (h ▸ List.mem_map_of_mem Prod.fst hp))
        (fun eid e0 he0 => by
          obtain ⟨hne, hq⟩ := hb eid e0 he0
          refine ⟨hne, fun qid hqid => ?_⟩
          rw [List.mem_append, List.mem_singleton]
          rcases hq qid hqid with h | h
          · rw [hPid] at h
            exact Or.inr h
          · exact Or.inl h)
      obtain ⟨Ar, Br, Cr⟩ := hih
      refine ⟨?_, ?_, ?_⟩
      · intro qp hqp eid
        rcases List.mem_cons.mp hqp with hq | hq
        · subst hq
          have hpid_not : pid ∉ rest.map Prod.fst := hpidrest
          have hCr := Cr pid hpid_not eid
          rw [← hPid] at hCr ⊢
          exact (ha eid).trans hCr.symm
        · exact Ar qp hq eid
      · intro eid e0 he0
        obtain ⟨hne, hq⟩ := Br eid e0 he0
        refine ⟨hne, fun qid hqid => ?_⟩
        rcases hq qid hqid with h | h
        · rw [List.mem_append, List.mem_singleton] at h
          rcases h with h | h
          · exact Or.inl h
          · exact Or.inr (by simp [h])
        · exact Or.inr (by simp [h])
      · intro qid hqid eid
        simp only [List.map_cons, List.mem_cons] at hqid
        push_neg at hqid
        obtain ⟨hq1, hq2⟩ := hqid
        have hqp : qid ≠ P.id := by rw [hPid]; exact hq1
        exact (Cr qid hq2 eid).trans (hfr qid hqp eid)


/-- C3 (amended): bidirectional consistency between the per-profile
extension-id sets and the global extension index holds after extension
discovery provided every profile's extension set is empty beforehand (as
after a fresh profile discovery, which builds profiles with empty sets) and
the profile keys are distinct and agree with the profiles' id fields; with
stale non-empty sets — reachable by re-running discovery after a profile's
`Secure Preferences` has disappeared, since discovery clears the global
index but not the per-profile sets — the consistency fails
(`c3_counterexample_stale_profile_sets`). -/
theorem c3_bidirectional_consistency_after_discovery
    (s : ChromInstance) (fs : FS)
    (hset : ∀ p ∈ s.profiles, p.2.extensions = [] ∧ p.2.id = p.1)
    (hnd : (s.profiles.map Prod.fst).Nodup) :
    InvE (fetch_extensions_from_all_profiles s fs).1.profiles
         (fetch_extensions_from_all_profiles s fs).1.extensions := by
  obtain ⟨A, B, C⟩ := eloop_inv fs s.profiles [] [] hset hnd
    (by intro p _; simp)
    (by intro eid e h; simp [dlookup] at h)
  have hkeys := eloop_keys fs s.profiles []
  constructor
  · intro pid pr hpr eid
    exact A (pid, pr) (dlookup_mem hpr) eid
  · intro eid e he
    obtain ⟨hne, hq⟩ := B eid e he
    refine ⟨hne, ?_⟩
    intro pid hpid
    rcases hq pid hpid with h | h
    · simp at h
    · rw [← hkeys] at h
      exact dlookup_isSome_of_mem_keys h

/-- Witness for C3 at a concrete state: one fresh profile with an empty
extension set and one offline extension on disk. -/
theorem c3_bidirectional_consistency_after_discovery_witness :
    InvE (fetch_extensions_from_all_profiles c4S c4Fs).1.profiles
         (fetch_extensions_from_all_profiles c4S c4Fs).1.extensions :=
  c3_bidirectional_consistency_after_discovery c4S c4Fs (by decide) (by decide)

/-- A filesystem in which profile `p1` has no `Secure Preferences` file. -/
def c3FsGone : FS := { dirs := ["u", "u/p1"], files := [] }

/-- Counterexample to C3 as stated: after a discovery run that indexes
`e1` for `p1`, a second discovery run against a filesystem whose
`Secure Preferences` has disappeared returns normally, clears the global
index, but leaves `e1` in `p1`'s extension set — a state reached after
extension discovery in which an id is in a profile's set but in no global
entry, so the bidirectional-consistency invariant fails. -/
theorem c3_counterexample_stale_profile_sets :
    (fetch_extensions_from_all_profiles
      (fetch_extensions_from_all_profiles c4S c4Fs).1 c3FsGone).2 = none ∧
    ¬ InvE (fetch_extensions_from_all_profiles
        (fetch_extensions_from_all_profiles c4S c4Fs).1 c3FsGone).1.profiles
      (fetch_extensions_from_all_profiles
        (fetch_extensions_from_all_profiles c4S c4Fs).1 c3FsGone).1.extensions := by
  refine ⟨rfl, ?_⟩
  intro h
  have h1 := (h.1 "p1" _ rfl "e1").mp (by decide)
  rcases h1 with ⟨e, he, _⟩
  simp [dlookup] at he


theorem dinsert_ne_nil {β : Type} (l : List (String × β)) (k : String) (v : β) :
    dinsert l k v ≠ [] := by
  cases l with
  | nil => simp [dinsert]
  | cons e rest =>
    obtain ⟨k', v'⟩ := e
    simp only [dinsert]
    split <;> simp

theorem dlookup_of_derase_nil {β : Type} :
    ∀ (l : List (String × β)) (k k' : String), derase l k = [] → k ≠ k' →
      dlookup l k' = none := by
  intro l
  induction l with
  | nil => intro k k' _ _; rfl
  | cons e rest ih =>
    intro k k' hd hne
    obtain ⟨k0, v0⟩ := e
    simp only [derase] at hd
    split at hd
    next h0 =>
      simp only [dlookup]
      rw [if_neg (fun hh : k0 = k' => hne (h0 ▸ hh))]
      exact ih k k' hd hne
    next h0 => simp at hd

theorem dlookup_isSome_dinsert {β : Type} (l : List (String × β)) (k k' : String) (v : β)
    (h : (dlookup l k').isSome = true) : (dlookup (dinsert l k v) k').isSome = true := by
  by_cases hk : k = k'
  · subst hk; rw [dlookup_dinsert_self]; rfl
  · rw [dlookup_dinsert_ne l v hk]; exact h

theorem gApply_cons (pid : String) (gB : List (String × Bookmark))
    (tr : JValue × String × String) (rest : List (JValue × String × String)) :
    gApply pid gB (tr :: rest) = gApply pid (gUpsert pid gB tr.1 tr.2.1 tr.2.2) rest := rfl

/-- One visited url node's combined update — inserting the joined path into
the profile mapping and upserting the global entry — keeps the two indices
in lockstep for the current profile, keeps every global entry non-empty
with its profile keys satisfying `Q`, and leaves every other profile's view
of the global index unchanged. -/
theorem bupd_inv (pid : String) (Q : String → Prop) (hQ : Q pid)
    (pB : List (String × String)) (gB : List (String × Bookmark))
    (nm : JValue) (url path : String)
    (h1 : ∀ u p, dlookup pB u = some p ↔
      ∃ b, dlookup gB u = some b ∧ dlookup b.profiles pid = some p)
    (h2 : ∀ u b, dlookup gB u = some b → b.profiles ≠ [] ∧
      ∀ qid pth, dlookup b.profiles qid = some pth → Q qid) :
    (∀ u p, dlookup (dinsert pB url path) u = some p ↔
      ∃ b, dlookup (gUpsert pid gB nm url path) u = some b ∧
        dlookup b.profiles pid = some p) ∧
    (∀ u b, dlookup (gUpsert pid gB nm url path) u = some b → b.profiles ≠ [] ∧
      ∀ qid pth, dlookup b.profiles qid = some pth → Q qid) ∧
    (∀ qid, qid ≠ pid → ∀ u p,
      ((∃ b, dlookup (gUpsert pid gB nm url path) u = some b ∧
          dlookup b.profiles qid = some p) ↔
       (∃ b, dlookup gB u = some b ∧ dlookup b.profiles qid = some p))) := by
  rcases hg : dlookup gB url with _ | b0 <;> simp only [gUpsert, hg]
  · refine ⟨?_, ?_, ?_⟩
    · intro u p
      by_cases hu : u = url
      · subst hu
        simp only [dlookup_dinsert_self]
        constructor
        · intro hp
          exact ⟨_, rfl, (dlookup_dinsert_self [] pid path).trans hp⟩
        · rintro ⟨b, hb, hpb⟩
          rw [Option.some.injEq] at hb
          subst hb
          exact (dlookup_dinsert_self [] pid path).symm.trans hpb
      · have hne : url ≠ u := fun hh => hu hh.symm
        simp only [dlookup_dinsert_ne _ _ hne]
        exact h1 u p
    · intro u b hb
      by_cases hu : u = url
      · subst hu
        rw [dlookup_dinsert_self, Option.some.injEq] at hb
        subst hb
        refine ⟨by simp, ?_⟩
        intro qid pth hq
        by_cases hq2 : qid = pid
        · subst hq2; exact hQ
        · simp only [dlookup] at hq
          rw [if_neg (fun hh => hq2 hh.symm)] at hq
          exact Option.noConfusion hq
      · have hne : url ≠ u := fun hh => hu hh.symm
        rw [dlookup_dinsert_ne _ _ hne] at hb
        exact h2 u b hb
    · intro qid hq u p
      by_cases hu : u = url
      · subst hu
        simp only [dlookup_dinsert_self, hg]
        constructor
        · rintro ⟨b, hb, hpb⟩
          rw [Option.some.injEq] at hb
          subst hb
          simp only [dlookup] at hpb
          rw [if_neg (fun hh => hq hh.symm)] at hpb
          exact Option.noConfusion hpb
        · rintro ⟨b, hb, _⟩
          exact Option.noConfusion hb
      · have hne : url ≠ u := fun hh => hu hh.symm
        simp only [dlookup_dinsert_ne _ _ hne]
  · refine ⟨?_, ?_, ?_⟩
    · intro u p
      by_cases hu : u = url
      · subst hu
        simp only [dlookup_dinsert_self]
        constructor
        · intro hp
          refine ⟨_, rfl, ?_⟩
          rw [dlookup_dinsert_self]
          exact hp
        · rintro ⟨b, hb, hpb⟩
          rw [Option.some.injEq] at hb
          subst hb
          rw [dlookup_dinsert_self] at hpb
          exact hpb
      · have hne : url ≠ u := fun hh => hu hh.symm
        simp only [dlookup_dinsert_ne _ _ hne]
        exact h1 u p
    · intro u b hb
      by_cases hu : u = url
      · subst hu
        rw [dlookup_dinsert_self, Option.some.injEq] at hb
        subst hb
        refine ⟨dinsert_ne_nil _ _ _, ?_⟩
        intro qid pth hq
        by_cases hq2 : qid = pid
        · subst hq2; exact hQ
        · rw [dlookup_dinsert_ne _ _ (fun hh => hq2 hh.symm)] at hq
          exact (h2 _ b0 hg).2 qid pth hq
      · have hne : url ≠ u := fun hh => hu hh.symm
        rw [dlookup_dinsert_ne _ _ hne] at hb
        exact h2 u b hb
    · intro qid hq u p
      by_cases hu : u = url
      · subst hu
        simp only [dlookup_dinsert_self, hg]
        have hpq : ∀ pth,
            dlookup (dinsert b0.profiles pid path) qid = some pth ↔
            dlookup b0.profiles qid = some pth := by
          intro pth
          rw [dlookup_dinsert_ne _ _ (fun hh => hq hh.symm)]
        constructor
        · rintro ⟨b, hb, hpb⟩
          rw [Option.some.injEq] at hb
          subst hb
          exact ⟨b0, rfl, (hpq p).mp hpb⟩
        · rintro ⟨b, hb, hpb⟩
          rw [Option.some.injEq] at hb
          subst hb
          exact ⟨_, rfl, (hpq p).mpr hpb⟩
      · have hne : url ≠ u := fun hh => hu hh.symm
        simp only [dlookup_dinsert_ne _ _ hne]


/-- Folding a whole visit list through `applyAll` and `gApply` preserves
the lockstep invariants of `bupd_inv`, with other profiles' views of the
global index unchanged. -/
theorem bapply_inv (pid : String) (Q : String → Prop) (hQ : Q pid) :
    ∀ (trs : List (JValue × String × String)) (pB : List (String × String))
      (gB : List (String × Bookmark)),
      (∀ u p, dlookup pB u = some p ↔
        ∃ b, dlookup gB u = some b ∧ dlookup b.profiles pid = some p) →
      (∀ u b, dlookup gB u = some b → b.profiles ≠ [] ∧
        ∀ qid pth, dlookup b.profiles qid = some pth → Q qid) →
      (∀ u p, dlookup (applyAll pB trs) u = some p ↔
        ∃ b, dlookup (gApply pid gB trs) u = some b ∧
          dlookup b.profiles pid = some p) ∧
      (∀ u b, dlookup (gApply pid gB trs) u = some b → b.profiles ≠ [] ∧
        ∀ qid pth, dlookup b.profiles qid = some pth → Q qid) ∧
      (∀ qid, qid ≠ pid → ∀ u p,
        ((∃ b, dlookup (gApply pid gB trs) u = some b ∧
            dlookup b.profiles qid = some p) ↔
         (∃ b, dlookup gB u = some b ∧ dlookup b.profiles qid = some p))) := by
  intro trs
  induction trs with
  | nil =>
    intro pB gB h1 h2
    exact ⟨h1, h2, fun qid _ u p => Iff.rfl⟩
  | cons tr rest ih =>
    intro pB gB h1 h2
    obtain ⟨g1, g2, gfr⟩ := bupd_inv pid Q hQ pB gB tr.1 tr.2.1 tr.2.2 h1 h2
    rw [applyAll_cons, gApply_cons]
    obtain ⟨A, B, C⟩ := ih (dinsert pB tr.2.1 tr.2.2)
      (gUpsert pid gB tr.1 tr.2.1 tr.2.2) g1 g2
    exact ⟨A, B, fun qid hq u p => (C qid hq u p).trans (gfr qid hq u p)⟩

/-- One deleted url's combined update — `derase` from the profile mapping
and `gbPop` from the global index — preserves the same lockstep invariants,
with other profiles' views of the global index unchanged. -/
theorem popOne_inv (pid : String) (Q : String → Prop)
    (pB : List (String × String)) (gB : List (String × Bookmark)) (url : String)
    (h1 : ∀ u p, dlookup pB u = some p ↔
      ∃ b, dlookup gB u = some b ∧ dlookup b.profiles pid = some p)
    (h2 : ∀ u b, dlookup gB u = some b → b.profiles ≠ [] ∧
      ∀ qid pth, dlookup b.profiles qid = some pth → Q qid) :
    (∀ u p, dlookup (derase pB url) u = some p ↔
      ∃ b, dlookup (gbPop gB pid url) u = some b ∧
        dlookup b.profiles pid = some p) ∧
    (∀ u b, dlookup (gbPop gB pid url) u = some b → b.profiles ≠ [] ∧
      ∀ qid pth, dlookup b.profiles qid = some pth → Q qid) ∧
    (∀ qid, qid ≠ pid → ∀ u p,
      ((∃ b, dlookup (gbPop gB pid url) u = some b ∧
          dlookup b.profiles qid = some p) ↔
       (∃ b, dlookup gB u = some b ∧ dlookup b.profiles qid = some p))) := by
  rcases hg : dlookup gB url with _ | b0
  · simp only [gbPop, hg]
    refine ⟨?_, h2, fun qid _ u p => trivial⟩
    intro u p
    by_cases hu : u = url
    · subst hu
      rw [dlookup_derase_self]
      constructor
      · intro h; exact Option.noConfusion h
      · rintro ⟨b, hb, _⟩
        rw [hg] at hb
        exact Option.noConfusion hb
    · rw [dlookup_derase_ne _ (fun hh => hu hh.symm)]
      exact h1 u p
  · simp only [gbPop, hg]
    by_cases hc : dcontains b0.profiles pid = true
    · rw [if_pos hc]
      by_cases hnil : derase b0.profiles pid = []
      · rw [if_pos hnil]
        refine ⟨?_, ?_, ?_⟩
        · intro u p
          by_cases hu : u = url
          · subst hu
            rw [dlookup_derase_self, dlookup_derase_self]
            constructor
            · intro h; exact Option.noConfusion h
            · rintro ⟨b, hb, _⟩
              exact Option.noConfusion hb
          · rw [dlookup_derase_ne _ (fun hh => hu hh.symm),
              dlookup_derase_ne _ (fun hh => hu hh.symm)]
            exact h1 u p
        · intro u b hb
          by_cases hu : u = url
          · subst hu
            rw [dlookup_derase_self] at hb
            exact Option.noConfusion hb
          · rw [dlookup_derase_ne _ (fun hh => hu hh.symm)] at hb
            exact h2 u b hb
        · intro qid hq u p
          by_cases hu : u = url
          · subst hu
            rw [dlookup_derase_self, hg]
            constructor
            · rintro ⟨b, hb, _⟩
              exact Option.noConfusion hb
            · rintro ⟨b, hb, hpb⟩
              rw [Option.some.injEq] at hb
              subst hb
              rw [dlookup_of_derase_nil b0.profiles pid qid hnil
                (fun hh => hq hh.symm)] at hpb
              exact Option.noConfusion hpb
          · rw [dlookup_derase_ne _ (fun hh => hu hh.symm)]
      · rw [if_neg hnil]
        refine ⟨?_, ?_, ?_⟩
        · intro u p
          by_cases hu : u = url
          · subst hu
            rw [dlookup_derase_self, dlookup_dinsert_self]
            constructor
            · intro h; exact Option.noConfusion h
            · rintro ⟨b, hb, hpb⟩
              rw [Option.some.injEq] at hb
              subst hb
              rw [dlookup_derase_self] at hpb
              exact Option.noConfusion hpb
          · rw [dlookup_derase_ne _ (fun hh => hu hh.symm),
              dlookup_dinsert_ne _ _ (fun hh => hu hh.symm)]
            exact h1 u p
        · intro u b hb
          by_cases hu : u = url
          · subst hu
            rw [dlookup_dinsert_self, Option.some.injEq] at hb
            subst hb
            refine ⟨hnil, ?_⟩
            intro qid pth hq
            by_cases hq2 : qid = pid
            · subst hq2
              rw [dlookup_derase_self] at hq
              exact Option.noConfusion hq
            · rw [dlookup_derase_ne _ (fun hh => hq2 hh.symm)] at hq
              exact (h2 _ b0 hg).2 qid pth hq
          · rw [dlookup_dinsert_ne _ _ (fun hh => hu hh.symm)] at hb
            exact h2 u b hb
        · intro qid hq u p
          by_cases hu : u = url
          · subst hu
            rw [dlookup_dinsert_self, hg]
            have hpq : ∀ pth,
                dlookup (derase b0.profiles pid) qid = some pth ↔
                dlookup b0.profiles qid = some pth := by
              intro pth
              rw [dlookup_derase_ne _ (fun hh => hq hh.symm)]
            constructor
            · rintro ⟨b, hb, hpb⟩
              rw [Option.some.injEq] at hb
              subst hb
              exact ⟨b0, rfl, (hpq p).mp hpb⟩
            · rintro ⟨b, hb, hpb⟩
              rw [Option.some.injEq] at hb
              subst hb
              exact ⟨_, rfl, (hpq p).mpr hpb⟩
          · rw [dlookup_dinsert_ne _ _ (fun hh => hu hh.symm)]
    · rw [if_neg hc]
      refine ⟨?_, h2, fun qid _ u p => Iff.rfl⟩
      intro u p
      by_cases hu : u = url
      · subst hu
        rw [dlookup_derase_self]
        constructor
        · intro h; exact Option.noConfusion h
        · rintro ⟨b, hb, hpb⟩
          rw [hg, Option.some.injEq] at hb
          subst hb
          exact absurd (show dcontains b0.profiles pid = true from by
            unfold dcontains
            rw [hpb]
            rfl) hc
      · rw [dlookup_derase_ne _ (fun hh => hu hh.symm)]
        exact h1 u p

/-- Folding a whole removed-url list through `popAll` preserves the
lockstep invariants. -/
theorem popAll_inv (pid : String) (Q : String → Prop) :
    ∀ (urls : List String) (pB : List (String × String))
      (gB : List (String × Bookmark)),
      (∀ u p, dlookup pB u = some p ↔
        ∃ b, dlookup gB u = some b ∧ dlookup b.profiles pid = some p) →
      (∀ u b, dlookup gB u = some b → b.profiles ≠ [] ∧
        ∀ qid pth, dlookup b.profiles qid = some pth → Q qid) →
      (∀ u p, dlookup (popAll pid (pB, gB) urls).1 u = some p ↔
        ∃ b, dlookup (popAll pid (pB, gB) urls).2 u = some b ∧
          dlookup b.profiles pid = some p) ∧
      (∀ u b, dlookup (popAll pid (pB, gB) urls).2 u = some b → b.profiles ≠ [] ∧
        ∀ qid pth, dlookup b.profiles qid = some pth → Q qid) ∧
      (∀ qid, qid ≠ pid → ∀ u p,
        ((∃ b, dlookup (popAll pid (pB, gB) urls).2 u = some b ∧
            dlookup b.profiles qid = some p) ↔
         (∃ b, dlookup gB u = some b ∧ dlookup b.profiles qid = some p))) := by
  intro urls
  induction urls with
  | nil =>
    intro pB gB h1 h2
    exact ⟨h1, h2, fun qid _ u p => Iff.rfl⟩
  | cons url rest ih =>
    intro pB gB h1 h2
    obtain ⟨g1, g2, gfr⟩ := popOne_inv pid Q pB gB url h1 h2
    have hstep : popAll pid (pB, gB) (url :: rest) =
        popAll pid (derase pB url, gbPop gB pid url) rest := rfl
    rw [hstep]
    obtain ⟨A, B, C⟩ := ih (derase pB url) (gbPop gB pid url) g1 g2
    exact ⟨A, B, fun qid hq u p => (C qid hq u p).trans (gfr qid hq u p)⟩


/-- An error-free pass of the per-root deletion loop acts on the two
bookmark indices exactly as a `popAll` fold, hence preserves the lockstep
invariants and other profiles' views. -/
theorem deleteRootsLoop_inv (pid : String) (Q : String → Prop) (urls : List String) :
    ∀ (roots : List (String × JValue)) (pB : List (String × String))
      (gB : List (String × Bookmark))
      (roots' : List (String × JValue)) (pB' : List (String × String))
      (gB' : List (String × Bookmark)),
      deleteRootsLoop pid urls roots pB gB = ((roots', pB', gB'), none) →
      (∀ u p, dlookup pB u = some p ↔
        ∃ b, dlookup gB u = some b ∧ dlookup b.profiles pid = some p) →
      (∀ u b, dlookup gB u = some b → b.profiles ≠ [] ∧
        ∀ qid pth, dlookup b.profiles qid = some pth → Q qid) →
      (∀ u p, dlookup pB' u = some p ↔
        ∃ b, dlookup gB' u = some b ∧ dlookup b.profiles pid = some p) ∧
      (∀ u b, dlookup gB' u = some b → b.profiles ≠ [] ∧
        ∀ qid pth, dlookup b.profiles qid = some pth → Q qid) ∧
      (∀ qid, qid ≠ pid → ∀ u p,
        ((∃ b, dlookup gB' u = some b ∧ dlookup b.profiles qid = some p) ↔
         (∃ b, dlookup gB u = some b ∧ dlookup b.profiles qid = some p))) := by
  intro roots
  induction roots with
  | nil =>
    intro pB gB roots' pB' gB' h h1 h2
    simp only [deleteRootsLoop, Prod.mk.injEq] at h
    obtain ⟨⟨_, hpB, hgB⟩, _⟩ := h
    subst hpB
    subst hgB
    exact ⟨h1, h2, fun qid _ u p => Iff.rfl⟩
  | cons rp rest ih =>
    intro pB gB roots' pB' gB' h h1 h2
    obtain ⟨rname, rnode⟩ := rp
    simp only [deleteRootsLoop] at h
    rcases hr : delete_bookmarks_in_one_folder pid urls rnode pB gB with
      ⟨⟨rnode1, pB1, gB1⟩, err1⟩
    rw [hr] at h
    cases err1 with
    | some e => simp at h
    | none =>
      dsimp only at h
      rcases hrest : deleteRootsLoop pid urls rest pB1 gB1 with ⟨⟨rest2, pB2, gB2⟩, err2⟩
      rw [hrest] at h
      simp only [Prod.mk.injEq] at h
      obtain ⟨⟨_, hpB, hgB⟩, herr⟩ := h
      subst hpB
      subst hgB
      have hspec := ((delF_spec (sizeOf rnode)).1 pid urls rnode pB gB
        (rnode1, pB1, gB1) le_rfl hr).2
      have hpop := popAll_inv pid Q (removedNodeF (sizeOf rnode) urls rnode) pB gB h1 h2
      rw [← hspec] at hpop
      obtain ⟨g1, g2, gfr⟩ := hpop
      obtain ⟨A, B, C⟩ := ih pB1 gB1 rest2 pB2 gB2
        (by rw [hrest, herr]) g1 g2
      exact ⟨A, B, fun qid hq u p => (C qid hq u p).trans (gfr qid hq u p)⟩

/-- An error-free `deleteProfileStep` preserves the bookmark referential
integrity invariant. -/
theorem deleteStep_invB (urls : List String) (pid : String) (s : ChromInstance)
    (fs : FS) (s' : ChromInstance) (fs' : FS)
    (h : deleteProfileStep urls pid s fs = ((s', fs'), none))
    (hinv : InvB s.profiles s.bookmarks) :
    InvB s'.profiles s'.bookmarks := by
  simp only [deleteProfileStep] at h
  split at h
  next heq => simp at h
  next profile heq =>
    split at h
    next hbf =>
      simp only [Prod.mk.injEq] at h
      obtain ⟨⟨hs, _⟩, _⟩ := h
      subst hs
      exact hinv
    next hbf =>
      split at h
      next heq2 => simp at h
      next heq2 =>
        simp only [Prod.mk.injEq] at h
        obtain ⟨⟨hs, _⟩, _⟩ := h
        subst hs
        exact hinv
      next bookmark_data heq2 =>
        split at h
        next bfields0 =>
          split at h
          next roots heq3 =>
            rcases hloop : deleteRootsLoop pid urls roots profile.bookmarks s.bookmarks with
              ⟨⟨roots2, pB2, gB2⟩, err2⟩
            rw [hloop] at h
            cases err2 with
            | some e => simp at h
            | none =>
              simp only [Prod.mk.injEq] at h
              obtain ⟨⟨hs, _⟩, _⟩ := h
              subst hs
              obtain ⟨g1, g2, gfr⟩ := deleteRootsLoop_inv pid
                (fun qid => (dlookup s.profiles qid).isSome = true) urls roots
                profile.bookmarks s.bookmarks roots2 pB2 gB2 hloop
                (hinv.1 pid profile heq)
                (fun u b hb => ⟨(hinv.2 u b hb).1,
                  fun qid pth hq => (hinv.2 u b hb).2 qid pth hq⟩)
              constructor
              · intro qid pr hpr u p
                by_cases hq : qid = pid
                · subst hq
                  rw [dlookup_dinsert_self, Option.some.injEq] at hpr
                  subst hpr
                  exact g1 u p
                · rw [dlookup_dinsert_ne _ _ (fun hh => hq hh.symm)] at hpr
                  exact (hinv.1 qid pr hpr u p).trans (gfr qid hq u p).symm
              · intro u b hb
                obtain ⟨hne, hq⟩ := g2 u b hb
                refine ⟨hne, fun qid p hqp => ?_⟩
                exact dlookup_isSome_dinsert _ _ _ _ (hq qid p hqp)
          next v heq3 => simp at h
          next heq3 =>
            simp only [Prod.mk.injEq] at h
            obtain ⟨⟨hs, _⟩, _⟩ := h
            subst hs
            exact hinv
        next => simp at h

/-- An error-free run of the per-identifier deletion loop preserves the
bookmark referential integrity invariant. -/
theorem deleteLoop_invB (urls : List String) :
    ∀ (ids : List String) (s : ChromInstance) (fs : FS)
      (out : ChromInstance × FS),
      deleteProfilesLoop urls ids s fs = (out, none) →
      InvB s.profiles s.bookmarks →
      InvB out.1.profiles out.1.bookmarks := by
  intro ids
  induction ids with
  | nil =>
    intro s fs out h hinv
    simp only [deleteProfilesLoop, Prod.mk.injEq] at h
    rw [← h.1]
    exact hinv
  | cons pid rest ih =>
    intro s fs out h hinv
    simp only [deleteProfilesLoop] at h
    rcases hstep : deleteProfileStep urls pid s fs with ⟨⟨s1, fs1⟩, err⟩
    rw [hstep] at h
    cases err with
    | some e => simp at h
    | none =>
      exact ih s1 fs1 out h (deleteStep_invB urls pid s fs s1 fs1 hstep hinv)


/-- An error-free `bmkProfileStep` keeps the profile's url-to-path mapping
and the global index in lockstep for that profile (via the `applyAll` /
`gApply` characterisation of the walk), and leaves other profiles' views of
the global index unchanged. -/
theorem bstep_inv (fs : FS) (Q : String → Prop) (P : Profile)
    (gB : List (String × Bookmark)) (P' : Profile) (gB' : List (String × Bookmark))
    (hstep : bmkProfileStep fs P gB = ((P', gB'), none))
    (hQ : Q P.id)
    (h1 : ∀ u p, dlookup P.bookmarks u = some p ↔
      ∃ b, dlookup gB u = some b ∧ dlookup b.profiles P.id = some p)
    (h2 : ∀ u b, dlookup gB u = some b → b.profiles ≠ [] ∧
      ∀ qid pth, dlookup b.profiles qid = some pth → Q qid) :
    P'.id = P.id ∧
    (∀ u p, dlookup P'.bookmarks u = some p ↔
      ∃ b, dlookup gB' u = some b ∧ dlookup b.profiles P.id = some p) ∧
    (∀ u b, dlookup gB' u = some b → b.profiles ≠ [] ∧
      ∀ qid pth, dlookup b.profiles qid = some pth → Q qid) ∧
    (∀ qid, qid ≠ P.id → ∀ u p,
      ((∃ b, dlookup gB' u = some b ∧ dlookup b.profiles qid = some p) ↔
       (∃ b, dlookup gB u = some b ∧ dlookup b.profiles qid = some p))) := by
  simp only [bmkProfileStep] at hstep
  split at hstep
  next heq =>
    simp only [Prod.mk.injEq] at hstep
    obtain ⟨⟨hP, hg⟩, _⟩ := hstep
    subst hP
    subst hg
    exact ⟨rfl, h1, h2, fun qid _ u p => Iff.rfl⟩
  next parsed heq =>
    split at hstep
    next =>
      simp only [Prod.mk.injEq] at hstep
      obtain ⟨⟨hP, hg⟩, _⟩ := hstep
      subst hP
      subst hg
      exact ⟨rfl, h1, h2, fun qid _ u p => Iff.rfl⟩
    next bookmark_data =>
      split at hstep
      next heq2 =>
        simp only [Prod.mk.injEq] at hstep
        obtain ⟨⟨hP, hg⟩, _⟩ := hstep
        subst hP
        subst hg
        exact ⟨rfl, h1, h2, fun qid _ u p => Iff.rfl⟩
      next roots heq2 =>
        rcases hw : fetch_bookmarks_list P.id (roots.map Prod.snd) [.str ""]
            P.bookmarks gB with ⟨⟨pB1, gB1⟩, err⟩
        rw [hw] at hstep
        simp only [Prod.mk.injEq] at hstep
        obtain ⟨⟨hP, hg⟩, herr⟩ := hstep
        subst hP
        subst hg
        subst herr
        have hchar := (fetchF_spec (sizeOf (roots.map Prod.snd))).2 P.id
          (roots.map Prod.snd) [.str ""] P.bookmarks gB (pB1, gB1) le_rfl hw P.bookmarks
        rw [show fetchBmkListF (sizeOf (roots.map Prod.snd)) P.id (roots.map Prod.snd)
          [.str ""] P.bookmarks gB = fetch_bookmarks_list P.id (roots.map Prod.snd)
          [.str ""] P.bookmarks gB from rfl, hw, Prod.mk.injEq, Prod.mk.injEq] at hchar
        obtain ⟨⟨hpB1, hgB1⟩, _⟩ := hchar
        subst hpB1
        subst hgB1
        obtain ⟨A, B, C⟩ := bapply_inv P.id Q hQ
          (reachListF (sizeOf (roots.map Prod.snd)) (roots.map Prod.snd) [.str ""])
          P.bookmarks gB h1 h2
        exact ⟨rfl, A, B, C⟩
      next v heq2 => simp at hstep

theorem bloop_keys (fs : FS) :
    ∀ (profs : List (String × Profile)) (gB : List (String × Bookmark)),
      (bmkProfilesLoop fs profs gB).1.1.map Prod.fst = profs.map Prod.fst := by
  intro profs
  induction profs with
  | nil => intro gB; simp [bmkProfilesLoop]
  | cons pp rest ih =>
    intro gB
    obtain ⟨pid, P⟩ := pp
    simp only [bmkProfilesLoop]
    rcases hstep : bmkProfileStep fs P gB with ⟨⟨P', gB'⟩, err⟩
    cases err with
    | none => simp [ih gB']
    | some e => simp

theorem bloop_inv (fs : FS) :
    ∀ (profs : List (String × Profile)) (gB : List (String × Bookmark))
      (doneIds : List String),
      (∀ p ∈ profs, p.2.bookmarks = [] ∧ p.2.id = p.1) →
      (profs.map Prod.fst).Nodup →
      (∀ p ∈ profs, p.1 ∉ doneIds) →
      (∀ u b, dlookup gB u = some b → b.profiles ≠ [] ∧
        ∀ qid pth, dlookup b.profiles qid = some pth → qid ∈ doneIds) →
      (bmkProfilesLoop fs profs gB).2 = none →
      (∀ qp ∈ (bmkProfilesLoop fs profs gB).1.1, ∀ u p,
        dlookup qp.2.bookmarks u = some p ↔
          ∃ b, dlookup (bmkProfilesLoop fs profs gB).1.2 u = some b ∧
            dlookup b.profiles qp.1 = some p) ∧
      (∀ u b, dlookup (bmkProfilesLoop fs profs gB).1.2 u = some b →
        b.profiles ≠ [] ∧
        ∀ qid pth, dlookup b.profiles qid = some pth →
          qid ∈ doneIds ∨ qid ∈ profs.map Prod.fst) ∧
      (∀ qid, qid ∉ profs.map Prod.fst → ∀ u p,
        ((∃ b, dlookup (bmkProfilesLoop fs profs gB).1.2 u = some b ∧
            dlookup b.profiles qid = some p) ↔
         (∃ b, dlookup gB u = some b ∧ dlookup b.profiles qid = some p))) := by
  intro profs
  induction profs with
  | nil =>
    intro gB doneIds hP hnd hdone hE _
    refine ⟨?_, ?_, ?_⟩
    · intro qp hqp; simp [bmkProfilesLoop] at hqp
    · intro u b hb
      obtain ⟨hne, hq⟩ := hE u b hb
      exact ⟨hne, fun qid pth hqp => Or.inl (hq qid pth hqp)⟩
    · intro qid _ u p; exact Iff.rfl
  | cons pp rest ih =>
    intro gB doneIds hP hnd hdone hE hok
    obtain ⟨pid, P⟩ := pp
    obtain ⟨hPe, hPid⟩ := hP (pid, P) (List.mem_cons_self _ _)
    dsimp only at hPe hPid
    simp only [List.map_cons, List.nodup_cons] at hnd
    obtain ⟨hpidrest, hndrest⟩ := hnd
    simp only [bmkProfilesLoop] at hok ⊢
    rcases hstep : bmkProfileStep fs P gB with ⟨⟨P', gB1⟩, err⟩
    rw [hstep] at hok
    cases err with
    | some e => simp at hok
    | none =>
      replace hok : (bmkProfilesLoop fs rest gB1).2 = none := hok
      have h1 : ∀ u p, dlookup P.bookmarks u = some p ↔
          ∃ b, dlookup gB u = some b ∧ dlookup b.profiles P.id = some p := by
        intro u p
        rw [hPe]
        constructor
        · intro h; simp [dlookup] at h
        · rintro ⟨b, hb, hmem⟩
          have := (hE u b hb).2 P.id p hmem
          rw [hPid] at this
          exact absurd this (hdone (pid, P) (List.mem_cons_self _ _))
      have h2 : ∀ u b, dlookup gB u = some b → b.profiles ≠ [] ∧
          ∀ qid pth, dlookup b.profiles qid = some pth → qid = P.id ∨ qid ∈ doneIds := by
        intro u b hb
        obtain ⟨hne, hq⟩ := hE u b hb
        exact ⟨hne, fun qid pth hqp => Or.inr (hq qid pth hqp)⟩
      obtain ⟨hid, ha, hb2, hfr⟩ := bstep_inv fs
        (fun qid => qid = P.id ∨ qid ∈ doneIds) P gB P' gB1 hstep (Or.inl rfl) h1 h2
      have hih := ih gB1 (doneIds ++ [pid])
        (fun p hp => hP p (List.mem_cons_of_mem _ hp)) hndrest
        (fun p hp => by
          rw [List.mem_append, List.mem_singleton]
          rintro (h | h)
          · exact hdone p (List.mem_cons_of_mem _ hp) h
          · exact hpidrest (h ▸ List.mem_map_of_mem Prod.fst hp))
        (fun u b hb => by
          obtain ⟨hne, hq⟩ := hb2 u b hb
          refine ⟨hne, fun qid pth hqp => ?_⟩
          rw [List.mem_append, List.mem_singleton]
          rcases hq qid pth hqp with h | h
          · rw [hPid] at h
            exact Or.inr h
          · exact Or.inl h)
        hok
      obtain ⟨Ar, Br, Cr⟩ := hih
      refine ⟨?_, ?_, ?_⟩
      · intro qp hqp u p
        rcases List.mem_cons.mp hqp with hq | hq
        · subst hq
          have hCr := Cr pid hpidrest u p
          rw [← hPid] at hCr ⊢
          exact (ha u p).trans hCr.symm
        · exact Ar qp hq u p
      · intro u b hb
        obtain ⟨hne, hq⟩ := Br u b hb
        refine ⟨hne, fun qid pth hqp => ?_⟩
        rcases hq qid pth hqp with h | h
        · rw [List.mem_append, List.mem_singleton] at h
          rcases h with h | h
          · exact Or.inl h
          · exact Or.inr (by simp [h])
        · exact Or.inr (by simp [h])
      · intro qid hqid u p
        simp only [List.map_cons, List.mem_cons] at hqid
        push_neg at hqid
        obtain ⟨hq1, hq2⟩ := hqid
        have hqp : qid ≠ P.id := by rw [hPid]; exact hq1
        exact (Cr qid hq2 u p).trans (hfr qid hqp u p)


theorem invB_empty (profs : List (String × Profile))
    (h : ∀ p ∈ profs, p.2.bookmarks = []) : InvB profs [] := by
  constructor
  · intro pid pr hpr u p
    constructor
    · intro hp
      have hpe := h (pid, pr) (dlookup_mem hpr)
      dsimp only at hpe
      rw [hpe] at hp
      simp [dlookup] at hp
    · rintro ⟨b, hb, _⟩
      simp [dlookup] at hb
  · intro u b hb
    simp [dlookup] at hb

/-- C1 (amended): the bookmark referential-integrity invariant — every url
in a profile's mapping is globally indexed with the same path for that
profile and conversely, every indexed `Bookmark` has a non-empty
profile-path mapping over known profiles (so removing the last profile
entry removes the `Bookmark`) — holds after a bookmark discovery run that
returns normally from empty per-profile maps with distinct keys agreeing
with the id fields, and is preserved by every bookmark deletion run that
returns normally.  It does not hold after every run: a discovery run
re-executed after a profile's `Bookmarks` file disappeared keeps that
profile's stale mapping while clearing the global index
(`c1_counterexample_stale_profile_maps`), and an exceptional run can abort
between the two writes of one url node. -/
theorem c1_bookmark_referential_integrity :
    (∀ (s : ChromInstance) (fs : FS),
      (∀ p ∈ s.profiles, p.2.bookmarks = [] ∧ p.2.id = p.1) →
      (s.profiles.map Prod.fst).Nodup →
      (fetch_bookmarks_from_all_profiles s fs).2 = none →
      InvB (fetch_bookmarks_from_all_profiles s fs).1.profiles
           (fetch_bookmarks_from_all_profiles s fs).1.bookmarks) ∧
    (∀ (s : ChromInstance) (fs : FS) (urls : List String)
      (pids : Option (List String)) (out : ChromInstance × FS),
      delete_bookmarks_from_profiles s fs urls pids = (out, none) →
      InvB s.profiles s.bookmarks →
      InvB out.1.profiles out.1.bookmarks) := by
  refine ⟨?_, ?_⟩
  · intro s fs hset hnd hok
    obtain ⟨A, B, C⟩ := bloop_inv fs s.profiles [] [] hset hnd
      (by intro p _; simp)
      (by intro u b hb; simp [dlookup] at hb) hok
    have hkeys := bloop_keys fs s.profiles []
    constructor
    · intro pid pr hpr u p
      exact A (pid, pr) (dlookup_mem hpr) u p
    · intro u b hb
      obtain ⟨hne, hq⟩ := B u b hb
      refine ⟨hne, ?_⟩
      intro pid p hqp
      rcases hq pid p hqp with h | h
      · simp at h
      · rw [← hkeys] at h
        exact dlookup_isSome_of_mem_keys h
  · intro s fs urls pids out h hinv
    cases pids with
    | none => exact deleteLoop_invB urls (s.profiles.map Prod.fst) s fs out h hinv
    | some l => exact deleteLoop_invB urls l s fs out h hinv

/-- Witness for C1: discovery from the fresh one-profile state establishes
the invariant, and an in-range deletion run preserves it. -/
theorem c1_bookmark_referential_integrity_witness :
    InvB (fetch_bookmarks_from_all_profiles c4S c4Fs).1.profiles
         (fetch_bookmarks_from_all_profiles c4S c4Fs).1.bookmarks ∧
    InvB (delete_bookmarks_from_profiles c4S c4Fs ["https://e.com"] none).1.1.profiles
         (delete_bookmarks_from_profiles c4S c4Fs ["https://e.com"] none).1.1.bookmarks := by
  constructor
  · exact c1_bookmark_referential_integrity.1 c4S c4Fs (by decide) (by decide) rfl
  · exact c1_bookmark_referential_integrity.2 c4S c4Fs ["https://e.com"] none _ rfl
      (invB_empty c4S.profiles (by decide))

/-- Counterexample to C1 as stated: after a discovery run that records
`https://e.com` for `p1`, a second discovery run against a filesystem
whose `Bookmarks` file has disappeared returns normally, clears the global
bookmark index, but keeps the url in `p1`'s mapping — a state after a
bookmark discovery run in which a profile's mapping names a url absent
from the global index. -/
theorem c1_counterexample_stale_profile_maps :
    (fetch_bookmarks_from_all_profiles
      (fetch_bookmarks_from_all_profiles c4S c4Fs).1 c3FsGone).2 = none ∧
    ¬ InvB (fetch_bookmarks_from_all_profiles
        (fetch_bookmarks_from_all_profiles c4S c4Fs).1 c3FsGone).1.profiles
      (fetch_bookmarks_from_all_profiles
        (fetch_bookmarks_from_all_profiles c4S c4Fs).1 c3FsGone).1.bookmarks := by
  refine ⟨rfl, ?_⟩
  intro h
  have h1 := (h.1 "p1" _ rfl "https://e.com" "/Bar").mp rfl
  rcases h1 with ⟨b, hb, _⟩
  exact Option.noConfusion (show (none : Option Bookmark) = some b from hb)


theorem fetch_all_profiles_rerun (s : ChromInstance) (fs : FS) (s1 : ChromInstance)
    (h : fetch_all_profiles s fs = (s1, none)) :
    fetch_all_profiles s1 fs = (s1, none) := by
  simp only [fetch_all_profiles] at h ⊢
  cases hd : fs.isDir s.userdata_dir with
  | false =>
    simp only [hd, Bool.not_false, if_true, Prod.mk.injEq] at h
    obtain ⟨hs, _⟩ := h
    subst hs
    simp [hd]
  | true =>
    simp only [hd, Bool.not_true, Bool.false_eq_true, if_false] at h
    rcases hls : dlookup fs.files (pjoin s.userdata_dir "Local State") with _ | od
    · simp only [hls, Prod.mk.injEq] at h
      obtain ⟨hs, _⟩ := h
      subst hs
      simp [hd, hls]
    · rcases od with _ | data
      · simp only [hls, Prod.mk.injEq] at h
        obtain ⟨hs, _⟩ := h
        subst hs
        simp [hd, hls]
      · simp only [hls] at h
        rcases hgc : get_with_chained_keys data ["profile", "info_cache"] with _ | v
        · simp only [hgc, Prod.mk.injEq] at h
          obtain ⟨hs, _⟩ := h
          subst hs
          simp [hd, hls, hgc]
        · rcases v with _ | b | n | sv | a | profiles_info
          case obj =>
            simp only [hgc, Prod.mk.injEq] at h
            obtain ⟨hs, herr⟩ := h
            subst hs
            simp [hd, hls, hgc, herr]
          all_goals
            simp only [hgc, Prod.mk.injEq] at h
            exact absurd h.2 (by simp)

theorem extScan_mono (fs : FS) :
    ∀ (settings : List (String × JValue)) (P : Profile)
      (exts : List (String × Extension)),
      (∀ x ∈ P.extensions,
        x ∈ (fetch_extensions_from_one_profile fs settings P exts).1.1.extensions) ∧
      (fetch_extensions_from_one_profile fs settings P exts).1.1.profile_dir =
        P.profile_dir ∧
      (fetch_extensions_from_one_profile fs settings P exts).1.1.id = P.id := by
  intro settings
  induction settings with
  | nil => intro P exts; exact ⟨fun x hx => hx, by trivial, by trivial⟩
  | cons kv rest ih =>
    intro P exts
    obtain ⟨ext_id, ext_set⟩ := kv
    rcases hl : dlookup exts ext_id with _ | e
    case some =>
      simp only [fetch_extensions_from_one_profile, hl]
      obtain ⟨hmono, hdir2, hid⟩ := ih { P with extensions := sadd P.extensions ext_id }
        (dinsert exts ext_id { e with profiles := sadd e.profiles P.id })
      exact ⟨fun x hx => hmono x (mem_sadd.mpr (Or.inr hx)), hdir2, hid⟩
    case none =>
      cases hdir : fs.isDir (pjoin P.profile_dir "Extensions") with
      | false =>
        simp only [fetch_extensions_from_one_profile, hl, hdir, Bool.not_false, if_true]
        exact ih P exts
      | true =>
        rcases ext_set with _ | b2 | n2 | s2 | a2 | set_fields
        case obj =>
          rcases hpath : jgetD set_fields "path" (.str "") with _ | b' | n' | ext_path | a' | o'
          case str =>
            by_cases hemp : ext_path = ""
            · simp only [fetch_extensions_from_one_profile, hl, hdir, Bool.not_true,
                Bool.false_eq_true, if_false, hpath, if_pos hemp]
              exact ih P exts
            · by_cases hoff : path_exists fs ext_path = true
              · rcases hmf : dlookup fs.files (pjoin ext_path "manifest.json") with _ | om
                · simp only [fetch_extensions_from_one_profile, hl, hdir, Bool.not_true,
                    Bool.false_eq_true, if_false, hpath, if_neg hemp, if_pos hoff, hmf]
                  exact ⟨fun x hx => hx, by trivial, by trivial⟩
                · rcases om with _ | m
                  · simp only [fetch_extensions_from_one_profile, hl, hdir, Bool.not_true,
                      Bool.false_eq_true, if_false, hpath, if_neg hemp, if_pos hoff, hmf]
                    exact ⟨fun x hx => hx, by trivial, by trivial⟩
                  · rcases hr : resolveExtMeta fs ext_id P.id m ext_path with e' | ext
                    · simp only [fetch_extensions_from_one_profile, hl, hdir, Bool.not_true,
                        Bool.false_eq_true, if_false, hpath, if_neg hemp, if_pos hoff, hmf, hr]
                      exact ⟨fun x hx => hx, by trivial, by trivial⟩
                    · simp only [fetch_extensions_from_one_profile, hl, hdir, Bool.not_true,
                        Bool.false_eq_true, if_false, hpath, if_neg hemp, if_pos hoff, hmf, hr]
                      obtain ⟨hmono, hdir2, hid⟩ := ih
                        { P with extensions := sadd P.extensions ext_id }
                        (dinsert exts ext_id ext)
                      exact ⟨fun x hx => hmono x (mem_sadd.mpr (Or.inr hx)), hdir2, hid⟩
              · by_cases hon :
                    path_exists fs (pjoin (pjoin P.profile_dir "Extensions") ext_path) = true
                · rcases hr : resolveExtMeta fs ext_id P.id
                      (jgetD set_fields "manifest" (.obj []))
                      (pjoin (pjoin P.profile_dir "Extensions") ext_path) with e' | ext
                  · simp only [fetch_extensions_from_one_profile, hl, hdir, Bool.not_true,
                      Bool.false_eq_true, if_false, hpath, if_neg hemp, if_neg hoff,
                      if_pos hon, hr]
                    exact ⟨fun x hx => hx, by trivial, by trivial⟩
                  · simp only [fetch_extensions_from_one_profile, hl, hdir, Bool.not_true,
                      Bool.false_eq_true, if_false, hpath, if_neg hemp, if_neg hoff,
                      if_pos hon, hr]
                    obtain ⟨hmono, hdir2, hid⟩ := ih
                      { P with extensions := sadd P.extensions ext_id }
                      (dinsert exts ext_id ext)
                    exact ⟨fun x hx => hmono x (mem_sadd.mpr (Or.inr hx)), hdir2, hid⟩
                · simp only [fetch_extensions_from_one_profile, hl, hdir, Bool.not_true,
                    Bool.false_eq_true, if_false, hpath, if_neg hemp, if_neg hoff, if_neg hon]
                  exact ih P exts
          all_goals
            simp only [fetch_extensions_from_one_profile, hl, hdir, Bool.not_true,
              Bool.false_eq_true, if_false, hpath]
            exact ⟨fun x hx => hx, by trivial, by trivial⟩
        all_goals
          simp only [fetch_extensions_from_one_profile, hl, hdir, Bool.not_true,
            Bool.false_eq_true, if_false]
          exact ⟨fun x hx => hx, by trivial, by trivial⟩


/-- Re-running the settings scan from its own result (with the same
incoming global index) reproduces that result: every id it added is
already in the profile's set, so each `sadd` is a no-op and each global
insert recomputes the same entry. -/
theorem extScan_rerun (fs : FS) :
    ∀ (settings : List (String × JValue)) (P : Profile)
      (exts : List (String × Extension)) (out : Profile × List (String × Extension)),
      fetch_extensions_from_one_profile fs settings P exts = (out, none) →
      fetch_extensions_from_one_profile fs settings out.1 exts = (out, none) := by
  intro settings
  induction settings with
  | nil =>
    intro P exts out h
    simp only [fetch_extensions_from_one_profile, Prod.mk.injEq] at h
    obtain ⟨h1, _⟩ := h
    subst h1
    rfl
  | cons kv rest ih =>
    intro P exts out h
    obtain ⟨ext_id, ext_set⟩ := kv
    rcases hl : dlookup exts ext_id with _ | e
    case some =>
      simp only [fetch_extensions_from_one_profile, hl] at h ⊢
      have hm := extScan_mono fs rest { P with extensions := sadd P.extensions ext_id }
        (dinsert exts ext_id { e with profiles := sadd e.profiles P.id })
      simp only [h] at hm
      have hmem : ext_id ∈ out.1.extensions :=
        hm.1 ext_id (mem_sadd.mpr (Or.inl rfl))
      have hval : ({ e with profiles := sadd e.profiles out.1.id } : Extension) =
          { e with profiles := sadd e.profiles P.id } := by
        rw [hm.2.2]
      rw [hval, sadd_of_mem hmem]
      exact ih _ _ out h
    case none =>
      cases hdir : fs.isDir (pjoin P.profile_dir "Extensions") with
      | false =>
        simp only [fetch_extensions_from_one_profile, hl, hdir, Bool.not_false, if_true] at h
        have hm := extScan_mono fs rest P exts
        simp only [h] at hm
        have hdir' : fs.isDir (pjoin out.1.profile_dir "Extensions") = false := by
          rw [hm.2.1]; exact hdir
        simp only [fetch_extensions_from_one_profile, hl, hdir', Bool.not_false, if_true]
        exact ih _ _ out h
      | true =>
        rcases ext_set with _ | b2 | n2 | s2 | a2 | set_fields
        case obj =>
          rcases hpath : jgetD set_fields "path" (.str "") with _ | b' | n' | ext_path | a' | o'
          case str =>
            by_cases hemp : ext_path = ""
            · simp only [fetch_extensions_from_one_profile, hl, hdir, Bool.not_true,
               Bool.false_eq_true, if_false, hpath, if_pos hemp] at h
              have hm := extScan_mono fs rest P exts
              simp only [h] at hm
              have hdir' : fs.isDir (pjoin out.1.profile_dir "Extensions") = true := by
                rw [hm.2.1]; exact hdir
              simp only [fetch_extensions_from_one_profile, hl, hdir', Bool.not_true,
                Bool.false_eq_true, if_false, hpath, if_pos hemp]
              exact ih _ _ out h
            · by_cases hoff : path_exists fs ext_path = true
              · rcases hmf : dlookup fs.files (pjoin ext_path "manifest.json") with _ | om
                · simp only [fetch_extensions_from_one_profile, hl, hdir, Bool.not_true,
                    Bool.false_eq_true, if_false, hpath, if_neg hemp, if_pos hoff, hmf,
                    Prod.mk.injEq] at h
                  exact absurd h.2 (by simp)
                · rcases om with _ | m
                  · simp only [fetch_extensions_from_one_profile, hl, hdir, Bool.not_true,
                      Bool.false_eq_true, if_false, hpath, if_neg hemp, if_pos hoff, hmf,
                      Prod.mk.injEq] at h
                    exact absurd h.2 (by simp)
                  · rcases hr : resolveExtMeta fs ext_id P.id m ext_path with e' | ext
                    · simp only [fetch_extensions_from_one_profile, hl, hdir, Bool.not_true,
                        Bool.false_eq_true, if_false, hpath, if_neg hemp, if_pos hoff, hmf,
                        hr, Prod.mk.injEq] at h
                      exact absurd h.2 (by simp)
                    · simp only [fetch_extensions_from_one_profile, hl, hdir, Bool.not_true,
                        Bool.false_eq_true, if_false, hpath, if_neg hemp, if_pos hoff, hmf,
                        hr] at h
                      have hm := extScan_mono fs rest
                        { P with extensions := sadd P.extensions ext_id }
                        (dinsert exts ext_id ext)
                      simp only [h] at hm
                      have hmem : ext_id ∈ out.1.extensions :=
                        hm.1 ext_id (mem_sadd.mpr (Or.inl rfl))
                      have hdir' : fs.isDir (pjoin out.1.profile_dir "Extensions") = true := by
                        rw [hm.2.1]; exact hdir
                      have hr' : resolveExtMeta fs ext_id out.1.id m ext_path = .ok ext := by
                        rw [hm.2.2]; exact hr
                      simp only [fetch_extensions_from_one_profile, hl, hdir',
                        Bool.not_true, Bool.false_eq_true, if_false, hpath,
                        if_neg hemp, if_pos hoff, hmf, hr']
                      rw [sadd_of_mem hmem]
                      exact ih _ _ out h
              · by_cases hon :
                    path_exists fs (pjoin (pjoin P.profile_dir "Extensions") ext_path) = true
                · rcases hr : resolveExtMeta fs ext_id P.id
                      (jgetD set_fields "manifest" (.obj []))
                      (pjoin (pjoin P.profile_dir "Extensions") ext_path) with e' | ext
                  · simp only [fetch_extensions_from_one_profile, hl, hdir, Bool.not_true,
                      Bool.false_eq_true, if_false, hpath, if_neg hemp, if_neg hoff,
                      if_pos hon, hr, Prod.mk.injEq] at h
                    exact absurd h.2 (by simp)
                  · simp only [fetch_extensions_from_one_profile, hl, hdir, Bool.not_true,
                      Bool.false_eq_true, if_false, hpath, if_neg hemp, if_neg hoff,
                      if_pos hon, hr] at h
                    have hm := extScan_mono fs rest
                      { P with extensions := sadd P.extensions ext_id }
                      (dinsert exts ext_id ext)
                    simp only [h] at hm
                    have hmem : ext_id ∈ out.1.extensions :=
                      hm.1 ext_id (mem_sadd.mpr (Or.inl rfl))
                    have hdir' : fs.isDir (pjoin out.1.profile_dir "Extensions") = true := by
                      rw [hm.2.1]; exact hdir
                    have hon' : path_exists fs
                        (pjoin (pjoin out.1.profile_dir "Extensions") ext_path) = true := by
                      rw [hm.2.1]; exact hon
                    have hr' : resolveExtMeta fs ext_id out.1.id
                        (jgetD set_fields "manifest" (.obj []))
                        (pjoin (pjoin out.1.profile_dir "Extensions") ext_path) = .ok ext := by
                      rw [hm.2.1, hm.2.2]; exact hr
                    simp only [fetch_extensions_from_one_profile, hl, hdir',
                      Bool.not_true, Bool.false_eq_true, if_false, hpath,
                      if_neg hemp, if_neg hoff, if_pos hon', hr']
                    rw [sadd_of_mem hmem]
                    exact ih _ _ out h
                · simp only [fetch_extensions_from_one_profile, hl, hdir, Bool.not_true,
                    Bool.false_eq_true, if_false, hpath, if_neg hemp, if_neg hoff,
                    if_neg hon] at h
                  have hm := extScan_mono fs rest P exts
                  simp only [h] at hm
                  have hdir' : fs.isDir (pjoin out.1.profile_dir "Extensions") = true := by
                    rw [hm.2.1]; exact hdir
                  have hon' : ¬ path_exists fs
                      (pjoin (pjoin out.1.profile_dir "Extensions") ext_path) = true := by
                    rw [hm.2.1]; exact hon
                  simp only [fetch_extensions_from_one_profile, hl, hdir', Bool.not_true,
                    Bool.false_eq_true, if_false, hpath, if_neg hemp, if_neg hoff,
                    if_neg hon']
                  exact ih _ _ out h
          all_goals
            simp only [fetch_extensions_from_one_profile, hl, hdir, Bool.not_true,
              Bool.false_eq_true, if_false, hpath, Prod.mk.injEq] at h
            exact absurd h.2 (by simp)
        all_goals
          simp only [fetch_extensions_from_one_profile, hl, hdir, Bool.not_true,
            Bool.false_eq_true, if_false, Prod.mk.injEq] at h
          exact absurd h.2 (by simp)


theorem extStep_rerun (fs : FS) (P : Profile) (exts : List (String × Extension))
    (out : Profile × List (String × Extension))
    (h : extProfileStep fs P exts = (out, none)) :
    extProfileStep fs out.1 exts = (out, none) := by
  simp only [extProfileStep] at h ⊢
  rcases hsp : dlookup fs.files (pjoin P.profile_dir "Secure Preferences") with _ | od
  · simp only [hsp, Prod.mk.injEq] at h
    obtain ⟨h1, _⟩ := h
    subst h1
    simp [hsp]
  · rcases od with _ | data
    · simp only [hsp, Prod.mk.injEq] at h
      obtain ⟨h1, _⟩ := h
      subst h1
      simp [hsp]
    · simp only [hsp] at h
      rcases hgc : get_with_chained_keys data ["extensions", "settings"] with _ | v
      · simp only [hgc, Prod.mk.injEq] at h
        obtain ⟨h1, _⟩ := h
        subst h1
        simp [hsp, hgc]
      · rcases v with _ | b | n | sv | a | ext_settings
        case obj =>
          simp only [hgc] at h
          have hm := extScan_mono fs ext_settings P exts
          simp only [h] at hm
          have hsp' : dlookup fs.files (pjoin out.1.profile_dir "Secure Preferences") =
              some (some data) := by
            rw [hm.2.1]; exact hsp
          simp only [hsp', hgc]
          exact extScan_rerun fs ext_settings P exts out h
        all_goals
          simp only [hgc, Prod.mk.injEq] at h
          exact absurd h.2 (by simp)

theorem extLoop_rerun (fs : FS) :
    ∀ (profs : List (String × Profile)) (exts : List (String × Extension))
      (out : List (String × Profile) × List (String × Extension)),
      extProfilesLoop fs profs exts = (out, none) →
      extProfilesLoop fs out.1 exts = (out, none) := by
  intro profs
  induction profs with
  | nil =>
    intro exts out h
    simp only [extProfilesLoop, Prod.mk.injEq] at h
    obtain ⟨h1, _⟩ := h
    subst h1
    rfl
  | cons pp rest ih =>
    intro exts out h
    obtain ⟨pid, P⟩ := pp
    simp only [extProfilesLoop] at h
    rcases hstep : extProfileStep fs P exts with ⟨⟨P1, e1⟩, err⟩
    rw [hstep] at h
    cases err with
    | some e => simp at h
    | none =>
      dsimp only at h
      rcases hrest : extProfilesLoop fs rest e1 with ⟨⟨rest1, E1⟩, err2⟩
      rw [hrest] at h
      simp only [Prod.mk.injEq] at h
      obtain ⟨hPair, herr⟩ := h
      subst herr
      subst hPair
      simp only [extProfilesLoop]
      have hstep2 := extStep_rerun fs P exts (P1, e1) hstep
      rw [hstep2]
      dsimp only
      have hrest2 := ih e1 (rest1, E1) hrest
      rw [hrest2]

theorem fetch_extensions_rerun (s : ChromInstance) (fs : FS) (s1 : ChromInstance)
    (h : fetch_extensions_from_all_profiles s fs = (s1, none)) :
    fetch_extensions_from_all_profiles s1 fs = (s1, none) := by
  simp only [fetch_extensions_from_all_profiles] at h ⊢
  rcases hloop : extProfilesLoop fs s.profiles [] with ⟨⟨profs1, E1⟩, err⟩
  rw [hloop] at h
  simp only [Prod.mk.injEq] at h
  obtain ⟨hs, herr⟩ := h
  subst herr
  subst hs
  have hl2 := extLoop_rerun fs s.profiles [] (profs1, E1) hloop
  dsimp only
  rw [hl2]

theorem bstep_rerun (fs : FS) (P : Profile) (gB : List (String × Bookmark))
    (out : Profile × List (String × Bookmark))
    (h : bmkProfileStep fs P gB = (out, none)) :
    bmkProfileStep fs out.1 gB = (out, none) := by
  simp only [bmkProfileStep] at h ⊢
  rcases hbf : dlookup fs.files (pjoin P.profile_dir "Bookmarks") with _ | parsed
  · simp only [hbf, Prod.mk.injEq] at h
    obtain ⟨h1, _⟩ := h
    subst h1
    simp [hbf]
  · rcases parsed with _ | bookmark_data
    · simp only [hbf, Prod.mk.injEq] at h
      obtain ⟨h1, _⟩ := h
      subst h1
      simp [hbf]
    · simp only [hbf] at h
      rcases hgc : get_with_chained_keys bookmark_data ["roots"] with _ | v
      · simp only [hgc, Prod.mk.injEq] at h
        obtain ⟨h1, _⟩ := h
        subst h1
        simp [hbf, hgc]
      · rcases v with _ | b | n | sv | a | roots
        case obj =>
          simp only [hgc] at h
          rcases hw : fetch_bookmarks_list P.id (roots.map Prod.snd) [.str ""]
              P.bookmarks gB with ⟨⟨pB1, gB1⟩, err⟩
          rw [hw] at h
          simp only [Prod.mk.injEq] at h
          obtain ⟨h1, herr⟩ := h
          subst herr
          subst h1
          have hchar := (fetchF_spec (sizeOf (roots.map Prod.snd))).2 P.id
            (roots.map Prod.snd) [.str ""] P.bookmarks gB (pB1, gB1) le_rfl hw
          have hq1 := hchar P.bookmarks
          rw [show fetchBmkListF (sizeOf (roots.map Prod.snd)) P.id (roots.map Prod.snd)
            [.str ""] P.bookmarks gB = fetch_bookmarks_list P.id (roots.map Prod.snd)
            [.str ""] P.bookmarks gB from rfl, hw, Prod.mk.injEq, Prod.mk.injEq] at hq1
          obtain ⟨⟨hpB1, hgB1⟩, _⟩ := hq1
          have hrun2 : fetch_bookmarks_list P.id (roots.map Prod.snd) [.str ""] pB1 gB =
              ((pB1, gB1), none) := by
            rw [show fetch_bookmarks_list P.id (roots.map Prod.snd) [.str ""] pB1 gB =
              fetchBmkListF (sizeOf (roots.map Prod.snd)) P.id (roots.map Prod.snd)
              [.str ""] pB1 gB from rfl, hchar pB1]
            rw [hpB1, applyAll_idem, hgB1]
          simp [hbf, hgc, hrun2]
        all_goals
          simp only [hgc, Prod.mk.injEq] at h
          exact absurd h.2 (by simp)

theorem bloop_rerun (fs : FS) :
    ∀ (profs : List (String × Profile)) (gB : List (String × Bookmark))
      (out : List (String × Profile) × List (String × Bookmark)),
      bmkProfilesLoop fs profs gB = (out, none) →
      bmkProfilesLoop fs out.1 gB = (out, none) := by
  intro profs
  induction profs with
  | nil =>
    intro gB out h
    simp only [bmkProfilesLoop, Prod.mk.injEq] at h
    obtain ⟨h1, _⟩ := h
    subst h1
    rfl
  | cons pp rest ih =>
    intro gB out h
    obtain ⟨pid, P⟩ := pp
    simp only [bmkProfilesLoop] at h
    rcases hstep : bmkProfileStep fs P gB with ⟨⟨P1, g1⟩, err⟩
    rw [hstep] at h
    cases err with
    | some e => simp at h
    | none =>
      dsimp only at h
      rcases hrest : bmkProfilesLoop fs rest g1 with ⟨⟨rest1, G1⟩, err2⟩
      rw [hrest] at h
      simp only [Prod.mk.injEq] at h
      obtain ⟨hPair, herr⟩ := h
      subst herr
      subst hPair
      simp only [bmkProfilesLoop]
      have hstep2 := bstep_rerun fs P gB (P1, g1) hstep
      rw [hstep2]
      dsimp only
      have hrest2 := ih g1 (rest1, G1) hrest
      rw [hrest2]

theorem fetch_bookmarks_rerun (s : ChromInstance) (fs : FS) (s1 : ChromInstance)
    (h : fetch_bookmarks_from_all_profiles s fs = (s1, none)) :
    fetch_bookmarks_from_all_profiles s1 fs = (s1, none) := by
  simp only [fetch_bookmarks_from_all_profiles] at h ⊢
  rcases hloop : bmkProfilesLoop fs s.profiles [] with ⟨⟨profs1, G1⟩, err⟩
  rw [hloop] at h
  simp only [Prod.mk.injEq] at h
  obtain ⟨hs, herr⟩ := h
  subst herr
  subst hs
  have hl2 := bloop_rerun fs s.profiles [] (profs1, G1) hloop
  dsimp only
  rw [hl2]


/-- A filesystem with a `Local State` file as well, used to witness C7. -/
def c7Fs : FS :=
  { dirs := ["u", "u/p1", "u/p1/Extensions", "off"],
    files := [
      ("u/Local State", some (.obj [("profile", .obj [("info_cache",
        .obj [("p1", .obj [("name", .str "Person 1")])])])])),
      ("u/p1/Bookmarks", some (.obj [("roots", .obj [("bookmark_bar", c4Tree)])])),
      ("u/p1/Secure Preferences", some (.obj [("extensions", .obj [("settings",
        .obj [("e1", .obj [("path", .str "off")])])])])),
      ("off/manifest.json", some (.obj [("name", .str "Ext"),
        ("icons", .obj [("16", .str "a.png")])])),
      ("off/a.png", some .null)] }

/-- C7: each of the three discovery operations is idempotent on runs that
return normally with the filesystem unchanged: re-running it from its own
result state reproduces exactly that state, again without an exception —
each call is a full clear-and-rebuild resync. -/
theorem c7_discovery_idempotent :
    (∀ (s : ChromInstance) (fs : FS) (s1 : ChromInstance),
      fetch_all_profiles s fs = (s1, none) →
      fetch_all_profiles s1 fs = (s1, none)) ∧
    (∀ (s : ChromInstance) (fs : FS) (s1 : ChromInstance),
      fetch_extensions_from_all_profiles s fs = (s1, none) →
      fetch_extensions_from_all_profiles s1 fs = (s1, none)) ∧
    (∀ (s : ChromInstance) (fs : FS) (s1 : ChromInstance),
      fetch_bookmarks_from_all_profiles s fs = (s1, none) →
      fetch_bookmarks_from_all_profiles s1 fs = (s1, none)) :=
  ⟨fetch_all_profiles_rerun, fetch_extensions_rerun, fetch_bookmarks_rerun⟩

/-- Witness for C7: on a concrete state with a full set of state files,
each rerun from the first call's result reproduces that result. -/
theorem c7_discovery_idempotent_witness :
    fetch_all_profiles (fetch_all_profiles c4S c7Fs).1 c7Fs =
      ((fetch_all_profiles c4S c7Fs).1, none) ∧
    fetch_extensions_from_all_profiles
        (fetch_extensions_from_all_profiles c4S c7Fs).1 c7Fs =
      ((fetch_extensions_from_all_profiles c4S c7Fs).1, none) ∧
    fetch_bookmarks_from_all_profiles
        (fetch_bookmarks_from_all_profiles c4S c7Fs).1 c7Fs =
      ((fetch_bookmarks_from_all_profiles c4S c7Fs).1, none) :=
  ⟨c7_discovery_idempotent.1 c4S c7Fs _ rfl,
   c7_discovery_idempotent.2.1 c4S c7Fs _ rfl,
   c7_discovery_idempotent.2.2 c4S c7Fs _ rfl⟩

end Chromy
